import Mathlib

/-!
Verification of the sitetostatic web-archiving tool.

This file gives a shallow embedding, in Lean 4, of the parts of the Go
source that the specification's claims are about:

* the CSS string escaper/unescaper (`rewrite` package, css.go),
* the CSS and HTML token-level rewriters (css.go, html.go),
* the deduplicating task queue (`scraper` package, queue.go),
* the response store writer (`repository` package, repository.go),
* the URL canonicalizer (`urlnorm` package and `repository.Key`),
* the rebase operation (`urlrebase` package),
* the scraper's metadata construction (`scraper.storeResponse`).

Go strings handled rune-by-rune are modelled as `List Char` (a valid
UTF-8 Go string corresponds exactly to its sequence of Unicode scalar
values, which is what `List Char` is); byte-level output of the
rewriters is modelled as the corresponding character sequence, which is
faithful because the rewriters only ever concatenate verbatim slices of
their input with callback-produced strings.  External collaborators
(the tdewolff HTML/CSS lexers, the Go standard library) are modelled at
their documented interfaces; each such model is marked in its doc
comment.
-/

/-! ## CSS string escaping (css.go: cssEscapeString / cssUnescapeString)

The Go code decodes runes with `utf8.DecodeRune`; on valid UTF-8 input
this yields exactly the sequence of Unicode scalar values, so both
functions are modelled on `List Char`.  The `utf8.RuneError && size == 1`
branches of the Go code fire exactly on invalid UTF-8, which has no
representative in `List Char`; all other branches are modelled one to
one. -/

deriving instance DecidableEq for Except

/-- The single-quote character, written via its code point. -/
def singleQuote : Char := Char.ofNat 39

/-- The backslash character, written via its code point. -/
def backslash : Char := Char.ofNat 92

/-- css.go `isHexDigit`.  Note the source writes `r >= 'a' && r < 'f'`
(strict), so lowercase `f` is not accepted. -/
def isHexDigit (r : Char) : Bool :=
  ('0' ≤ r && r ≤ '9') || ('a' ≤ r && r < 'f') || ('A' ≤ r && r ≤ 'F')

/-- css.go `isWhiteSpace`. -/
def isWhiteSpace (r : Char) : Bool :=
  r = '\n' || r = '\t' || r = ' '

/-- One iteration step of css.go `cssEscapeString`: the escape sequence
emitted for a single rune.  `\n`, `"` and `\` become backslash, lowercase
hex digits (as produced by Go's `strconv.FormatInt(..., 16)`), and a
trailing space; every other rune is copied verbatim. -/
def cssEscapeChar (r : Char) : List Char :=
  if r = '\n' || r = '"' || r = backslash then
    backslash :: Nat.toDigits 16 r.toNat ++ [' ']
  else
    [r]

/-- css.go `cssEscapeString` on a valid UTF-8 string: a double quote,
the escaped body, and a closing double quote.  On valid UTF-8 input the
Go function never returns an error. -/
def cssEscapeString (value : List Char) : List Char :=
  '"' :: value.flatMap cssEscapeChar ++ ['"']

/-- Numeric value of a hex digit, as `strconv.ParseUint(..., 16, 32)`
assigns it. -/
def hexDigitVal (c : Char) : Nat :=
  if '0' ≤ c && c ≤ '9' then c.toNat - '0'.toNat
  else if 'a' ≤ c && c ≤ 'f' then c.toNat - 'a'.toNat + 10
  else c.toNat - 'A'.toNat + 10

/-- Value of a hex digit string (Go `strconv.ParseUint(s, 16, 32)`; the
source passes at most six digits, so the 32-bit bound never trips). -/
def hexVal (ds : List Char) : Nat :=
  ds.foldl (fun acc c => acc * 16 + hexDigitVal c) 0

/-- Go `strings.Builder.WriteRune`: an invalid code point (surrogate or
above U+10FFFF) is replaced by U+FFFD. -/
def goWriteRune (n : Nat) : Char :=
  if n < 0xD800 || (0xE000 ≤ n && n ≤ 0x10FFFF) then Char.ofNat n
  else Char.ofNat 0xFFFD

/-- The hex-digit collection loop inside css.go `consumeEscape`: take up
to `n` further hex digits, returning them and the unconsumed rest. -/
def takeHex : Nat → List Char → List Char × List Char
  | 0, l => ([], l)
  | _ + 1, [] => ([], [])
  | n + 1, c :: t =>
    if isHexDigit c then
      let (ds, r) := takeHex n t
      (c :: ds, r)
    else
      ([], c :: t)

/-- css.go `consumeEscape`, on the data following a backslash.  Returns
the emitted runes together with the remaining data.  A hex escape reads
up to six hex digits and then consumes a single optional whitespace
rune; `\<newline>` emits nothing; any other rune is emitted literally.
Reaching the end of data is an error. -/
def consumeEscape : List Char → Except String (List Char × List Char)
  | [] => .error "css: unescape string: end of data in escape"
  | r :: rest =>
    if isHexDigit r then
      let (ds, rest1) := takeHex 5 rest
      let rest2 := match rest1 with
        | [] => ([] : List Char)
        | w :: t => if isWhiteSpace w then t else w :: t
      .ok ([goWriteRune (hexVal (r :: ds))], rest2)
    else if r = '\n' then
      .ok ([], rest)
    else
      .ok ([r], rest)

/-- The main loop of css.go `cssUnescapeString`, after the opening quote
has been consumed: collect content runes until the closing quote,
handling escapes, rejecting a bare newline or end of data.  Returns the
content and the data remaining after the closing quote. -/
def cssUnescapeLoop (quote : Char) : List Char → Except String (List Char × List Char)
  | [] => .error "unclosed string"
  | r :: rest =>
    if r = quote then .ok ([], rest)
    else if r = '\n' then .error "css: unescape string: newline encountered"
    else if r = backslash then
      match h : consumeEscape rest with
      | .error e => .error e
      | .ok (emitted, rest1) =>
        match cssUnescapeLoop quote rest1 with
        | .error e => .error e
        | .ok (content, remaining) => .ok (emitted ++ content, remaining)
    else
      match cssUnescapeLoop quote rest with
      | .error e => .error e
      | .ok (content, remaining) => .ok (r :: content, remaining)
termination_by l => l.length
decreasing_by
  · have htk : ∀ (n : Nat) (l : List Char), (takeHex n l).2.length ≤ l.length := by
      intro n
      induction n with
      | zero =>
        intro l
        simp [takeHex]
      | succ n ih =>
        intro l
        cases l with
        | nil => simp [takeHex]
        | cons c t =>
          simp only [takeHex]
          split
          · simpa using Nat.le_succ_of_le (ih t)
          · simp
    have hce : ∀ (l em rs : List Char), consumeEscape l = .ok (em, rs) →
        rs.length ≤ l.length := by
      intro l em rs h2
      cases l with
      | nil => simp [consumeEscape] at h2
      | cons r2 t =>
        simp only [consumeEscape] at h2
        split at h2
        · have ht := htk 5 t
          simp only [Except.ok.injEq, Prod.mk.injEq] at h2
          obtain ⟨-, h3⟩ := h2
          subst h3
          revert ht
          cases htk2 : takeHex 5 t with
          | mk ds r1 =>
            intro ht
            cases r1 with
            | nil => simp
            | cons w t1 =>
              simp only
              split
              · simp only [List.length_cons] at ht ⊢
                omega
              · simp only [List.length_cons] at ht ⊢
                omega
        · split at h2
          · simp only [Except.ok.injEq, Prod.mk.injEq] at h2
            obtain ⟨-, h3⟩ := h2
            subst h3
            simp
          · simp only [Except.ok.injEq, Prod.mk.injEq] at h2
            obtain ⟨-, h3⟩ := h2
            subst h3
            simp
    exact Nat.lt_succ_of_le (hce _ _ _ h)
  · simp

/-- css.go `cssUnescapeString`: expects an opening quote (double or
single), unescapes the body up to the matching quote, and returns the
content together with the number of runes consumed (the Go function
counts consumed bytes; on valid UTF-8 the rune count determines the byte
count, and the two notions of "consumed everything" coincide). -/
def cssUnescapeString : List Char → Except String (List Char × Nat)
  | [] => .error "unexpected rune instead of quote"
  | q :: rest =>
    if q = '"' || q = singleQuote then
      match cssUnescapeLoop q rest with
      | .error e => .error e
      | .ok (content, remaining) => .ok (content, rest.length + 1 - remaining.length)
    else .error "unexpected rune instead of quote"

/-! ## Deduping task queue (scraper package, queue.go)

`queue(initialTasks, in, doneTask, out)` runs a select loop while
`incompleteTasks > 0`.  The model below mirrors the Go loop as a state
machine: one state per loop iteration, one event per select arm.  The
`linkedQueue` is a FIFO list (head = left); popping the head and
restoring it via `pushLeft` on the non-send arms cancels out, so each
select arm acts atomically on the state, as modelled.  `inFlight` is a
ghost counter (tasks sent to `out` minus completed tasks) used to state
the termination claim; it is not program state. -/

/-- scraper `task`: canonical key plus download URL (the `next` pointer
is the intrusive linked-list link, represented by `List` below). -/
structure QTask where
  key : String
  url : String

deriving DecidableEq, Repr

/-- queue.go initial-seeding loop: for each initial task, skip it if its
key is in `addedKeys`, else append it to the queue.  Faithful to the
source, the loop never inserts into `addedKeys`, so the membership test
can never fire. -/
def seedLoop (added : List String) (q : List QTask) : List QTask → List String × List QTask
  | [] => (added, q)
  | t :: rest =>
    if t.key ∈ added then seedLoop added q rest
    else seedLoop added (q ++ [t]) rest

/-- State of the queue loop.  `pending`, `addedKeys`, `incomplete` and
`inOpen` are the Go locals (`q`, `addedKeys`, `incompleteTasks`, whether
`in` is non-nil); `inFlight` is the ghost sent-minus-done counter. -/
structure QState where
  pending : List QTask
  addedKeys : List String
  incomplete : Nat
  inFlight : Nat
  inOpen : Bool

deriving DecidableEq, Repr

/-- queue.go state after the seeding loop and `incompleteTasks :=
len(initialTasks)`, before the select loop starts. -/
def qInit (initial : List QTask) : QState :=
  let (added, pend) := seedLoop [] [] initial
  { pending := pend
    addedKeys := added
    incomplete := initial.length
    inFlight := 0
    inOpen := true }

/-- One select-arm event of the queue loop: a task received on `in`, the
`in` channel closing, the current head task sent on `out`, a completion
received on `doneTask` (`ok = true`), or a receive from a closed
`doneTask` (`ok = false`). -/
inductive QEvent where
  | offer (t : QTask)
  | inClosed
  | send
  | done
  | doneClosed

deriving DecidableEq, Repr

/-- One iteration of queue.go's select loop.  `none` means the event
cannot occur in this state: the loop has exited (`incompleteTasks = 0`),
the `in` arm is disabled (`in == nil`), or the send arm is disabled
(`sendChan == nil` because the queue is empty). -/
def qStep (s : QState) (e : QEvent) : Option QState :=
  if s.incomplete = 0 then none
  else match e with
    | .offer t =>
      if !s.inOpen then none
      else if t.key ∈ s.addedKeys then some s
      else some { s with addedKeys := t.key :: s.addedKeys
                         pending := s.pending ++ [t]
                         incomplete := s.incomplete + 1 }
    | .inClosed => if !s.inOpen then none else some { s with inOpen := false }
    | .send =>
      match s.pending with
      | [] => none
      | _ :: rest => some { s with pending := rest, inFlight := s.inFlight + 1 }
    | .done => some { s with incomplete := s.incomplete - 1, inFlight := s.inFlight - 1 }
    | .doneClosed => some s

/-- Run the queue loop over a sequence of events. -/
def qRun (s : QState) : List QEvent → Option QState
  | [] => some s
  | e :: es =>
    match qStep s e with
    | none => none
    | some s1 => qRun s1 es

/-- Well-formed event traces: a completion is only ever delivered for a
task previously handed to a worker and not yet completed (`done` fires
only while the ghost `inFlight` is positive).  The workers in
scraper.go guarantee this: each sends exactly one `doneTask` message per
task received from `out`. -/
def qTraceWF (s : QState) : List QEvent → Bool
  | [] => true
  | e :: es =>
    (decide (e = .done) → decide (0 < s.inFlight)) &&
    (match qStep s e with
     | none => true
     | some s1 => qTraceWF s1 es)

/-- The counting invariant of the queue loop: `incompleteTasks` equals
the number of pending tasks plus the number in flight. -/
def qInv (s : QState) : Prop :=
  s.incomplete = s.pending.length + s.inFlight

/-! ## Response store (repository package, repository.go)

`NewWriter` creates a temp file, seeks past the 52-byte header area,
and streams body bytes; `DocumentWriter.Close(metadata)` appends the
metadata JSON, writes the sealed header at offset 0, closes the file and
renames it over the final path derived from `metadata.Key`.  The model
tracks the temp file's regions and the final path explicitly, and runs
`Close` against an oracle saying which fallible operation fails.  The
external hash/encoding functions (`encoding/json.Marshal`,
`crc32.ChecksumIEEE`, `sha256`) are parameters of the model; `Close`
only ever applies them, so the claims hold for every choice.  Bytes are
modelled as `Nat`. -/

/-- repository.DocumentMetadata (all JSON fields). -/
structure DocumentMetadata where
  key : String
  downloadStartedTime : Nat
  url : String
  status : String
  statusCode : Int
  proto : String
  headers : List (String × List String)
  trailers : List (String × List String)

deriving DecidableEq, Repr

/-- The 52-byte binary header of a store file. -/
structure StoreHeader where
  magic : String
  bodySize : Nat
  bodySHA256 : List Nat
  jsonSize : Nat
  jsonCRC32 : Nat

deriving DecidableEq, Repr

/-- Contents of a store file (temp or sealed): the header area (none
while still only reserved by the initial seek), the body region, and the
metadata JSON tail. -/
structure StoreFile where
  headerArea : Option StoreHeader
  body : List Nat
  tail : List Nat

deriving DecidableEq, Repr

/-- Which fallible step of `DocumentWriter.Close` fails (the oracle for
one run). -/
structure CloseOracle where
  marshalFails : Bool
  writeJsonFails : Bool
  seekFails : Bool
  writeHeaderFails : Bool
  closeFails : Bool
  renameFails : Bool

deriving DecidableEq, Repr

/-- Result of a `Close` run: the Go return value, the temp file still on
disk (if any), and the file at the final path (if any). -/
structure CloseResult where
  returnedError : Bool
  tempFile : Option StoreFile
  finalFile : Option StoreFile

deriving DecidableEq, Repr

/-- The temp file as `NewWriter` plus a sequence of `Write` calls leaves
it: header area only reserved, body streamed, no tail yet. -/
def newWriterTemp (body : List Nat) : StoreFile :=
  { headerArea := none, body := body, tail := [] }

/-- The sealed header `Close` writes at offset 0: magic `STS1`, body
size = bytes written, body hash, JSON size and JSON CRC32. -/
def sealedHeader (crc32 : List Nat → Nat) (sha256 : List Nat → List Nat)
    (body jsonData : List Nat) : StoreHeader :=
  { magic := "STS1"
    bodySize := body.length
    bodySHA256 := sha256 body
    jsonSize := jsonData.length
    jsonCRC32 := crc32 jsonData }

/-- The fully written temp file contents just before close/rename. -/
def sealedFile (crc32 : List Nat → Nat) (sha256 : List Nat → List Nat)
    (body jsonData : List Nat) : StoreFile :=
  { headerArea := some (sealedHeader crc32 sha256 body jsonData)
    body := body
    tail := jsonData }

/-- repository.go `DocumentWriter.Close(metadata)`, against failure
oracle `o`, with `jsonEnc`, `crc32`, `sha256` standing for
`json.Marshal`, `crc32.ChecksumIEEE` and the body hasher.  Mirrors the
source: marshal; overflow check; append JSON; seek 0; write header;
close; rename.  The deferred cleanup removes the temp file on every
failure before the `closed = true` assignment; the close and rename
steps themselves leave the temp file behind on failure. -/
def documentWriterClose (jsonEnc : DocumentMetadata → List Nat)
    (crc32 : List Nat → Nat) (sha256 : List Nat → List Nat)
    (o : CloseOracle) (body : List Nat) (metadata : DocumentMetadata) : CloseResult :=
  if o.marshalFails then
    { returnedError := true, tempFile := none, finalFile := none }
  else
    let jsonData := jsonEnc metadata
    if jsonData.length > 4294967295 then
      { returnedError := true, tempFile := none, finalFile := none }
    else if o.writeJsonFails then
      { returnedError := true, tempFile := none, finalFile := none }
    else if o.seekFails then
      { returnedError := true, tempFile := none, finalFile := none }
    else if o.writeHeaderFails then
      { returnedError := true, tempFile := none, finalFile := none }
    else if o.closeFails then
      { returnedError := true, tempFile := some (sealedFile crc32 sha256 body jsonData),
        finalFile := none }
    else if o.renameFails then
      { returnedError := true, tempFile := some (sealedFile crc32 sha256 body jsonData),
        finalFile := none }
    else
      { returnedError := false, tempFile := none,
        finalFile := some (sealedFile crc32 sha256 body jsonData) }

/-! ## HTML rewriter (rewrite package, html.go, rewrite.go)

The rewriter consumes tokens of the tdewolff HTML lexer.  The lexer is
external; it is modelled by the token stream itself: each token carries
the fields the rewriter reads (`rawData` = the input bytes the token
occupies, `Text()`, `AttrVal()`, and for attributes the lexer `data`
slice).  The input byte stream is the concatenation of the tokens' raw
bytes (the lexer's tiling property).  The Go loop structure (main loop,
`rewriteAttributes`, `processMeta` buffering) is embedded as the
per-token state machine of §4.8: `Outside`, inside a plain/base start
tag, or buffering a `meta` tag — one token consumed per step, which is
exactly the control flow of the source. -/

/-- rewrite.go URLType. -/
inductive URLType where
  | unknown
  | base
  | openGraph
  | css

deriving DecidableEq, Repr

/-- rewrite.go URL: the record handed to the callback. -/
structure RewriteURL where
  value : List Char
  base : List Char
  newBase : List Char
  type : URLType

deriving DecidableEq, Repr

/-- Result of the Go callback `(string, error)`: a replacement, the
`ErrNotModified` sentinel, or another error. -/
inductive CbResult where
  | ok (s : List Char)
  | notModified
  | err (msg : String)

deriving DecidableEq, Repr

/-- rewrite.go URLRewriter. -/
def URLRewriter := RewriteURL → CbResult

/-- Go `html.EscapeString` escapes exactly `&`, `'`, `<`, `>`, `"`. -/
def htmlEscapeChar (c : Char) : List Char :=
  if c = '&' then "&amp;".data
  else if c = singleQuote then "&#39;".data
  else if c = '<' then "&lt;".data
  else if c = '>' then "&gt;".data
  else if c = '"' then "&#34;".data
  else [c]

def htmlEscapeString (s : List Char) : List Char :=
  s.flatMap htmlEscapeChar

/-- Go `html.UnescapeString`, modelled for the five basic entities (the
Go table is much larger; no theorem below depends on the value this
function returns, only the C2 proof needs it to be total, and the
counterexample inputs contain no `&`). -/
def htmlUnescapeString : List Char → List Char
  | [] => []
  | '&' :: 'a' :: 'm' :: 'p' :: ';' :: rest => '&' :: htmlUnescapeString rest
  | '&' :: 'l' :: 't' :: ';' :: rest => '<' :: htmlUnescapeString rest
  | '&' :: 'g' :: 't' :: ';' :: rest => '>' :: htmlUnescapeString rest
  | '&' :: 'q' :: 'u' :: 'o' :: 't' :: ';' :: rest => '"' :: htmlUnescapeString rest
  | '&' :: '#' :: '3' :: '9' :: ';' :: rest => singleQuote :: htmlUnescapeString rest
  | c :: rest => c :: htmlUnescapeString rest

/-- html.go html5Rewriter per-document state: the effective base, the
new base, and the (never assigned) `baseURLSet` flag. -/
structure RwState where
  baseURL : List Char
  newBaseURL : List Char
  baseURLSet : Bool

deriving DecidableEq, Repr

/-- The zero value of the html5Rewriter state at the start of `HTML5`. -/
def initRwState : RwState :=
  { baseURL := [], newBaseURL := [], baseURLSet := false }

/-- An entry of html.go's `attributeHandlers` table: plain URL handler,
URL list with a separator, or srcset. -/
inductive HandlerKind where
  | url
  | urlList (sep : Char)
  | srcset

deriving DecidableEq, Repr

/-- Membership of a tag name in a list of handled tags (html.go `tags`). -/
def tagIn (t : List Char) (l : List String) : Bool :=
  l.any (fun s => t = s.data)

/-- html.go `findHandler` over the `attributeHandlers` table
(map attrName → map tagName → handler). -/
def findHandler (tagName attrName : List Char) : Option HandlerKind :=
  if attrName = "action".data then
    if tagIn tagName ["form"] then some .url else none
  else if attrName = "archive".data then
    if tagName = "object".data then some (.urlList ' ')
    else if tagName = "applet".data then some (.urlList ',')
    else none
  else if attrName = "background".data then
    if tagIn tagName ["body"] then some .url else none
  else if attrName = "cite".data then
    if tagIn tagName ["blockquote", "del", "ins", "q"] then some .url else none
  else if attrName = "classid".data then
    if tagIn tagName ["object"] then some .url else none
  else if attrName = "codebase".data then
    if tagIn tagName ["applet", "object"] then some .url else none
  else if attrName = "data".data then
    if tagIn tagName ["object"] then some .url else none
  else if attrName = "formaction".data then
    if tagIn tagName ["button", "input"] then some .url else none
  else if attrName = "href".data then
    if tagIn tagName ["a", "area", "link"] then some .url else none
  else if attrName = "icon".data then
    if tagIn tagName ["command"] then some .url else none
  else if attrName = "longdesc".data then
    if tagIn tagName ["img", "frame", "iframe"] then some .url else none
  else if attrName = "manifest".data then
    if tagIn tagName ["html"] then some .url else none
  else if attrName = "poster".data then
    if tagIn tagName ["video"] then some .url else none
  else if attrName = "profile".data then
    if tagIn tagName ["head"] then some .url else none
  else if attrName = "src".data then
    if tagIn tagName ["audio", "embed", "iframe", "img", "input", "script", "source",
        "track", "video", "frame"] then some .url else none
  else if attrName = "srcset".data then
    if tagIn tagName ["img", "source"] then some .srcset else none
  else if attrName = "usemap".data then
    if tagIn tagName ["img", "input", "object"] then some .url else none
  else none

/-- part_004 `openGraphURLProperties` membership. -/
def isOpenGraphURLProperty (name : List Char) : Bool :=
  tagIn name ["image", "og:url", "og:image", "og:image:url", "og:image:secure_url",
    "og:video", "og:video:url", "og:video:secure_url",
    "og:audio", "og:audio:url", "og:audio:secure_url"]

/-- ASCII whitespace as used by Go `strings.TrimSpace` on the srcset
values handled here (the Unicode space classes beyond ASCII are not
modelled; srcset descriptors are ASCII). -/
def isGoSpace (c : Char) : Bool :=
  c = ' ' || c = '\t' || c = '\n' || c = '\r' || c = Char.ofNat 11 || c = Char.ofNat 12

/-- Go `strings.TrimSpace`. -/
def trimSpace (l : List Char) : List Char :=
  ((l.dropWhile isGoSpace).reverse.dropWhile isGoSpace).reverse

/-- Go `strings.SplitN(s, " ", 2)`: split at the first space only. -/
def splitNSpace2 (l : List Char) : List (List Char) :=
  let pre := l.takeWhile (fun c => ¬ c = ' ')
  let post := l.dropWhile (fun c => ¬ c = ' ')
  match post with
  | [] => [pre]
  | _ :: t => [pre, t]

/-- html.go `urlAttribute`: callback with the document bases and
`Type = Unknown`.  Handlers are `RwState → value → RwState × CbResult`,
mirroring the Go signature `func(lc, attrValue) (string, error)` where
only the base handler mutates `lc`. -/
def urlAttribute (cb : URLRewriter) (st : RwState) (v : List Char) : RwState × CbResult :=
  (st, cb { value := v, base := st.baseURL, newBase := st.newBaseURL, type := .unknown })

/-- html.go `openGraphContentAttribute`: OpenGraph URLs are absolute, so
bases are passed empty. -/
def openGraphContentAttribute (cb : URLRewriter) (st : RwState) (v : List Char) :
    RwState × CbResult :=
  (st, cb { value := v, base := [], newBase := [], type := .openGraph })

/-- The per-element loop of html.go `urlListAttribute`: returns the
joined output and whether any element was modified, or the first
callback error. -/
def urlListLoop (cb : URLRewriter) (st : RwState) (sep : Char) (first : Bool) :
    List (List Char) → Except String (List Char × Bool)
  | [] => .ok ([], false)
  | p :: rest =>
    let sepPre : List Char := if first then [] else [sep]
    match cb ({ value := p, base := st.baseURL, newBase := st.newBaseURL, type := .unknown }) with
    | .notModified =>
      match urlListLoop cb st sep false rest with
      | .error e => .error e
      | .ok (s, anyMod) => .ok (sepPre ++ p ++ s, anyMod)
    | .err e => .error e
    | .ok rw =>
      match urlListLoop cb st sep false rest with
      | .error e => .error e
      | .ok (s, _) => .ok (sepPre ++ rw ++ s, true)

/-- html.go `urlListAttribute(separator)`. -/
def urlListAttribute (cb : URLRewriter) (sep : Char) (st : RwState) (v : List Char) :
    RwState × CbResult :=
  match urlListLoop cb st sep true (v.splitOn sep) with
  | .error e => (st, .err e)
  | .ok (s, anyMod) => (st, if anyMod then .ok s else .notModified)

/-- The per-element loop of html.go `srcSetAttribute`. -/
def srcSetLoop (cb : URLRewriter) (st : RwState) (first : Bool) :
    List (List Char) → Except String (List Char × Bool)
  | [] => .ok ([], false)
  | part :: rest =>
    let sepPre : List Char := if first then [] else ", ".data
    let trimmedPart := trimSpace part
    let parts2 := splitNSpace2 trimmedPart
    match parts2 with
    | url0 :: restParts =>
      if trimmedPart.length > 0 then
        match cb ({ value := url0, base := st.baseURL, newBase := st.newBaseURL, type := .unknown }) with
        | .notModified =>
          match srcSetLoop cb st false rest with
          | .error e => .error e
          | .ok (s, anyMod) => .ok (sepPre ++ part ++ s, anyMod)
        | .err e => .error e
        | .ok rw =>
          let desc : List Char := match restParts with
            | [] => []
            | d :: _ => ' ' :: d
          match srcSetLoop cb st false rest with
          | .error e => .error e
          | .ok (s, _) => .ok (sepPre ++ rw ++ desc ++ s, true)
      else
        match srcSetLoop cb st false rest with
        | .error e => .error e
        | .ok (s, anyMod) => .ok (sepPre ++ part ++ s, anyMod)
    | [] =>
      match srcSetLoop cb st false rest with
      | .error e => .error e
      | .ok (s, anyMod) => .ok (sepPre ++ part ++ s, anyMod)

/-- html.go `srcSetAttribute`. -/
def srcSetAttribute (cb : URLRewriter) (st : RwState) (v : List Char) : RwState × CbResult :=
  match srcSetLoop cb st true (v.splitOn ',') with
  | .error e => (st, .err e)
  | .ok (s, anyMod) => (st, if anyMod then .ok s else .notModified)

/-- `\s` of Go regexp: `[\t\n\f\r ]`. -/
def isRegexSpace (c : Char) : Bool :=
  c = ' ' || c = '\t' || c = '\n' || c = Char.ofNat 12 || c = '\r'

def isDigitChar (c : Char) : Bool :=
  '0' ≤ c && c ≤ '9'

/-- Matching html.go `refreshRegexp` = `^\s*(\d+)\s*(?:;url=(.*)\s*)?$`
against a value: returns the two captures (digits, url) on a match.
`.` does not match a newline, so the url capture runs to the first
newline, and the rest must be whitespace. -/
def refreshRegexpMatch (v : List Char) : Option (List Char × List Char) :=
  let a0 := v.dropWhile isRegexSpace
  let digits := a0.takeWhile isDigitChar
  if digits.isEmpty then none
  else
    let a2 := (a0.dropWhile isDigitChar).dropWhile isRegexSpace
    if a2.isEmpty then some (digits, [])
    else if ";url=".data.isPrefixOf a2 then
      let rest := a2.drop 5
      let pre := rest.takeWhile (fun c => ¬ c = '\n')
      let post := rest.dropWhile (fun c => ¬ c = '\n')
      if post.isEmpty then some (digits, rest)
      else if post.all isRegexSpace then some (digits, pre)
      else none
    else none

/-- html.go `httpEquivRefreshAttribute`: no regexp match returns the
`NotModified` sentinel; on a match the callback runs on the url capture
and any callback error (including the sentinel) propagates. -/
def httpEquivRefreshAttribute (cb : URLRewriter) (st : RwState) (v : List Char) :
    RwState × CbResult :=
  match refreshRegexpMatch v with
  | none => (st, .notModified)
  | some (digits, urlCap) =>
    match cb ({ value := urlCap, base := st.baseURL, newBase := st.newBaseURL, type := .unknown }) with
    | .notModified => (st, .notModified)
    | .err e => (st, .err e)
    | .ok newURL => (st, .ok (digits ++ ";url=".data ++ newURL))

/-- html.go `baseHrefAttribute`: if `baseURLSet` were set, pass through;
otherwise record the base, invoke the callback with `Type = Base`, and
record the new base (the original on `NotModified`).  Faithful to the
source, nothing ever sets `baseURLSet`. -/
def baseHrefAttribute (cb : URLRewriter) (st : RwState) (v : List Char) :
    RwState × CbResult :=
  if st.baseURLSet then (st, .notModified)
  else
    let st1 := { st with baseURL := v }
    match cb ({ value := v, base := [], newBase := [], type := .base }) with
    | .notModified => ({ st1 with newBaseURL := v }, .notModified)
    | .err e => (st1, .err e)
    | .ok nb => ({ st1 with newBaseURL := nb }, .ok nb)

/-- html.go `tags(...)`/`findHandler` interpretation: the handler
function stored for a table entry. -/
def runHandler (cb : URLRewriter) : HandlerKind → RwState → List Char → RwState × CbResult
  | .url => urlAttribute cb
  | .urlList sep => urlListAttribute cb sep
  | .srcset => srcSetAttribute cb

/-- An AttributeToken as html.go's `attributeToken` captures it: the
lexer `data` slice (name, `=`, value), the raw input bytes `rawData`,
the attribute name (`Text()`), and the attribute value (`AttrVal()`). -/
structure AttrTok where
  raw : List Char
  data : List Char
  name : List Char
  val : List Char

deriving DecidableEq, Repr

/-- A token of the tdewolff HTML lexer, with the fields the rewriter
reads.  `raw` is the slice of input bytes the token occupies;
`other` covers every token kind the main loop copies verbatim (text,
end tags, comments, doctype); the error token carries whether the
lexer error is end-of-stream. -/
inductive HToken where
  | startTag (raw text : List Char)
  | attrT (a : AttrTok)
  | startTagClose (raw : List Char)
  | startTagVoid (raw : List Char)
  | other (raw : List Char)
  | errTok (eof : Bool)

deriving DecidableEq, Repr

/-- The raw input bytes of a token (`lc.rawData()`); an error token
occupies no input. -/
def HToken.raw : HToken → List Char
  | .startTag r _ => r
  | .attrT a => a.raw
  | .startTagClose r => r
  | .startTagVoid r => r
  | .other r => r
  | .errTok _ => []

/-- Concatenated raw bytes of a token stream: by the lexer's tiling
property this is the input byte stream. -/
def htFlatRaw (ts : List HToken) : List Char :=
  ts.flatMap HToken.raw

/-- html.go `attributeToken.cleanValue`: strip matching quotes
(mismatched or unterminated quoting is an error), HTML-unescape the
interior, remember the output quote (input quote, or `"` when the input
was unquoted). -/
def cleanValue (attrValue : List Char) : Except String (Char × List Char) :=
  match attrValue with
  | [] => .ok ('"', htmlUnescapeString [])
  | c :: rest =>
    if c = singleQuote || c = '"' then
      if attrValue.length < 2 then .error "attribute does not have ending quote"
      else
        let endQ := attrValue.getLastD c
        if ¬ c = endQ then .error "attribute quote mismatch"
        else .ok (c, htmlUnescapeString rest.dropLast)
    else .ok ('"', htmlUnescapeString attrValue)

/-- html.go `attributeToken.rewrite`: clean the value, run the handler;
on `NotModified` the raw attribute bytes are the output, on success the
output is `data` up to the value, then quote, HTML-escaped new value,
quote. -/
def attrRewrite (handler : RwState → List Char → RwState × CbResult)
    (st : RwState) (a : AttrTok) : RwState × Except String (List Char) :=
  match cleanValue a.val with
  | .error e => (st, .error e)
  | .ok (q, clean) =>
    match handler st clean with
    | (st1, .notModified) => (st1, .ok a.raw)
    | (st1, .err e) => (st1, .error e)
    | (st1, .ok news) =>
      (st1, .ok (a.data.take (a.data.length - a.val.length) ++
        q :: (htmlEscapeString news ++ [q])))

/-- The `findHandlerFunc` used for ordinary start tags: the fixed
table. -/
def stdFind (cb : URLRewriter) (tag attrName : List Char) :
    Option (RwState → List Char → RwState × CbResult) :=
  (findHandler tag attrName).map (runHandler cb)

/-- The `findHandlerFunc` html.go installs for `<base>`: only `href`,
handled by `baseHrefAttribute`. -/
def baseFind (cb : URLRewriter) (_tag attrName : List Char) :
    Option (RwState → List Char → RwState × CbResult) :=
  if attrName = "href".data then some (baseHrefAttribute cb) else none

/-- html.go `processMeta` classification loop over the buffered
attributes: `http-equiv` sets the refresh flag; `itemprop`/`property`
sets the itemprop flag and records the cleaned value (a malformed value
aborts). -/
def metaScan : List AttrTok → (Bool × Bool × List Char) → Except String (Bool × Bool × List Char)
  | [], acc => .ok acc
  | a :: rest, (r, ip, ipv) =>
    if a.name = "http-equiv".data then metaScan rest (true, ip, ipv)
    else if a.name = "itemprop".data || a.name = "property".data then
      match cleanValue a.val with
      | .error e => .error e
      | .ok (_, cv) => metaScan rest (r, true, cv)
    else metaScan rest (r, ip, ipv)

/-- html.go `processMeta` emission loop: the handler applies to
`content` attributes, every other buffered attribute is written
verbatim.  Returns the bytes written so far and the first error. -/
def metaEmitLoop (handler : RwState → List Char → RwState × CbResult) (st : RwState) :
    List AttrTok → RwState × List Char × Option String
  | [] => (st, [], none)
  | a :: rest =>
    if a.name = "content".data then
      match attrRewrite handler st a with
      | (st1, .error e) => (st1, [], some e)
      | (st1, .ok o) =>
        let (st2, o2, e2) := metaEmitLoop handler st1 rest
        (st2, o ++ o2, e2)
    else
      let (st2, o2, e2) := metaEmitLoop handler st rest
      (st2, a.raw ++ o2, e2)

/-- Fatal result of a rewrite run: the end-of-stream error propagated
from inside a tag (Go `io.EOF`), or another error message. -/
inductive RwFatal where
  | eofErr
  | msg (s : String)

deriving DecidableEq, Repr

/-- The rewriter's position in a document, per tag (§4.8): outside any
start tag, consuming attributes of an ordinary or `base` start tag, or
buffering the attributes of a `meta` tag. -/
inductive HMode where
  | top
  | inTag (tag : List Char)
  | inBase
  | inMeta (attrs : List AttrTok)

deriving DecidableEq, Repr

/-- Whether a mode is inside a start tag. -/
def HMode.inside : HMode → Bool
  | .top => false
  | _ => true

/-- The buffered-but-not-yet-written raw bytes of a mode (only the
`meta` path buffers). -/
def HMode.pending : HMode → List Char
  | .inMeta attrs => attrs.flatMap AttrTok.raw
  | _ => []

/-- html.go `processMeta` classification and emission once the closing
token arrives: flags 1 (refresh only) rewrite `content` with the
refresh handler; flags 2 (itemprop only) with the OpenGraph handler
when the recorded property is in the OpenGraph set; anything else is
verbatim. -/
def metaFinish (cb : URLRewriter) (st : RwState) (attrs : List AttrTok)
    (closeRaw : List Char) : RwState × List Char × Option String :=
  match metaScan attrs (false, false, []) with
  | .error e => (st, [], some e)
  | .ok (r, ip, ipv) =>
    let emitted : RwState × List Char × Option String :=
      if r && !ip then metaEmitLoop (httpEquivRefreshAttribute cb) st attrs
      else if ip && !r && isOpenGraphURLProperty ipv then
        metaEmitLoop (openGraphContentAttribute cb) st attrs
      else (st, attrs.flatMap AttrTok.raw, none)
    match emitted with
    | (st1, o, some e) => (st1, o, some e)
    | (st1, o, none) => (st1, o ++ closeRaw, none)

/-- The main loop of html.go `HTML5` together with `processTag`,
`rewriteAttributes`, `readAttributes` and `processMeta`, as a state
machine consuming one lexer token per step.  Output is accumulated in
order; a fatal error carries the bytes written before it.  Faithful
control-flow notes: in `rewriteAttributes` an attribute without a table
handler is copied verbatim and the function *returns* to the main loop
(`return lc.copy()`), so the remaining attribute tokens of that tag are
handled by the main loop's verbatim default; an error token inside a
tag propagates the lexer error even at end of stream; `processMeta`
discards the buffered attribute bytes when an error arrives before the
closing token. -/
def html5Loop (cb : URLRewriter) (mode : HMode) (st : RwState) :
    List HToken → RwState × List Char × Except RwFatal Unit
  | [] => (st, [], .ok ())
  | tok :: rest =>
    match mode with
    | .top =>
      match tok with
      | .errTok eof =>
        (st, [], if eof then .ok () else .error (.msg "lexer error"))
      | .startTag raw name =>
        let mode1 : HMode :=
          if name = "meta".data then .inMeta []
          else if name = "base".data then .inBase
          else .inTag name
        let (st2, o2, res2) := html5Loop cb mode1 st rest
        (st2, raw ++ o2, res2)
      | t =>
        let (st2, o2, res2) := html5Loop cb .top st rest
        (st2, t.raw ++ o2, res2)
    | .inTag tag =>
      match tok with
      | .attrT a =>
        match stdFind cb tag a.name with
        | none =>
          let (st2, o2, res2) := html5Loop cb .top st rest
          (st2, a.raw ++ o2, res2)
        | some h =>
          match attrRewrite h st a with
          | (st1, .error e) => (st1, [], .error (.msg e))
          | (st1, .ok o) =>
            let (st2, o2, res2) := html5Loop cb (.inTag tag) st1 rest
            (st2, o ++ o2, res2)
      | .startTagClose raw =>
        let (st2, o2, res2) := html5Loop cb .top st rest
        (st2, raw ++ o2, res2)
      | .startTagVoid raw =>
        let (st2, o2, res2) := html5Loop cb .top st rest
        (st2, raw ++ o2, res2)
      | .errTok eof =>
        (st, [], .error (if eof then .eofErr else .msg "lexer error"))
      | _ => (st, [], .error (.msg "unexpected token"))
    | .inBase =>
      match tok with
      | .attrT a =>
        match baseFind cb "base".data a.name with
        | none =>
          let (st2, o2, res2) := html5Loop cb .top st rest
          (st2, a.raw ++ o2, res2)
        | some h =>
          match attrRewrite h st a with
          | (st1, .error e) => (st1, [], .error (.msg e))
          | (st1, .ok o) =>
            let (st2, o2, res2) := html5Loop cb .inBase st1 rest
            (st2, o ++ o2, res2)
      | .startTagClose raw =>
        let (st2, o2, res2) := html5Loop cb .top st rest
        (st2, raw ++ o2, res2)
      | .startTagVoid raw =>
        let (st2, o2, res2) := html5Loop cb .top st rest
        (st2, raw ++ o2, res2)
      | .errTok eof =>
        (st, [], .error (if eof then .eofErr else .msg "lexer error"))
      | _ => (st, [], .error (.msg "unexpected token"))
    | .inMeta attrs =>
      match tok with
      | .attrT a => html5Loop cb (.inMeta (attrs ++ [a])) st rest
      | .startTagClose raw =>
        match metaFinish cb st attrs raw with
        | (st1, o, some e) => (st1, o, .error (.msg e))
        | (st1, o, none) =>
          let (st2, o2, res2) := html5Loop cb .top st1 rest
          (st2, o ++ o2, res2)
      | .startTagVoid raw =>
        match metaFinish cb st attrs raw with
        | (st1, o, some e) => (st1, o, .error (.msg e))
        | (st1, o, none) =>
          let (st2, o2, res2) := html5Loop cb .top st1 rest
          (st2, o ++ o2, res2)
      | .errTok eof =>
        (st, [], .error (if eof then .eofErr else .msg "lexer error"))
      | _ => (st, [], .error (.msg "unexpected token"))

/-- html.go `HTML5`: run the rewriter over a full lexer token stream
from the zero state. -/
def html5Run (cb : URLRewriter) (ts : List HToken) : RwState × List Char × Except RwFatal Unit :=
  html5Loop cb .top initRwState ts

/-! ## CSS rewriter (rewrite package, css.go)

Same modelling as the HTML rewriter: the tdewolff CSS lexer is
represented by its token stream; each token carries its raw input bytes
and the lexer data (`text`).  The single-slot push-back of css.go is
modelled by handling the would-be-pushed-back token directly with the
main loop's logic in the same step, which is what the Go code's next
iteration does. -/

/-- A token of the tdewolff CSS lexer, with the fields the rewriter
reads. -/
inductive CToken where
  | urlTok (raw text : List Char)
  | atKeyword (raw text : List Char)
  | whitespace (raw : List Char)
  | stringTok (raw text : List Char)
  | other (raw : List Char)
  | errTok (eof : Bool)

deriving DecidableEq, Repr

/-- The raw input bytes of a CSS token. -/
def CToken.raw : CToken → List Char
  | .urlTok r _ => r
  | .atKeyword r _ => r
  | .whitespace r => r
  | .stringTok r _ => r
  | .other r => r
  | .errTok _ => []

/-- Concatenated raw bytes of a CSS token stream (= the input, by the
lexer's tiling property). -/
def cFlatRaw (ts : List CToken) : List Char :=
  ts.flatMap CToken.raw

/-- `parse.ToLower` on ASCII bytes. -/
def toLowerASCII (l : List Char) : List Char :=
  l.map (fun c => if 'A' ≤ c && c ≤ 'Z' then Char.ofNat (c.toNat + 32) else c)

/-- The validation and URL-extraction part of css.go `handleURLToken`:
check the `url(` prefix (case-insensitively), the `)` suffix and the
minimum length, skip whitespace after `url(`, then extract the inner
URL — CSS-unescaping it when quoted, trimming trailing whitespace when
bare.  Returns the value and the start/end indices of the URL slice
within the token text. -/
def urlTokenParse (text : List Char) : Except String (List Char × Nat × Nat) :=
  if text.length < 5 then .error "unexpected token length"
  else if ¬ toLowerASCII (text.take 4) = "url(".data then .error "unexpected token start"
  else if ¬ text.getLastD ' ' = ')' then .error "unexpected token end"
  else
    let ws := (text.drop 4).takeWhile (fun c => isWhiteSpace c)
    let urlStartIndex := 4 + ws.length
    if urlStartIndex ≥ text.length then .error "unexpected token end"
    else
      let inner := text.drop urlStartIndex
      let quoted := match inner with
        | [] => false
        | c0 :: _ => c0 = '"' || c0 = singleQuote
      if quoted then
        match cssUnescapeString inner with
        | .error e => .error e
        | .ok (value, size) => .ok (value, urlStartIndex, urlStartIndex + size)
      else
        let body := (text.take (text.length - 1)).drop urlStartIndex
        let trimmed := (body.reverse.dropWhile (fun c => isWhiteSpace c)).reverse
        .ok (trimmed, urlStartIndex, urlStartIndex + trimmed.length)

/-- css.go `handleURLToken`: parse the token, call the callback with
`Type = CSS`; `NotModified` copies the raw token, a replacement keeps
the leading `url(` + whitespace and the trailing whitespace + `)` and
CSS-escapes the new value. -/
def handleURLToken (cb : URLRewriter) (raw text : List Char) : Except String (List Char) :=
  match urlTokenParse text with
  | .error e => .error e
  | .ok (value, urlStartIndex, urlEndIndex) =>
    match cb ({ value := value, base := [], newBase := [], type := .css }) with
    | .notModified => .ok raw
    | .err e => .error e
    | .ok nv => .ok (text.take urlStartIndex ++ cssEscapeString nv ++ text.drop urlEndIndex)

/-- The CSS rewriter's position: the main loop, just after an `@import`
keyword (expecting whitespace), or after `@import` plus whitespace
(expecting the string or url argument). -/
inductive CMode where
  | top
  | afterImport
  | afterImportWS

deriving DecidableEq, Repr

/-- Go `bytes.EqualFold(text, "@import")` for the ASCII keyword. -/
def isImportKeyword (text : List Char) : Bool :=
  toLowerASCII text = "@import".data

/-- css.go `CSS` main loop with `processImport`, one lexer token per
step.  A token that `processImport` pushes back is handled by the main
loop's logic within the same step (`lc.pushBack(); return nil`).  In
`processImport` an error token returns the lexer error — even
end-of-stream — which the main loop propagates. -/
def cssLoop (cb : URLRewriter) (mode : CMode) :
    List CToken → List Char × Except RwFatal Unit
  | [] => ([], .ok ())
  | tok :: rest =>
    match mode with
    | .top =>
      match tok with
      | .errTok eof =>
        ([], if eof then .ok () else .error (.msg "lexer error"))
      | .urlTok raw text =>
        match handleURLToken cb raw text with
        | .error e => ([], .error (.msg e))
        | .ok o =>
          let (o2, res2) := cssLoop cb .top rest
          (o ++ o2, res2)
      | .atKeyword raw text =>
        let mode1 := if isImportKeyword text then CMode.afterImport else CMode.top
        let (o2, res2) := cssLoop cb mode1 rest
        (raw ++ o2, res2)
      | t =>
        let (o2, res2) := cssLoop cb .top rest
        (t.raw ++ o2, res2)
    | .afterImport =>
      match tok with
      | .errTok eof =>
        ([], .error (if eof then .eofErr else .msg "lexer error"))
      | .whitespace raw =>
        let (o2, res2) := cssLoop cb .afterImportWS rest
        (raw ++ o2, res2)
      | .urlTok raw text =>
        match handleURLToken cb raw text with
        | .error e => ([], .error (.msg e))
        | .ok o =>
          let (o2, res2) := cssLoop cb .top rest
          (o ++ o2, res2)
      | .atKeyword raw text =>
        let mode1 := if isImportKeyword text then CMode.afterImport else CMode.top
        let (o2, res2) := cssLoop cb mode1 rest
        (raw ++ o2, res2)
      | t =>
        let (o2, res2) := cssLoop cb .top rest
        (t.raw ++ o2, res2)
    | .afterImportWS =>
      match tok with
      | .errTok eof =>
        ([], .error (if eof then .eofErr else .msg "lexer error"))
      | .stringTok raw text =>
        match cssUnescapeString text with
        | .error e => ([], .error (.msg e))
        | .ok (value, size) =>
          if ¬ size = text.length then
            ([], .error (.msg "string does not span whole string token"))
          else
            match cb ({ value := value, base := [], newBase := [], type := .css }) with
            | .notModified =>
              let (o2, res2) := cssLoop cb .top rest
              (raw ++ o2, res2)
            | .err e => ([], .error (.msg e))
            | .ok nv =>
              let (o2, res2) := cssLoop cb .top rest
              (cssEscapeString nv ++ o2, res2)
      | .urlTok raw text =>
        match handleURLToken cb raw text with
        | .error e => ([], .error (.msg e))
        | .ok o =>
          let (o2, res2) := cssLoop cb .top rest
          (o ++ o2, res2)
      | .atKeyword raw text =>
        let mode1 := if isImportKeyword text then CMode.afterImport else CMode.top
        let (o2, res2) := cssLoop cb mode1 rest
        (raw ++ o2, res2)
      | t =>
        let (o2, res2) := cssLoop cb .top rest
        (t.raw ++ o2, res2)

/-- css.go `CSS`: run the rewriter over a full lexer token stream. -/
def cssRun (cb : URLRewriter) (ts : List CToken) : List Char × Except RwFatal Unit :=
  cssLoop cb .top ts

/-! ## C2: NotModified round-trip of both rewriters -/

/-- Whether `cleanValue` succeeds on an attribute value (lexer-produced
attribute values are always well-quoted). -/
def cleanOK (val : List Char) : Bool :=
  match cleanValue val with
  | .ok _ => true
  | .error _ => false

/-- Well-formed HTML lexer streams, tracking whether the stream position
is inside a start tag: tokens between a start-tag token and its closing
token are attribute tokens; every attribute value is well-quoted; the
stream ends with the end-of-stream error token outside any tag.  These
are the guarantees of the tdewolff lexer for a complete document. -/
def htmlStreamWF (m : Bool) : List HToken → Bool
  | [] => false
  | .errTok eof :: rest => eof && !m && rest.isEmpty
  | .startTag _ _ :: rest => !m && htmlStreamWF true rest
  | .attrT a :: rest => cleanOK a.val && htmlStreamWF m rest
  | .startTagClose _ :: rest => htmlStreamWF false rest
  | .startTagVoid _ :: rest => htmlStreamWF false rest
  | .other _ :: rest => !m && htmlStreamWF false rest

/-- Attribute buffers carried by a mode are all well-quoted. -/
def modeAttrsClean : HMode → Bool
  | .inMeta attrs => attrs.all (fun a => cleanOK a.val)
  | _ => true

/-- Whether a URL token's text passes every `handleURLToken` validation
(the `url(`-prefix, `)`-suffix and, when quoted, CSS-unescaping of the
inner string).  Lexer-produced URL tokens always do. -/
def urlTokenOK (text : List Char) : Bool :=
  match urlTokenParse text with
  | .ok _ => true
  | .error _ => false

/-- Whether a string token's text is a well-formed CSS string spanning
the whole token, as `processImport` requires.  Lexer-produced string
tokens always are. -/
def stringTokenOK (text : List Char) : Bool :=
  match cssUnescapeString text with
  | .ok (_, size) => size = text.length
  | .error _ => false

/-- Well-formed CSS lexer streams: URL and string tokens are
well-formed, and the error token is the last token. -/
def cssStreamWF : List CToken → Bool
  | [] => true
  | .errTok _ :: rest => rest.isEmpty
  | .urlTok _ text :: rest => urlTokenOK text && cssStreamWF rest
  | .stringTok _ text :: rest => stringTokenOK text && cssStreamWF rest
  | _ :: rest => cssStreamWF rest

/-! ## URL model (Go net/url, urlnorm package, repository.Key, urlrebase)

Go strings are byte sequences; the model uses `List Char` where each
element stands for one byte (all concrete inputs are ASCII).  The parts
of Go's `net/url` the repository code calls (`Hostname`, `Port`,
`String`, `Parse`, `Query`, `QueryEscape`) are modelled from that
package's documented byte-level behaviour; `strings.ToLower` is
modelled on ASCII letters (the only case ASCII hosts and schemes
exercise). -/

def isAlphaChar (c : Char) : Bool :=
  ('a' ≤ c && c ≤ 'z') || ('A' ≤ c && c ≤ 'Z')

/-- ASCII lowering of one byte (`strings.ToLower` restricted to ASCII). -/
def lowerChar (c : Char) : Char :=
  if 'A' ≤ c && c ≤ 'Z' then Char.ofNat (c.toNat + 32) else c

/-- Go `strings.ToLower` on ASCII bytes. -/
def goToLower (l : List Char) : List Char :=
  l.map lowerChar

/-- Index of the last occurrence of `c` (`strings.LastIndexByte`). -/
def lastIdxOf (c : Char) (l : List Char) : Option Nat :=
  match l.reverse.findIdx? (fun x => x = c) with
  | none => none
  | some j => some (l.length - 1 - j)

/-- net/url: strip one layer of square brackets when the host both
starts with `[` and ends with `]`. -/
def stripBrackets (h : List Char) : List Char :=
  if h.head? = some '[' ∧ h.getLast? = some ']' then (h.drop 1).dropLast else h

/-- net/url `splitHostPort`: split at the last colon when what follows
is a valid (possibly empty) decimal port, then strip brackets. -/
def splitHostPort (hostPort : List Char) : List Char × List Char :=
  match lastIdxOf ':' hostPort with
  | none => (stripBrackets hostPort, [])
  | some i =>
    let after := hostPort.drop (i + 1)
    if after.all isDigitChar then (stripBrackets (hostPort.take i), after)
    else (stripBrackets hostPort, [])

/-- urlnorm `joinHostPort`: bracket the host when it contains a colon
(assumed IPv6), append `:port` when the port is nonempty. -/
def joinHostPort (host port : List Char) : List Char :=
  (if host.contains ':' then ('[' :: host) ++ "]".data else host) ++
    (if port = [] then [] else ':' :: port)

/-- The Go `url.URL` struct, with the fields the repository code reads
or writes.  `Userinfo` is not modelled (none of the repository's claims
involve credentials). -/
structure GoURL where
  scheme : List Char
  opaqueData : List Char
  host : List Char
  path : List Char
  rawPath : List Char
  omitHost : Bool
  forceQuery : Bool
  rawQuery : List Char
  fragment : List Char
  rawFragment : List Char

deriving DecidableEq, Repr

/-- net/url `URL.IsAbs`. -/
def IsAbs (u : GoURL) : Bool :=
  ¬ u.scheme = []

/-- urlnorm `Canonical`: lowercase scheme, lowercase host with default
port elided and IPv6 bracketed, `/` path for absolute URLs with a host
and an empty path. -/
def Canonical (u : GoURL) : GoURL :=
  let scheme := goToLower u.scheme
  let hp := splitHostPort u.host
  let port1 := if (scheme = "https".data ∧ hp.2 = "443".data) ∨
      (scheme = "http".data ∧ hp.2 = "80".data) then [] else hp.2
  let host1 := joinHostPort (goToLower hp.1) port1
  let path1 := if ¬ scheme = [] ∧ ¬ host1 = [] ∧ u.path = [] then "/".data else u.path
  { u with scheme := scheme, host := host1, path := path1 }

/-- The two errors urlrebase `Rebase` can return: the `ErrNoBase`
sentinel, and the distinct `fmt.Errorf` complaining that the new base
must end with a slash. -/
inductive RebaseError where
  | noBase
  | newBaseMustEndWithSlash

deriving DecidableEq, Repr

/-- urlrebase `Rebase`: reject a non-absolute `u` (TODO in the source),
canonicalize all three URLs, require equal scheme and host with
`oldBase` while substituting `newBase`'s, then rebase the path —
`oldBase` with a `/`-terminated path must prefix `u`'s path and demands
a `/`-terminated `newBase` path (a non-`ErrNoBase` error otherwise);
any other `oldBase` path must equal `u`'s exactly.  Faithful to the
source, the absoluteness of the two bases is never checked. -/
def Rebase (u oldBase newBase : GoURL) : Except RebaseError GoURL :=
  if ¬ IsAbs u then .error .noBase
  else
    let u1 := Canonical u
    let ob := Canonical oldBase
    let nb := Canonical newBase
    if ¬ u1.scheme = ob.scheme then .error .noBase
    else
      let u2 := { u1 with scheme := nb.scheme }
      if ¬ u2.host = ob.host then .error .noBase
      else
        let u3 := { u2 with host := nb.host }
        if ¬ "/".data.isSuffixOf ob.path then
          if ¬ u3.path = ob.path then .error .noBase
          else .ok { u3 with path := nb.path }
        else
          if ¬ ob.path.isPrefixOf u3.path then .error .noBase
          else if ¬ "/".data.isSuffixOf nb.path then .error .newBaseMustEndWithSlash
          else .ok { u3 with path := nb.path ++ u3.path.drop ob.path.length }

/-- A parsed URL with only scheme, host and path set (the shape of the
URLs the rebase claims talk about). -/
def mkURL (scheme host path : String) : GoURL :=
  { scheme := scheme.data, opaqueData := [], host := host.data, path := path.data,
    rawPath := [], omitHost := false, forceQuery := false, rawQuery := [],
    fragment := [], rawFragment := [] }

/-! ### Percent-escaping and URL rendering (Go net/url) -/

/-- The escaping contexts of net/url used by the repository's code
paths (`encodeHost`, `encodePath`, `encodeQueryComponent`,
`encodeFragment`). -/
inductive EncMode where
  | host
  | path
  | queryComponent
  | fragment

deriving DecidableEq, Repr

/-- net/url `shouldEscape` (byte-level). -/
def shouldEscape (c : Char) (mode : EncMode) : Bool :=
  if isAlphaChar c || isDigitChar c then false
  else if mode = .host && ("!$&'()*+,;=:[]<>\"".data.contains c) then false
  else if c = '-' || c = '_' || c = '.' || c = '~' then false
  else if "$&+,/:;=?@".data.contains c then
    match mode with
    | .path => c = '?'
    | .queryComponent => true
    | .fragment => false
    | .host => true
  else if mode = .fragment && "!()*".data.contains c then false
  else true

def upperHexDigit (n : Nat) : Char :=
  "0123456789ABCDEF".data.getD n ' '

/-- One byte of net/url `escape`: space becomes `+` in query
components, otherwise an escaped byte becomes `%XX` with uppercase
hex. -/
def escapeCharURL (mode : EncMode) (c : Char) : List Char :=
  if shouldEscape c mode then
    if c = ' ' && mode = .queryComponent then "+".data
    else ['%', upperHexDigit (c.toNat / 16 % 16), upperHexDigit (c.toNat % 16)]
  else [c]

/-- net/url `escape`. -/
def escapeURL (s : List Char) (mode : EncMode) : List Char :=
  s.flatMap (escapeCharURL mode)

def ishexChar (c : Char) : Bool :=
  ('0' ≤ c && c ≤ '9') || ('a' ≤ c && c ≤ 'f') || ('A' ≤ c && c ≤ 'F')

def unhex (c : Char) : Nat :=
  if '0' ≤ c && c ≤ '9' then c.toNat - '0'.toNat
  else if 'a' ≤ c && c ≤ 'f' then c.toNat - 'a'.toNat + 10
  else c.toNat - 'A'.toNat + 10

/-- net/url `unescape` (byte-level): `%XX` decodes (in host context
only `%25` among escapes below 0x80 is legal), `+` decodes to space in
query components, and a raw host byte below 0x80 that should have been
escaped is rejected. -/
def unescapeURL (mode : EncMode) : List Char → Except String (List Char)
  | [] => .ok []
  | c :: rest =>
    if c = '%' then
      match rest with
      | a :: b :: rest2 =>
        if ishexChar a && ishexChar b then
          if mode = .host && decide (unhex a < 8) && ¬ (a = '2' && b = '5') then
            .error "invalid URL escape in host"
          else
            match unescapeURL mode rest2 with
            | .error e => .error e
            | .ok t => .ok (Char.ofNat (unhex a * 16 + unhex b) :: t)
        else .error "invalid URL escape"
      | _ => .error "invalid URL escape"
    else if c = '+' then
      match unescapeURL mode rest with
      | .error e => .error e
      | .ok t => .ok ((if mode = .queryComponent then ' ' else '+') :: t)
    else
      if mode = .host && decide (c.toNat < 0x80) && shouldEscape c .host then
        .error "invalid character in host name"
      else
        match unescapeURL mode rest with
        | .error e => .error e
        | .ok t => .ok (c :: t)

/-- net/url `validEncoded`. -/
def validEncodedChar (mode : EncMode) (c : Char) : Bool :=
  "!$&'()*+,;=:@[]%".data.contains c || ¬ shouldEscape c mode

def validEncoded (s : List Char) (mode : EncMode) : Bool :=
  s.all (validEncodedChar mode)

/-- net/url `URL.EscapedPath`: the stored `RawPath` when it is a valid
encoding of `Path`, the literal `*`, or the freshly escaped path. -/
def escapedPath (u : GoURL) : List Char :=
  if ¬ u.rawPath = [] ∧ validEncoded u.rawPath .path = true ∧
      unescapeURL .path u.rawPath = .ok u.path then u.rawPath
  else if u.path = "*".data then "*".data
  else escapeURL u.path .path

/-- net/url `URL.EscapedFragment`. -/
def escapedFragment (u : GoURL) : List Char :=
  if ¬ u.rawFragment = [] ∧ validEncoded u.rawFragment .fragment = true ∧
      unescapeURL .fragment u.rawFragment = .ok u.fragment then u.rawFragment
  else escapeURL u.fragment .fragment

/-- Whether the first `/`-separated segment of a path contains a colon
(net/url `URL.String`'s RFC 3986 §4.2 `./` rule). -/
def firstSegmentHasColon (path : List Char) : Bool :=
  (path.takeWhile (fun c => ¬ c = '/')).contains ':'

/-- net/url `URL.String` (without Userinfo): scheme, then either the
opaque part or `//`-host and escaped path (with the `/` and `./`
fix-ups), then `?query` when forced or nonempty, then `#fragment`. -/
def urlString (u : GoURL) : List Char :=
  let buf1 := if ¬ u.scheme = [] then u.scheme ++ ":".data else []
  let queryPart := if u.forceQuery ∨ ¬ u.rawQuery = [] then '?' :: u.rawQuery else []
  let fragPart := if ¬ u.fragment = [] then '#' :: escapedFragment u else []
  if ¬ u.opaqueData = [] then
    buf1 ++ u.opaqueData ++ queryPart ++ fragPart
  else
    let hostPart :=
      if ¬ u.scheme = [] ∨ ¬ u.host = [] then
        if u.omitHost ∧ u.host = [] then []
        else
          (if ¬ u.host = [] ∨ ¬ u.path = [] then "//".data else []) ++
          (if ¬ u.host = [] then escapeURL u.host .host else [])
      else []
    let path := escapedPath u
    let slashFix := if ¬ path = [] ∧ ¬ path.head? = some '/' ∧ ¬ u.host = [] then "/".data
      else []
    let dotFix := if buf1 ++ hostPart ++ slashFix = [] ∧ firstSegmentHasColon path = true then
      "./".data else []
    buf1 ++ hostPart ++ slashFix ++ dotFix ++ path ++ queryPart ++ fragPart

/-! ### Query handling and repository.Key -/

/-- net/url `QueryEscape`. -/
def queryEscape (s : List Char) : List Char :=
  escapeURL s .queryComponent

/-- net/url `QueryUnescape`. -/
def queryUnescape (s : List Char) : Except String (List Char) :=
  unescapeURL .queryComponent s

/-- Go `strings.Cut`: the part before the first occurrence of `c`, and
the part after it when present. -/
def cutChar (c : Char) (l : List Char) : List Char × Option (List Char) :=
  let pre := l.takeWhile (fun x => ¬ x = c)
  match l.dropWhile (fun x => ¬ x = c) with
  | [] => (pre, none)
  | _ :: t => (pre, some t)

/-- One `key=value` segment of net/url `ParseQuery`: segments
containing `;` or failing to unescape are skipped (the error is
ignored by `URL.Query`), the empty segment is skipped. -/
def parseQueryPair (seg : List Char) : Option (List Char × List Char) :=
  if seg.contains ';' then none
  else if seg = [] then none
  else
    let kv := cutChar '=' seg
    let v := kv.2.getD []
    match queryUnescape kv.1, queryUnescape v with
    | .ok k2, .ok v2 => some (k2, v2)
    | _, _ => none

/-- Append a value under a key in an association list of value lists
(the `url.Values` map, in first-appearance key order). -/
def addQueryValue (m : List (List Char × List (List Char))) (k : List Char) (v : List Char) :
    List (List Char × List (List Char)) :=
  match m with
  | [] => [(k, [v])]
  | (k0, vs) :: rest =>
    if k0 = k then (k0, vs ++ [v]) :: rest
    else (k0, vs) :: addQueryValue rest k v

/-- net/url `URL.Query` = `ParseQuery(RawQuery)` with errors ignored:
the `&`-separated segments, parsed and merged into `url.Values`. -/
def goQuery (rawQuery : List Char) : List (List Char × List (List Char)) :=
  (rawQuery.splitOn '&').foldl
    (fun m seg =>
      match parseQueryPair seg with
      | none => m
      | some (k, v) => addQueryValue m k v) []

/-- The tracking parameters repository.Key removes. -/
def trackingParams : List (List Char) :=
  ["utm_source", "utm_medium", "utm_campaign", "utm_term", "utm_content"].map String.data

/-- Lexicographic byte order on strings (Go's `<` on strings). -/
def listCharLE (a b : List Char) : Bool :=
  match a, b with
  | [], _ => true
  | _ :: _, [] => false
  | x :: xs, y :: ys =>
    if x.toNat < y.toNat then true
    else if y.toNat < x.toNat then false
    else listCharLE xs ys

/-- key.go `queryParam.String`: escaped name `=` escaped value, with
further values joined by `&` and the name repeated. -/
def queryParamString (p : List Char × List (List Char)) : List Char :=
  match p.2 with
  | [] => queryEscape p.1 ++ "=".data
  | v0 :: rest =>
    queryEscape p.1 ++ '=' :: queryEscape v0 ++
      rest.flatMap (fun v => '&' :: (queryEscape p.1 ++ '=' :: queryEscape v))

/-- Join rendered query parameters with `&`. -/
def joinAmp : List (List Char) → List Char
  | [] => []
  | [x] => x
  | x :: y :: rest => x ++ '&' :: joinAmp (y :: rest)

/-- repository.Key without the final `String()` call: canonicalize,
drop tracking parameters, sort the remaining parameters by name (the
map keys are distinct, so the unstable `sort.Slice` is determined),
rebuild `RawQuery`, drop the fragment. -/
def goKeyURL (someURL : GoURL) : GoURL :=
  let u := Canonical someURL
  let parts := (goQuery u.rawQuery).filter (fun p => ¬ p.1 ∈ trackingParams)
  let sorted := List.insertionSort (fun a b => listCharLE a.1 b.1 = true) parts
  let rq := joinAmp (sorted.map queryParamString)
  { u with rawQuery := rq, fragment := [], rawFragment := [] }

/-- repository.Key. -/
def goKey (someURL : GoURL) : List Char :=
  urlString (goKeyURL someURL)

/-! ### C9: metadata stored by scraper.storeResponse -/

/-- The fields of an `http.Response` (with its request URL) that
`storeResponse` reads or that the claim says it should record. -/
structure GoHTTPResponse where
  requestURL : GoURL
  status : String
  statusCode : Int
  proto : String
  headers : List (String × List String)
  trailers : List (String × List String)

deriving DecidableEq, Repr

/-- scraper.go `storeResponse`'s metadata construction: the composite
literal sets only `Key`, `DownloadStartedTime`, `URL` and `Headers`;
`Status`, `StatusCode`, `Proto` and `Trailers` are omitted and take
their Go zero values. -/
def storeResponseMetadata (resp : GoHTTPResponse) (startTime : Nat) : DocumentMetadata :=
  { key := String.mk (goKey resp.requestURL)
    downloadStartedTime := startTime
    url := String.mk (urlString resp.requestURL)
    status := ""
    statusCode := 0
    proto := ""
    headers := resp.headers
    trailers := [] }

/-! ### net/url Parse (the subset without Userinfo) -/

/-- net/url `getScheme`: scan `rawURL` for a `scheme:` prefix.  A
digit, `+`, `-` or `.` in first position, or any other non-scheme
character before a colon, means the URL has no scheme; a colon in
first position is an error. -/
def getSchemeLoop (orig : List Char) (acc : List Char) (isFirst : Bool) :
    List Char → Except String (List Char × List Char)
  | [] => .ok ([], orig)
  | c :: rest =>
    if isAlphaChar c then getSchemeLoop orig (acc ++ [c]) false rest
    else if isDigitChar c || c = '+' || c = '-' || c = '.' then
      if isFirst then .ok ([], orig)
      else getSchemeLoop orig (acc ++ [c]) false rest
    else if c = ':' then
      if isFirst then .error "missing protocol scheme"
      else .ok (acc, rest)
    else .ok ([], orig)

def getScheme (rawURL : List Char) : Except String (List Char × List Char) :=
  getSchemeLoop rawURL [] true rawURL

/-- Go `validOptionalPort`: empty, or a colon followed by decimal
digits only. -/
def validOptionalPort (port : List Char) : Bool :=
  match port with
  | [] => true
  | ':' :: digits => digits.all isDigitChar
  | _ => false

/-- net/url `parseHost` (without RFC 6874 zone validation, which only
re-validates the `%25`-zone slice before the same final unescape):
validate the bracket/port shape, then host-unescape. -/
def parseHost (host : List Char) : Except String (List Char) :=
  if host.head? = some '[' then
    match lastIdxOf ']' host with
    | none => .error "missing bracket in host"
    | some i =>
      if ¬ validOptionalPort (host.drop (i + 1)) = true then .error "invalid port after host"
      else unescapeURL .host host
  else
    match lastIdxOf ':' host with
    | none => unescapeURL .host host
    | some i =>
      if ¬ validOptionalPort (host.drop i) = true then .error "invalid port after host"
      else unescapeURL .host host

/-- net/url `URL.setPath`: store the unescaped path, keeping the raw
form only when it differs from the re-escaped path. -/
def setPath (u : GoURL) (p : List Char) : Except String GoURL :=
  match unescapeURL .path p with
  | .error e => .error e
  | .ok path =>
    if escapeURL path .path = p then .ok { u with path := path, rawPath := [] }
    else .ok { u with path := path, rawPath := p }

/-- net/url `URL.setFragment`. -/
def setFragment (u : GoURL) (f : List Char) : Except String GoURL :=
  match unescapeURL .fragment f with
  | .error e => .error e
  | .ok frag =>
    if escapeURL frag .fragment = f then .ok { u with fragment := frag, rawFragment := [] }
    else .ok { u with fragment := frag, rawFragment := f }

/-- Go `stringContainsCTLByte`. -/
def containsCTL (s : List Char) : Bool :=
  s.any (fun c => c.toNat < 0x20 || c.toNat = 0x7f)

def emptyURL : GoURL :=
  { scheme := [], opaqueData := [], host := [], path := [], rawPath := [],
    omitHost := false, forceQuery := false, rawQuery := [], fragment := [],
    rawFragment := [] }

/-- net/url `parse(rawURL, viaRequest=false)`, the fragment-free part
of `Parse`: reject control bytes, the `*` special case, scheme
extraction and lowering, `?` handling with the trailing-`?`
`ForceQuery` rule, the opaque form, the `//authority` form (an
authority with Userinfo is outside this model), the `OmitHost` rule,
and path assignment. -/
def goParseNoFrag (rawURL : List Char) : Except String GoURL :=
  if containsCTL rawURL = true then .error "net/url: invalid control character in URL"
  else if rawURL = "*".data then .ok { emptyURL with path := "*".data }
  else
    match getScheme rawURL with
    | .error e => .error e
    | .ok (scheme0, rest0) =>
      let scheme := goToLower scheme0
      let rfq : List Char × Bool × List Char :=
        if rest0.getLast? = some '?' ∧ ¬ rest0.dropLast.contains '?' then
          (rest0.dropLast, true, [])
        else
          let c := cutChar '?' rest0
          (c.1, false, c.2.getD [])
      let rest := rfq.1
      let u0 := { emptyURL with scheme := scheme, forceQuery := rfq.2.1, rawQuery := rfq.2.2 }
      if ¬ "/".data.isPrefixOf rest ∧ ¬ scheme = [] then
        .ok { u0 with opaqueData := rest }
      else if ¬ "/".data.isPrefixOf rest ∧ firstSegmentHasColon rest = true then
        .error "first path segment in URL cannot contain colon"
      else if (¬ scheme = [] ∨ ¬ "///".data.isPrefixOf rest) ∧ "//".data.isPrefixOf rest then
        let afterSlashes := rest.drop 2
        let authority := afterSlashes.takeWhile (fun c => ¬ c = '/')
        let rest1 := afterSlashes.dropWhile (fun c => ¬ c = '/')
        if authority.contains '@' then .error "userinfo is outside this model"
        else
          match parseHost authority with
          | .error e => .error e
          | .ok h => setPath { u0 with host := h } rest1
      else if ¬ scheme = [] ∧ "/".data.isPrefixOf rest then
        setPath { u0 with omitHost := true } rest
      else
        setPath u0 rest

/-- net/url `Parse`: split the fragment at the first `#`, parse the
rest, then set the fragment. -/
def goParse (rawURL : List Char) : Except String GoURL :=
  let fc := cutChar '#' rawURL
  match goParseNoFrag fc.1 with
  | .error e => .error e
  | .ok u =>
    match fc.2 with
    | none => .ok u
    | some frag => if frag = [] then .ok u else setFragment u frag

/-! ### C8: idempotence of the canonical key (amended) -/

/-- A host byte that survives host-unescaping after being escaped:
either not escaped at all in host context, a literal `%`, or a byte of
a multi-byte UTF-8 sequence (≥ 0x80, whose escape `%XX` has a high
first digit). -/
def hostCharOK (c : Char) : Bool :=
  ¬ shouldEscape c .host || c = '%' || decide (0x80 ≤ c.toNat)

/-- Characters of an already-lowercase scheme name. -/
def schemeNameChar (c : Char) : Bool :=
  'a' ≤ c && c ≤ 'z'

/-- Characters of a simple (lowercase, bracket-, colon- and
percent-free) DNS-style host name. -/
def hostNameChar (c : Char) : Bool :=
  ('a' ≤ c && c ≤ 'z') || isDigitChar c || c = '-' || c = '.'

/-- The well-formed URL class of the amended idempotence statement:
absolute hierarchical URLs in canonical-friendly shape — a nonempty
lowercase alphabetic scheme, no opaque part, a nonempty simple host
name, a path that is absent or rooted and made of bytes, no stored raw
path, and a byte-valued raw query.  The bracket-stripping hosts of the
counterexample (`[[a]]`) are excluded by the host alphabet. -/
def urlWF (u : GoURL) : Bool :=
  ¬ u.scheme = [] && u.scheme.all schemeNameChar &&
  u.opaqueData = [] &&
  ¬ u.host = [] && u.host.all hostNameChar &&
  (u.path = [] || u.path.head? = some '/') &&
  u.path.all (fun c => decide (c.toNat < 256)) &&
  u.rawPath = [] &&
  u.rawQuery.all (fun c => decide (c.toNat < 256))

instance qparamLETotal : IsTotal (List Char × List (List Char))
    (fun a b => listCharLE a.1 b.1 = true) := by
  constructor
  intro u v
  show listCharLE u.1 v.1 = true ∨ listCharLE v.1 u.1 = true
  generalize u.1 = a
  generalize v.1 = b
  induction a generalizing b with
  | nil => exact Or.inl rfl
  | cons x xs ih =>
    match b with
    | [] => exact Or.inr rfl
    | y :: ys =>
      by_cases hxy : x.toNat < y.toNat
      · left
        rw [listCharLE, if_pos hxy]
      · by_cases hyx : y.toNat < x.toNat
        · right
          rw [listCharLE, if_pos hyx]
        · rcases ih ys with h | h
          · left
            rw [listCharLE, if_neg hxy, if_neg hyx]
            exact h
          · right
            rw [listCharLE, if_neg hyx, if_neg hxy]
            exact h

instance qparamLETrans : IsTrans (List Char × List (List Char))
    (fun a b => listCharLE a.1 b.1 = true) := by
  constructor
  intro u v w hab hbc
  show listCharLE u.1 w.1 = true
  revert hab hbc
  generalize u.1 = a
  generalize v.1 = b
  generalize w.1 = c
  intro hab hbc
  induction a generalizing b c with
  | nil => rfl
  | cons x xs ih =>
    match b, c with
    | [], _ => exact absurd hab (by rw [listCharLE]; exact Bool.noConfusion)
    | _ :: _, [] => exact absurd hbc (by rw [listCharLE]; exact Bool.noConfusion)
    | y :: ys, z :: zs =>
      rw [listCharLE] at hab hbc ⊢
      by_cases hxy : x.toNat < y.toNat
      · by_cases hyz : y.toNat < z.toNat
        · rw [if_pos (by omega)]
        · rw [if_neg hyz] at hbc
          by_cases hzy : z.toNat < y.toNat
          · rw [if_pos hzy] at hbc
            exact Bool.noConfusion hbc
          · rw [if_pos (by omega)]
      · rw [if_neg hxy] at hab
        by_cases hyx : y.toNat < x.toNat
        · rw [if_pos hyx] at hab
          exact Bool.noConfusion hab
        · rw [if_neg hyx] at hab
          by_cases hyz : y.toNat < z.toNat
          · rw [if_pos (by omega)]
          · rw [if_neg hyz] at hbc
            by_cases hzy : z.toNat < y.toNat
            · rw [if_pos hzy] at hbc
              exact Bool.noConfusion hbc
            · rw [if_neg hzy] at hbc
              rw [if_neg (by omega), if_neg (by omega)]
              exact ih ys zs hab hbc

/-- The keys of a `url.Values` association list. -/
def keysOf (m : List (List Char × List (List Char))) : List (List Char) :=
  m.map Prod.fst

/-- One rendered `key=value` segment of key.go's rebuilt query. -/
def qSegOf (k v : List Char) : List Char :=
  queryEscape k ++ '=' :: queryEscape v

/-- All rendered segments of one parameter. -/
def qSegsOf (p : List Char × List (List Char)) : List (List Char) :=
  p.2.map (qSegOf p.1)

/-- The invariant of the `url.Values` maps goQuery builds: no repeated
key, every key has at least one value, and keys and values are byte
strings. -/
def qryInv (m : List (List Char × List (List Char))) : Prop :=
  (keysOf m).Nodup ∧ ∀ p ∈ m, ¬ p.2 = [] ∧ (∀ c ∈ p.1, c.toNat < 256) ∧
    ∀ v ∈ p.2, ∀ c ∈ v, c.toNat < 256

/-- The query-rebuilding pipeline of repository.Key, as a function of
the raw query: parse, drop tracking parameters, sort by name, render. -/
def goKeyRawQuery (rq : List Char) : List Char :=
  joinAmp ((List.insertionSort (fun a b => listCharLE a.1 b.1 = true)
    ((goQuery rq).filter (fun p => ¬ p.1 ∈ trackingParams))).map queryParamString)

theorem cssEscapeChar_newline :
    cssEscapeChar '\n' = [backslash, 'a', ' '] := by decide

theorem cssEscapeChar_quote :
    cssEscapeChar '"' = [backslash, '2', '2', ' '] := by decide

theorem cssEscapeChar_backslash :
    cssEscapeChar backslash = [backslash, '5', 'c', ' '] := by decide

theorem consumeEscape_hexA (t : List Char) :
    consumeEscape ('a' :: ' ' :: t) = .ok (['\n'], t) := by
  simp [consumeEscape, takeHex, isHexDigit, isWhiteSpace, hexVal, hexDigitVal, goWriteRune]

theorem consumeEscape_hex22 (t : List Char) :
    consumeEscape ('2' :: '2' :: ' ' :: t) = .ok (['"'], t) := by
  simp [consumeEscape, takeHex, isHexDigit, isWhiteSpace, hexVal, hexDigitVal, goWriteRune]

theorem consumeEscape_hex5c (t : List Char) :
    consumeEscape ('5' :: 'c' :: ' ' :: t) = .ok ([backslash], t) := by
  simp [consumeEscape, takeHex, isHexDigit, isWhiteSpace, hexVal, hexDigitVal, goWriteRune,
    backslash]

theorem cssUnescapeLoop_backslash_ok (quote : Char) (rest emitted rest1 : List Char)
    (hq : ¬ backslash = quote) (hcon : consumeEscape rest = .ok (emitted, rest1)) :
    cssUnescapeLoop quote (backslash :: rest) =
      match cssUnescapeLoop quote rest1 with
      | .error e => .error e
      | .ok (content, remaining) => .ok (emitted ++ content, remaining) := by
  rw [cssUnescapeLoop]
  rw [if_neg hq, if_neg (by decide), if_pos rfl]
  split
  · rename_i e heq
    rw [hcon] at heq
    cases heq
  · rename_i em r1 heq
    rw [hcon] at heq
    injection heq with heq2
    injection heq2 with ha hb
    subst ha
    subst hb
    rfl

theorem cssUnescapeLoop_literal (quote : Char) (r : Char) (rest : List Char)
    (h1 : ¬ r = quote) (h2 : ¬ r = '\n') (h3 : ¬ r = backslash) :
    cssUnescapeLoop quote (r :: rest) =
      match cssUnescapeLoop quote rest with
      | .error e => .error e
      | .ok (content, remaining) => .ok (r :: content, remaining) := by
  rw [cssUnescapeLoop]
  rw [if_neg h1, if_neg h2, if_neg h3]

/-- Unescaping inverts escaping: the loop consumes the escaped body plus
the closing double quote and returns the original content. -/
theorem cssUnescapeLoop_escape (s rest : List Char) :
    cssUnescapeLoop '"' (s.flatMap cssEscapeChar ++ '"' :: rest) = .ok (s, rest) := by
  induction s with
  | nil => simp [cssUnescapeLoop]
  | cons c t ih =>
    by_cases hc : (c = '\n' || c = '"' || c = backslash) = true
    · have hc3 : c = '\n' ∨ c = '"' ∨ c = backslash := by
        rcases (by simpa using hc) with (h | h) | h
        · exact Or.inl h
        · exact Or.inr (Or.inl h)
        · exact Or.inr (Or.inr h)
      rcases hc3 with h | h | h <;> subst h
      · rw [List.flatMap_cons, cssEscapeChar_newline]
        simp only [List.cons_append, List.nil_append]
        rw [cssUnescapeLoop_backslash_ok '"' _ _ _ (by decide) (consumeEscape_hexA _)]
        rw [ih]
        simp
      · rw [List.flatMap_cons, cssEscapeChar_quote]
        simp only [List.cons_append, List.nil_append]
        rw [cssUnescapeLoop_backslash_ok '"' _ _ _ (by decide) (consumeEscape_hex22 _)]
        rw [ih]
        simp
      · rw [List.flatMap_cons, cssEscapeChar_backslash]
        simp only [List.cons_append, List.nil_append]
        rw [cssUnescapeLoop_backslash_ok '"' _ _ _ (by decide) (consumeEscape_hex5c _)]
        rw [ih]
        simp
    · have h1 : ¬ c = '\n' := by intro h; subst h; simp at hc
      have h2 : ¬ c = '"' := by intro h; subst h; simp at hc
      have h3 : ¬ c = backslash := by intro h; subst h; simp at hc
      rw [List.flatMap_cons, cssEscapeChar, if_neg (by simp [h1, h2, h3])]
      simp only [List.cons_append, List.nil_append]
      rw [cssUnescapeLoop_literal '"' c _ h2 h1 h3]
      rw [ih]

/-- C10: CSS string escaping and unescaping round-trip.  For every
(valid UTF-8) string `s`, `cssEscapeString s` succeeds and produces a
double-quoted sequence, and `cssUnescapeString` applied to that output
succeeds, consumes the entire output, and returns exactly `s`. -/
theorem css_escape_unescape_roundtrip (s : List Char) :
    cssUnescapeString (cssEscapeString s) = .ok (s, (cssEscapeString s).length) ∧
    (cssEscapeString s).head? = some '"' ∧
    (cssEscapeString s).getLast? = some '"' := by
  refine ⟨?_, ?_, ?_⟩
  · rw [cssEscapeString]
    simp only [List.cons_append]
    rw [cssUnescapeString]
    rw [if_pos (by simp)]
    rw [show (s.flatMap cssEscapeChar ++ ['"']) =
      (s.flatMap cssEscapeChar ++ '"' :: []) from rfl]
    rw [cssUnescapeLoop_escape s []]
    simp
  · rw [cssEscapeString]
    simp only [List.cons_append]
    rfl
  · rw [cssEscapeString]
    exact List.getLast?_concat _

theorem seedLoop_no_added (l : List QTask) (q : List QTask) :
    seedLoop [] q l = ([], q ++ l) := by
  induction l generalizing q with
  | nil => simp [seedLoop]
  | cons t rest ih => simp [seedLoop, ih]

theorem qInit_eq (initial : List QTask) :
    qInit initial =
      { pending := initial, addedKeys := [], incomplete := initial.length,
        inFlight := 0, inOpen := true } := by
  simp [qInit, seedLoop_no_added]

theorem qInv_init (initial : List QTask) : qInv (qInit initial) := by
  rw [qInit_eq]
  simp [qInv]

theorem qInv_step {s s1 : QState} {e : QEvent} (hinv : qInv s)
    (hwf : e = .done → 0 < s.inFlight) (hstep : qStep s e = some s1) : qInv s1 := by
  rw [qStep.eq_def] at hstep
  split at hstep
  · cases hstep
  · rename_i hne
    cases e with
    | offer t =>
      simp only at hstep
      split at hstep
      · cases hstep
      · split at hstep
        · cases hstep
          exact hinv
        · cases hstep
          simp only [qInv] at hinv ⊢
          simp [hinv]
          omega
    | inClosed =>
      simp only at hstep
      split at hstep
      · cases hstep
      · cases hstep
        exact hinv
    | send =>
      simp only at hstep
      cases hpend : s.pending with
      | nil => rw [hpend] at hstep; cases hstep
      | cons t rest =>
        rw [hpend] at hstep
        cases hstep
        simp only [qInv] at hinv
        rw [hpend] at hinv
        simp only [List.length_cons] at hinv
        show s.incomplete = rest.length + (s.inFlight + 1)
        omega
    | done =>
      simp only at hstep
      cases hstep
      have hfl : 0 < s.inFlight := hwf rfl
      simp only [qInv] at hinv
      show s.incomplete - 1 = s.pending.length + (s.inFlight - 1)
      omega
    | doneClosed =>
      simp only at hstep
      cases hstep
      exact hinv

theorem qInv_run {s s1 : QState} {es : List QEvent} (hinv : qInv s)
    (hwf : qTraceWF s es = true) (hrun : qRun s es = some s1) : qInv s1 := by
  induction es generalizing s with
  | nil =>
    rw [qRun] at hrun
    cases hrun
    exact hinv
  | cons e rest ih =>
    rw [qRun] at hrun
    rw [qTraceWF] at hwf
    simp only [Bool.and_eq_true] at hwf
    obtain ⟨hwf1, hwf2⟩ := hwf
    cases hstep : qStep s e with
    | none => rw [hstep] at hrun; cases hrun
    | some s2 =>
      rw [hstep] at hrun
      rw [hstep] at hwf2
      refine ih ?_ hwf2 hrun
      refine qInv_step hinv ?_ hstep
      intro hdone
      subst hdone
      simpa using hwf1

/-- C1: the queue loop terminates exactly when no task remains.  For
every initial task list and every well-formed sequence of select events,
the loop's exit condition (`incompleteTasks = 0`, checked at the top of
each iteration) holds iff the pending list is empty and the ghost
in-flight count is zero; while any accepted task is pending or in
flight the loop keeps iterating. -/
theorem queue_terminates_iff_empty_and_none_in_flight
    (initial : List QTask) (events : List QEvent) (s : QState)
    (hwf : qTraceWF (qInit initial) events = true)
    (hrun : qRun (qInit initial) events = some s) :
    (s.incomplete = 0) ↔ (s.pending = [] ∧ s.inFlight = 0) := by
  have hinv : qInv s := qInv_run (qInv_init initial) hwf hrun
  rw [qInv] at hinv
  constructor
  · intro h0
    rw [h0] at hinv
    constructor
    · have : s.pending.length = 0 := by omega
      exact List.length_eq_zero.mp this
    · omega
  · rintro ⟨hp, hf⟩
    rw [hp] at hinv
    simp at hinv
    omega

/-- Witness for C1 at a concrete run: one initial task, sent to a worker
and completed; the loop then terminates with an empty queue and nothing
in flight. -/
theorem queue_terminates_iff_witness :
    qTraceWF (qInit [⟨"a", "http://a/"⟩]) [.send, .done] = true ∧
    qRun (qInit [⟨"a", "http://a/"⟩]) [.send, .done] =
      some { pending := [], addedKeys := [], incomplete := 0, inFlight := 0, inOpen := true } ∧
    ((0 : Nat) = 0 ↔ (([] : List QTask) = [] ∧ (0 : Nat) = 0)) := by
  refine ⟨by decide, by decide, ?_⟩
  exact queue_terminates_iff_empty_and_none_in_flight
    [⟨"a", "http://a/"⟩] [.send, .done]
    { pending := [], addedKeys := [], incomplete := 0, inFlight := 0, inOpen := true }
    (by decide) (by decide)

/-- C4 (code evaluated at the failing input): seeding the queue with two
tasks that share the key `"k"` enqueues *both* tasks, records *no* key
in `addedKeys`, and sets the incomplete count to 2, because the seeding
loop never inserts into `addedKeys`.  The loop therefore needs one
`done` per initial task (not per distinct key): after one send and one
done it is still running, and a later offer of the same key `"k"` is
accepted again rather than suppressed. -/
theorem queue_seed_duplicates_not_suppressed :
    (qInit [⟨"k", "http://k/1"⟩, ⟨"k", "http://k/2"⟩]).pending =
      [⟨"k", "http://k/1"⟩, ⟨"k", "http://k/2"⟩] ∧
    (qInit [⟨"k", "http://k/1"⟩, ⟨"k", "http://k/2"⟩]).incomplete = 2 ∧
    (qInit [⟨"k", "http://k/1"⟩, ⟨"k", "http://k/2"⟩]).addedKeys = [] ∧
    (qRun (qInit [⟨"k", "http://k/1"⟩, ⟨"k", "http://k/2"⟩]) [.send, .done]).map
      QState.incomplete = some 1 ∧
    (qRun (qInit [⟨"k", "http://k/1"⟩, ⟨"k", "http://k/2"⟩])
      [.send, .done, .offer ⟨"k", "http://k/3"⟩]).map QState.incomplete = some 2 := by
  refine ⟨by decide, by decide, by decide, by decide, by decide⟩

/-- C6 counterexample: store writes are *not* atomic in the claimed
sense.  With a failure at the file-close step — which happens before the
rename — `Close` returns an error and no final file exists, but the temp
file is *not* removed: the source sets `closed = true` before checking
the close error, so the deferred cleanup is skipped. -/
theorem store_close_failure_leaves_temp_file :
    (documentWriterClose (fun _ => [7]) (fun l => l.sum) (fun l => l)
      { marshalFails := false, writeJsonFails := false, seekFails := false,
        writeHeaderFails := false, closeFails := true, renameFails := false }
      [1, 2, 3]
      { key := "k", downloadStartedTime := 0, url := "http://k/", status := "200 OK",
        statusCode := 200, proto := "HTTP/1.1", headers := [], trailers := [] }) =
    { returnedError := true
      tempFile := some (sealedFile (fun l => l.sum) (fun l => l) [1, 2, 3] [7])
      finalFile := none } := by
  decide

/-- C6 as amended: if `Close` succeeds, the final file carries the
sealed header (magic `STS1`, body size equal to the bytes written, JSON
CRC32 over the metadata JSON region) and the temp file is gone; if it
fails at any step before the file-close step, neither a final file nor a
temp file remains; if the file-close or rename step fails, there is no
final file but the temp file is left behind. -/
theorem store_close_outcomes (jsonEnc : DocumentMetadata → List Nat)
    (crc32 : List Nat → Nat) (sha256 : List Nat → List Nat)
    (o : CloseOracle) (body : List Nat) (metadata : DocumentMetadata) :
    (¬ (documentWriterClose jsonEnc crc32 sha256 o body metadata).returnedError = true →
      (documentWriterClose jsonEnc crc32 sha256 o body metadata).finalFile =
        some (sealedFile crc32 sha256 body (jsonEnc metadata)) ∧
      (documentWriterClose jsonEnc crc32 sha256 o body metadata).tempFile = none) ∧
    ((documentWriterClose jsonEnc crc32 sha256 o body metadata).returnedError = true ∧
      ¬ o.closeFails = true ∧ ¬ o.renameFails = true →
      (documentWriterClose jsonEnc crc32 sha256 o body metadata).finalFile = none ∧
      (documentWriterClose jsonEnc crc32 sha256 o body metadata).tempFile = none) ∧
    ((documentWriterClose jsonEnc crc32 sha256 o body metadata).returnedError = true →
      (documentWriterClose jsonEnc crc32 sha256 o body metadata).finalFile = none) := by
  rw [documentWriterClose]
  by_cases h1 : o.marshalFails = true
  · simp [h1]
  · rw [if_neg (by simp [h1])]
    by_cases h2 : (jsonEnc metadata).length > 4294967295
    · rw [if_pos h2]
      simp
    · rw [if_neg h2]
      by_cases h3 : o.writeJsonFails = true
      · simp [h3]
      · rw [if_neg (by simp [h3])]
        by_cases h4 : o.seekFails = true
        · simp [h4]
        · rw [if_neg (by simp [h4])]
          by_cases h5 : o.writeHeaderFails = true
          · simp [h5]
          · rw [if_neg (by simp [h5])]
            by_cases h6 : o.closeFails = true
            · simp [h6]
            · rw [if_neg (by simp [h6])]
              by_cases h7 : o.renameFails = true
              · simp [h7]
              · rw [if_neg (by simp [h7])]
                simp

/-- Witness for the amended C6 at a successful run: all steps succeed,
yielding a sealed final file and no temp file. -/
theorem store_close_outcomes_witness :
    (documentWriterClose (fun _ => [7]) (fun l => l.sum) (fun l => l)
      { marshalFails := false, writeJsonFails := false, seekFails := false,
        writeHeaderFails := false, closeFails := false, renameFails := false }
      [1, 2, 3]
      { key := "k", downloadStartedTime := 0, url := "http://k/", status := "200 OK",
        statusCode := 200, proto := "HTTP/1.1", headers := [], trailers := [] }).finalFile =
      some (sealedFile (fun l => l.sum) (fun l => l) [1, 2, 3] [7]) :=
  ((store_close_outcomes (fun _ => [7]) (fun l => l.sum) (fun l => l)
    { marshalFails := false, writeJsonFails := false, seekFails := false,
      writeHeaderFails := false, closeFails := false, renameFails := false }
    [1, 2, 3]
    { key := "k", downloadStartedTime := 0, url := "http://k/", status := "200 OK",
      statusCode := 200, proto := "HTTP/1.1", headers := [], trailers := [] }).1
    (by decide)).1

theorem htmlStreamWF_mono {ts : List HToken} (h : htmlStreamWF true ts = true) :
    htmlStreamWF false ts = true := by
  induction ts with
  | nil => simpa [htmlStreamWF] using h
  | cons tok rest ih =>
    cases tok with
    | errTok eof => simp [htmlStreamWF] at h
    | startTag raw text => simp [htmlStreamWF] at h
    | attrT a =>
      simp only [htmlStreamWF, Bool.and_eq_true] at h ⊢
      exact ⟨h.1, ih h.2⟩
    | startTagClose raw => simpa [htmlStreamWF] using h
    | startTagVoid raw => simpa [htmlStreamWF] using h
    | other raw => simp [htmlStreamWF] at h

theorem urlListLoop_nm {cb : URLRewriter} (hcb : ∀ u, cb u = .notModified)
    (st : RwState) (sep : Char) :
    ∀ (parts : List (List Char)) (first : Bool),
      ∃ o, urlListLoop cb st sep first parts = .ok (o, false) := by
  intro parts
  induction parts with
  | nil => intro first; exact ⟨[], rfl⟩
  | cons p rest ih =>
    intro first
    obtain ⟨o, ho⟩ := ih false
    refine ⟨(if first then [] else [sep]) ++ p ++ o, ?_⟩
    simp only [urlListLoop, hcb, ho]

theorem srcSetLoop_nm {cb : URLRewriter} (hcb : ∀ u, cb u = .notModified)
    (st : RwState) :
    ∀ (parts : List (List Char)) (first : Bool),
      ∃ o, srcSetLoop cb st first parts = .ok (o, false) := by
  intro parts
  induction parts with
  | nil => intro first; exact ⟨[], rfl⟩
  | cons p rest ih =>
    intro first
    obtain ⟨o, ho⟩ := ih false
    cases hp : splitNSpace2 (trimSpace p) with
    | nil =>
      refine ⟨(if first then [] else ", ".data) ++ p ++ o, ?_⟩
      simp only [srcSetLoop, hp, ho]
    | cons url0 restParts =>
      by_cases hlen : (trimSpace p).length > 0
      · refine ⟨(if first then [] else ", ".data) ++ p ++ o, ?_⟩
        simp only [srcSetLoop, hp, if_pos hlen, hcb, ho]
      · refine ⟨(if first then [] else ", ".data) ++ p ++ o, ?_⟩
        simp only [srcSetLoop, hp, if_neg hlen, ho]

theorem runHandler_nm {cb : URLRewriter} (hcb : ∀ u, cb u = .notModified)
    (k : HandlerKind) (st : RwState) (v : List Char) :
    (runHandler cb k st v).2 = .notModified := by
  cases k with
  | url => simp [runHandler, urlAttribute, hcb]
  | urlList sep =>
    obtain ⟨o, ho⟩ := urlListLoop_nm hcb st sep (v.splitOn sep) true
    simp [runHandler, urlListAttribute, ho]
  | srcset =>
    obtain ⟨o, ho⟩ := srcSetLoop_nm hcb st (v.splitOn ',') true
    simp [runHandler, srcSetAttribute, ho]

theorem baseHrefAttribute_nm {cb : URLRewriter} (hcb : ∀ u, cb u = .notModified)
    (st : RwState) (v : List Char) :
    (baseHrefAttribute cb st v).2 = .notModified := by
  rw [baseHrefAttribute]
  split
  · rfl
  · simp [hcb]

theorem httpEquivRefreshAttribute_nm {cb : URLRewriter} (hcb : ∀ u, cb u = .notModified)
    (st : RwState) (v : List Char) :
    httpEquivRefreshAttribute cb st v = (st, .notModified) := by
  rw [httpEquivRefreshAttribute]
  cases refreshRegexpMatch v with
  | none => rfl
  | some m =>
    cases m with
    | mk digits urlCap => simp [hcb]

theorem openGraphContentAttribute_nm {cb : URLRewriter} (hcb : ∀ u, cb u = .notModified)
    (st : RwState) (v : List Char) :
    openGraphContentAttribute cb st v = (st, .notModified) := by
  simp [openGraphContentAttribute, hcb]

theorem attrRewrite_nm {h : RwState → List Char → RwState × CbResult}
    (hh : ∀ st v, (h st v).2 = .notModified) (st : RwState) (a : AttrTok)
    (hclean : cleanOK a.val = true) :
    (attrRewrite h st a).2 = .ok a.raw := by
  rw [attrRewrite]
  rw [cleanOK] at hclean
  cases hcv : cleanValue a.val with
  | error e => rw [hcv] at hclean; simp at hclean
  | ok qc =>
    cases qc with
    | mk q clean =>
      simp only
      have := hh st clean
      cases hr : h st clean with
      | mk st1 r =>
        rw [hr] at this
        simp only at this
        subst this
        rfl

theorem metaEmitLoop_nm {h : RwState → List Char → RwState × CbResult}
    (hh : ∀ st v, (h st v).2 = .notModified) :
    ∀ (attrs : List AttrTok) (st : RwState),
      attrs.all (fun a => cleanOK a.val) = true →
      (metaEmitLoop h st attrs).2.1 = attrs.flatMap AttrTok.raw ∧
      (metaEmitLoop h st attrs).2.2 = none := by
  intro attrs
  induction attrs with
  | nil => intro st _; exact ⟨rfl, rfl⟩
  | cons a rest ih =>
    intro st hclean
    simp only [List.all_cons, Bool.and_eq_true] at hclean
    obtain ⟨hca, hcr⟩ := hclean
    rw [metaEmitLoop]
    split
    · have hra := attrRewrite_nm hh st a hca
      cases hres : attrRewrite h st a with
      | mk st1 r =>
        rw [hres] at hra
        simp only at hra
        subst hra
        simp only
        obtain ⟨ih1, ih2⟩ := ih st1 hcr
        cases hml : metaEmitLoop h st1 rest with
        | mk st2 rest2 =>
          cases rest2 with
          | mk o2 e2 =>
            rw [hml] at ih1 ih2
            simp only at ih1 ih2
            subst ih1
            subst ih2
            simp [List.flatMap_cons]
    · obtain ⟨ih1, ih2⟩ := ih st hcr
      cases hml : metaEmitLoop h st rest with
      | mk st2 rest2 =>
        cases rest2 with
        | mk o2 e2 =>
          rw [hml] at ih1 ih2
          simp only at ih1 ih2
          subst ih1
          subst ih2
          simp [List.flatMap_cons]

theorem metaScan_ok :
    ∀ (attrs : List AttrTok) (acc : Bool × Bool × List Char),
      attrs.all (fun a => cleanOK a.val) = true →
      ∃ x, metaScan attrs acc = .ok x := by
  intro attrs
  induction attrs with
  | nil => intro acc _; exact ⟨acc, rfl⟩
  | cons a rest ih =>
    intro acc hclean
    simp only [List.all_cons, Bool.and_eq_true] at hclean
    obtain ⟨hca, hcr⟩ := hclean
    obtain ⟨r, ip, ipv⟩ := acc
    rw [metaScan]
    split
    · exact ih _ hcr
    · split
      · rw [cleanOK] at hca
        cases hcv : cleanValue a.val with
        | error e => rw [hcv] at hca; simp at hca
        | ok qc =>
          cases qc with
          | mk q cv => exact ih _ hcr
      · exact ih _ hcr

theorem metaFinish_nm {cb : URLRewriter} (hcb : ∀ u, cb u = .notModified)
    (st : RwState) (attrs : List AttrTok) (closeRaw : List Char)
    (hclean : attrs.all (fun a => cleanOK a.val) = true) :
    (metaFinish cb st attrs closeRaw).2.1 = attrs.flatMap AttrTok.raw ++ closeRaw ∧
    (metaFinish cb st attrs closeRaw).2.2 = none := by
  rw [metaFinish]
  obtain ⟨x, hx⟩ := metaScan_ok attrs (false, false, []) hclean
  rw [hx]
  obtain ⟨r, ip, ipv⟩ := x
  simp only
  by_cases h1 : (r && !ip) = true
  · rw [if_pos h1]
    have hrh : ∀ st v, (httpEquivRefreshAttribute cb st v).2 = .notModified := by
      intro st v
      rw [httpEquivRefreshAttribute_nm hcb]
    obtain ⟨e1, e2⟩ := metaEmitLoop_nm hrh attrs st hclean
    cases hml : metaEmitLoop (httpEquivRefreshAttribute cb) st attrs with
    | mk st2 rest2 =>
      cases rest2 with
      | mk o2 err2 =>
        rw [hml] at e1 e2
        simp only at e1 e2
        subst e1
        subst e2
        simp
  · rw [if_neg h1]
    by_cases h2 : (ip && !r && isOpenGraphURLProperty ipv) = true
    · rw [if_pos h2]
      have hrh : ∀ st v, (openGraphContentAttribute cb st v).2 = .notModified := by
        intro st v
        rw [openGraphContentAttribute_nm hcb]
      obtain ⟨e1, e2⟩ := metaEmitLoop_nm hrh attrs st hclean
      cases hml : metaEmitLoop (openGraphContentAttribute cb) st attrs with
      | mk st2 rest2 =>
        cases rest2 with
        | mk o2 err2 =>
          rw [hml] at e1 e2
          simp only at e1 e2
          subst e1
          subst e2
          simp
    · rw [if_neg h2]
      simp

theorem html5Loop_step_top {cb : URLRewriter} {mode1 : HMode} {st : RwState}
    {rest : List HToken}
    (h1 : (html5Loop cb mode1 st rest).2.1 = mode1.pending ++ htFlatRaw rest)
    (h2 : (html5Loop cb mode1 st rest).2.2 = .ok ())
    (hp : mode1.pending = []) (pre : List Char) :
    (let (st2, o2, res2) := html5Loop cb mode1 st rest
     ((st2 : RwState), pre ++ o2, res2)).2.1 = pre ++ htFlatRaw rest ∧
    (let (st2, o2, res2) := html5Loop cb mode1 st rest
     ((st2 : RwState), pre ++ o2, res2)).2.2 = .ok () := by
  cases hrun : html5Loop cb mode1 st rest with
  | mk st2 r2 =>
    cases r2 with
    | mk o2 res2 =>
      rw [hrun] at h1 h2
      rw [hp] at h1
      simp only at h1 h2
      subst h1
      subst h2
      simp

theorem html5Loop_nm {cb : URLRewriter} (hcb : ∀ u, cb u = .notModified) :
    ∀ (ts : List HToken) (mode : HMode) (st : RwState),
      htmlStreamWF mode.inside ts = true →
      modeAttrsClean mode = true →
      (html5Loop cb mode st ts).2.1 = mode.pending ++ htFlatRaw ts ∧
      (html5Loop cb mode st ts).2.2 = .ok () := by
  intro ts
  induction ts with
  | nil =>
    intro mode st hwf _
    simp [htmlStreamWF] at hwf
  | cons tok rest ih =>
    intro mode st hwf hclean
    cases mode with
    | top =>
      cases tok with
      | errTok eof =>
        simp only [HMode.inside, htmlStreamWF, Bool.not_false, Bool.and_true,
          Bool.and_eq_true, List.isEmpty_iff, decide_eq_true_eq] at hwf
        obtain ⟨heof, hrest⟩ := hwf
        subst heof
        subst hrest
        simp [html5Loop, HMode.pending, htFlatRaw, HToken.raw]
      | startTag raw name =>
        simp only [HMode.inside, htmlStreamWF, Bool.not_false, Bool.true_and] at hwf
        simp only [html5Loop]
        simp only [HMode.pending, htFlatRaw, List.flatMap_cons, HToken.raw, List.nil_append]
        by_cases hm : name = "meta".data
        · simp only [hm, if_pos rfl]
          have := ih (.inMeta []) st (by simpa [HMode.inside] using hwf) (by simp [modeAttrsClean])
          exact html5Loop_step_top this.1 this.2 (by simp [HMode.pending]) raw
        · rw [if_neg hm]
          by_cases hb : name = "base".data
          · rw [if_pos hb]
            have := ih .inBase st (by simpa [HMode.inside] using hwf) (by simp [modeAttrsClean])
            exact html5Loop_step_top this.1 this.2 (by simp [HMode.pending]) raw
          · rw [if_neg hb]
            have := ih (.inTag name) st (by simpa [HMode.inside] using hwf)
              (by simp [modeAttrsClean])
            exact html5Loop_step_top this.1 this.2 (by simp [HMode.pending]) raw
      | attrT a =>
        simp only [HMode.inside, htmlStreamWF, Bool.and_eq_true] at hwf
        simp only [html5Loop]
        simp only [HMode.pending, htFlatRaw, List.flatMap_cons, HToken.raw, List.nil_append]
        have := ih .top st (by simpa [HMode.inside] using hwf.2) (by simp [modeAttrsClean])
        exact html5Loop_step_top this.1 this.2 (by simp [HMode.pending]) a.raw
      | startTagClose raw =>
        simp only [HMode.inside, htmlStreamWF] at hwf
        simp only [html5Loop]
        simp only [HMode.pending, htFlatRaw, List.flatMap_cons, HToken.raw, List.nil_append]
        have := ih .top st (by simpa [HMode.inside] using hwf) (by simp [modeAttrsClean])
        exact html5Loop_step_top this.1 this.2 (by simp [HMode.pending]) raw
      | startTagVoid raw =>
        simp only [HMode.inside, htmlStreamWF] at hwf
        simp only [html5Loop]
        simp only [HMode.pending, htFlatRaw, List.flatMap_cons, HToken.raw, List.nil_append]
        have := ih .top st (by simpa [HMode.inside] using hwf) (by simp [modeAttrsClean])
        exact html5Loop_step_top this.1 this.2 (by simp [HMode.pending]) raw
      | other raw =>
        simp only [HMode.inside, htmlStreamWF, Bool.not_false, Bool.true_and] at hwf
        simp only [html5Loop]
        simp only [HMode.pending, htFlatRaw, List.flatMap_cons, HToken.raw, List.nil_append]
        have := ih .top st (by simpa [HMode.inside] using hwf) (by simp [modeAttrsClean])
        exact html5Loop_step_top this.1 this.2 (by simp [HMode.pending]) raw
    | inTag tag =>
      cases tok with
      | errTok eof =>
        simp [HMode.inside, htmlStreamWF] at hwf
      | startTag raw name =>
        simp [HMode.inside, htmlStreamWF] at hwf
      | other raw =>
        simp [HMode.inside, htmlStreamWF] at hwf
      | startTagClose raw =>
        simp only [HMode.inside, htmlStreamWF] at hwf
        simp only [html5Loop]
        simp only [HMode.pending, htFlatRaw, List.flatMap_cons, HToken.raw, List.nil_append]
        have := ih .top st (by simpa [HMode.inside] using hwf) (by simp [modeAttrsClean])
        exact html5Loop_step_top this.1 this.2 (by simp [HMode.pending]) raw
      | startTagVoid raw =>
        simp only [HMode.inside, htmlStreamWF] at hwf
        simp only [html5Loop]
        simp only [HMode.pending, htFlatRaw, List.flatMap_cons, HToken.raw, List.nil_append]
        have := ih .top st (by simpa [HMode.inside] using hwf) (by simp [modeAttrsClean])
        exact html5Loop_step_top this.1 this.2 (by simp [HMode.pending]) raw
      | attrT a =>
        simp only [HMode.inside, htmlStreamWF, Bool.and_eq_true] at hwf
        obtain ⟨hca, hwfr⟩ := hwf
        simp only [html5Loop]
        simp only [HMode.pending, htFlatRaw, List.flatMap_cons, HToken.raw, List.nil_append]
        cases hfind : stdFind cb tag a.name with
        | none =>
          simp only
          have := ih .top st (htmlStreamWF_mono hwfr) (by simp [modeAttrsClean])
          exact html5Loop_step_top this.1 this.2 (by simp [HMode.pending]) a.raw
        | some h =>
          simp only
          rw [stdFind] at hfind
          rw [Option.map_eq_some'] at hfind
          obtain ⟨k, hk, hhk⟩ := hfind
          have hh : ∀ st v, (h st v).2 = .notModified := by
            intro st v
            rw [← hhk]
            exact runHandler_nm hcb k st v
          have hra := attrRewrite_nm hh st a hca
          cases hres : attrRewrite h st a with
          | mk st1 r =>
            rw [hres] at hra
            simp only at hra
            subst hra
            simp only
            have := ih (.inTag tag) st1 (by simpa [HMode.inside] using hwfr)
              (by simp [modeAttrsClean])
            exact html5Loop_step_top this.1 this.2 (by simp [HMode.pending]) a.raw
    | inBase =>
      cases tok with
      | errTok eof =>
        simp [HMode.inside, htmlStreamWF] at hwf
      | startTag raw name =>
        simp [HMode.inside, htmlStreamWF] at hwf
      | other raw =>
        simp [HMode.inside, htmlStreamWF] at hwf
      | startTagClose raw =>
        simp only [HMode.inside, htmlStreamWF] at hwf
        simp only [html5Loop]
        simp only [HMode.pending, htFlatRaw, List.flatMap_cons, HToken.raw, List.nil_append]
        have := ih .top st (by simpa [HMode.inside] using hwf) (by simp [modeAttrsClean])
        exact html5Loop_step_top this.1 this.2 (by simp [HMode.pending]) raw
      | startTagVoid raw =>
        simp only [HMode.inside, htmlStreamWF] at hwf
        simp only [html5Loop]
        simp only [HMode.pending, htFlatRaw, List.flatMap_cons, HToken.raw, List.nil_append]
        have := ih .top st (by simpa [HMode.inside] using hwf) (by simp [modeAttrsClean])
        exact html5Loop_step_top this.1 this.2 (by simp [HMode.pending]) raw
      | attrT a =>
        simp only [HMode.inside, htmlStreamWF, Bool.and_eq_true] at hwf
        obtain ⟨hca, hwfr⟩ := hwf
        simp only [html5Loop]
        simp only [HMode.pending, htFlatRaw, List.flatMap_cons, HToken.raw, List.nil_append]
        cases hfind : baseFind cb "base".data a.name with
        | none =>
          simp only
          have := ih .top st (htmlStreamWF_mono hwfr) (by simp [modeAttrsClean])
          exact html5Loop_step_top this.1 this.2 (by simp [HMode.pending]) a.raw
        | some h =>
          simp only
          rw [baseFind] at hfind
          have hh : ∀ st v, (h st v).2 = .notModified := by
            intro st v
            by_cases hhref : a.name = "href".data
            · rw [if_pos hhref] at hfind
              cases hfind
              exact baseHrefAttribute_nm hcb st v
            · rw [if_neg hhref] at hfind
              cases hfind
          have hra := attrRewrite_nm hh st a hca
          cases hres : attrRewrite h st a with
          | mk st1 r =>
            rw [hres] at hra
            simp only at hra
            subst hra
            simp only
            have := ih .inBase st1 (by simpa [HMode.inside] using hwfr)
              (by simp [modeAttrsClean])
            exact html5Loop_step_top this.1 this.2 (by simp [HMode.pending]) a.raw
    | inMeta attrs =>
      cases tok with
      | errTok eof =>
        simp [HMode.inside, htmlStreamWF] at hwf
      | startTag raw name =>
        simp [HMode.inside, htmlStreamWF] at hwf
      | other raw =>
        simp [HMode.inside, htmlStreamWF] at hwf
      | attrT a =>
        simp only [HMode.inside, htmlStreamWF, Bool.and_eq_true] at hwf
        obtain ⟨hca, hwfr⟩ := hwf
        simp only [modeAttrsClean] at hclean
        simp only [html5Loop]
        have hcl1 : modeAttrsClean (.inMeta (attrs ++ [a])) = true := by
          simp only [modeAttrsClean, List.all_append, List.all_cons, List.all_nil,
            Bool.and_eq_true]
          exact ⟨hclean, hca, trivial⟩
        have := ih (.inMeta (attrs ++ [a])) st (by simpa [HMode.inside] using hwfr) hcl1
        obtain ⟨ih1, ih2⟩ := this
        constructor
        · rw [ih1]
          simp [HMode.pending, htFlatRaw, List.flatMap_cons, HToken.raw]
        · exact ih2
      | startTagClose raw =>
        simp only [HMode.inside, htmlStreamWF] at hwf
        simp only [modeAttrsClean] at hclean
        simp only [html5Loop]
        have hmf := metaFinish_nm hcb st attrs raw hclean
        cases hres : metaFinish cb st attrs raw with
        | mk st1 r1 =>
          cases r1 with
          | mk o e =>
            rw [hres] at hmf
            simp only at hmf
            obtain ⟨hmf1, hmf2⟩ := hmf
            subst hmf1
            subst hmf2
            simp only
            have := ih .top st1 (by simpa [HMode.inside] using hwf) (by simp [modeAttrsClean])
            cases hrun : html5Loop cb HMode.top st1 rest with
            | mk st2 r2 =>
              cases r2 with
              | mk o2 res2 =>
                rw [hrun] at this
                simp only at this
                obtain ⟨t1, t2⟩ := this
                subst t1
                subst t2
                constructor
                · simp [HMode.pending, htFlatRaw, List.flatMap_cons, HToken.raw]
                · rfl
      | startTagVoid raw =>
        simp only [HMode.inside, htmlStreamWF] at hwf
        simp only [modeAttrsClean] at hclean
        simp only [html5Loop]
        have hmf := metaFinish_nm hcb st attrs raw hclean
        cases hres : metaFinish cb st attrs raw with
        | mk st1 r1 =>
          cases r1 with
          | mk o e =>
            rw [hres] at hmf
            simp only at hmf
            obtain ⟨hmf1, hmf2⟩ := hmf
            subst hmf1
            subst hmf2
            simp only
            have := ih .top st1 (by simpa [HMode.inside] using hwf) (by simp [modeAttrsClean])
            cases hrun : html5Loop cb HMode.top st1 rest with
            | mk st2 r2 =>
              cases r2 with
              | mk o2 res2 =>
                rw [hrun] at this
                simp only at this
                obtain ⟨t1, t2⟩ := this
                subst t1
                subst t2
                constructor
                · simp [HMode.pending, htFlatRaw, List.flatMap_cons, HToken.raw]
                · rfl

theorem handleURLToken_nm {cb : URLRewriter} (hcb : ∀ u, cb u = .notModified)
    (raw text : List Char) (hok : urlTokenOK text = true) :
    handleURLToken cb raw text = .ok raw := by
  rw [urlTokenOK] at hok
  rw [handleURLToken]
  cases hp : urlTokenParse text with
  | error e => rw [hp] at hok; simp at hok
  | ok vp =>
    obtain ⟨value, s, e⟩ := vp
    simp [hcb]

theorem cssLoop_nm {cb : URLRewriter} (hcb : ∀ u, cb u = .notModified) :
    ∀ (ts : List CToken) (mode : CMode),
      cssStreamWF ts = true →
      (cssLoop cb mode ts).1 = cFlatRaw ts := by
  intro ts
  induction ts with
  | nil => intro mode _; cases mode <;> rfl
  | cons tok rest ih =>
    intro mode hwf
    have hurl : ∀ raw text, urlTokenOK text = true → cssStreamWF rest = true →
        ∀ m : CMode,
        (match handleURLToken cb raw text with
          | .error e => (([] : List Char), Except.error (RwFatal.msg e))
          | .ok o =>
            let (o2, res2) := cssLoop cb .top rest
            (o ++ o2, res2)).1 = raw ++ cFlatRaw rest := by
      intro raw text hok hr _
      rw [handleURLToken_nm hcb raw text hok]
      simp only
      cases hrun : cssLoop cb CMode.top rest with
      | mk o2 res2 =>
        have := ih .top hr
        rw [hrun] at this
        simp only at this
        subst this
        simp
    cases mode with
    | top =>
      cases tok with
      | errTok eof =>
        simp only [cssStreamWF, List.isEmpty_iff] at hwf
        subst hwf
        cases eof <;> simp [cssLoop, cFlatRaw, CToken.raw]
      | urlTok raw text =>
        simp only [cssStreamWF, Bool.and_eq_true] at hwf
        simp only [cssLoop]
        rw [cFlatRaw, List.flatMap_cons]
        exact hurl raw text hwf.1 hwf.2 .top
      | atKeyword raw text =>
        simp only [cssStreamWF] at hwf
        simp only [cssLoop]
        cases hrun : cssLoop cb (if isImportKeyword text then CMode.afterImport else CMode.top)
            rest with
        | mk o2 res2 =>
          have := ih (if isImportKeyword text then CMode.afterImport else CMode.top) hwf
          rw [hrun] at this
          simp only at this
          subst this
          simp [cFlatRaw, CToken.raw]
      | whitespace raw =>
        simp only [cssStreamWF] at hwf
        simp only [cssLoop]
        cases hrun : cssLoop cb CMode.top rest with
        | mk o2 res2 =>
          have := ih .top hwf
          rw [hrun] at this
          simp only at this
          subst this
          simp [cFlatRaw, CToken.raw]
      | stringTok raw text =>
        simp only [cssStreamWF, Bool.and_eq_true] at hwf
        simp only [cssLoop]
        cases hrun : cssLoop cb CMode.top rest with
        | mk o2 res2 =>
          have := ih .top hwf.2
          rw [hrun] at this
          simp only at this
          subst this
          simp [cFlatRaw, CToken.raw]
      | other raw =>
        simp only [cssStreamWF] at hwf
        simp only [cssLoop]
        cases hrun : cssLoop cb CMode.top rest with
        | mk o2 res2 =>
          have := ih .top hwf
          rw [hrun] at this
          simp only at this
          subst this
          simp [cFlatRaw, CToken.raw]
    | afterImport =>
      cases tok with
      | errTok eof =>
        simp only [cssStreamWF, List.isEmpty_iff] at hwf
        subst hwf
        simp [cssLoop, cFlatRaw, CToken.raw]
      | urlTok raw text =>
        simp only [cssStreamWF, Bool.and_eq_true] at hwf
        simp only [cssLoop]
        rw [cFlatRaw, List.flatMap_cons]
        exact hurl raw text hwf.1 hwf.2 .afterImport
      | atKeyword raw text =>
        simp only [cssStreamWF] at hwf
        simp only [cssLoop]
        cases hrun : cssLoop cb (if isImportKeyword text then CMode.afterImport else CMode.top)
            rest with
        | mk o2 res2 =>
          have := ih (if isImportKeyword text then CMode.afterImport else CMode.top) hwf
          rw [hrun] at this
          simp only at this
          subst this
          simp [cFlatRaw, CToken.raw]
      | whitespace raw =>
        simp only [cssStreamWF] at hwf
        simp only [cssLoop]
        cases hrun : cssLoop cb CMode.afterImportWS rest with
        | mk o2 res2 =>
          have := ih .afterImportWS hwf
          rw [hrun] at this
          simp only at this
          subst this
          simp [cFlatRaw, CToken.raw]
      | stringTok raw text =>
        simp only [cssStreamWF, Bool.and_eq_true] at hwf
        simp only [cssLoop]
        cases hrun : cssLoop cb CMode.top rest with
        | mk o2 res2 =>
          have := ih .top hwf.2
          rw [hrun] at this
          simp only at this
          subst this
          simp [cFlatRaw, CToken.raw]
      | other raw =>
        simp only [cssStreamWF] at hwf
        simp only [cssLoop]
        cases hrun : cssLoop cb CMode.top rest with
        | mk o2 res2 =>
          have := ih .top hwf
          rw [hrun] at this
          simp only at this
          subst this
          simp [cFlatRaw, CToken.raw]
    | afterImportWS =>
      cases tok with
      | errTok eof =>
        simp only [cssStreamWF, List.isEmpty_iff] at hwf
        subst hwf
        simp [cssLoop, cFlatRaw, CToken.raw]
      | urlTok raw text =>
        simp only [cssStreamWF, Bool.and_eq_true] at hwf
        simp only [cssLoop]
        rw [cFlatRaw, List.flatMap_cons]
        exact hurl raw text hwf.1 hwf.2 .afterImportWS
      | atKeyword raw text =>
        simp only [cssStreamWF] at hwf
        simp only [cssLoop]
        cases hrun : cssLoop cb (if isImportKeyword text then CMode.afterImport else CMode.top)
            rest with
        | mk o2 res2 =>
          have := ih (if isImportKeyword text then CMode.afterImport else CMode.top) hwf
          rw [hrun] at this
          simp only at this
          subst this
          simp [cFlatRaw, CToken.raw]
      | whitespace raw =>
        simp only [cssStreamWF] at hwf
        simp only [cssLoop]
        cases hrun : cssLoop cb CMode.top rest with
        | mk o2 res2 =>
          have := ih .top hwf
          rw [hrun] at this
          simp only at this
          subst this
          simp [cFlatRaw, CToken.raw]
      | stringTok raw text =>
        simp only [cssStreamWF, Bool.and_eq_true] at hwf
        obtain ⟨hok, hr⟩ := hwf
        rw [stringTokenOK] at hok
        simp only [cssLoop]
        cases hun : cssUnescapeString text with
        | error e => rw [hun] at hok; simp at hok
        | ok vp =>
          obtain ⟨value, size⟩ := vp
          rw [hun] at hok
          simp only [decide_eq_true_eq] at hok
          subst hok
          simp [hcb, ih .top hr, cFlatRaw, CToken.raw]
      | other raw =>
        simp only [cssStreamWF] at hwf
        simp only [cssLoop]
        cases hrun : cssLoop cb CMode.top rest with
        | mk o2 res2 =>
          have := ih .top hwf
          rw [hrun] at this
          simp only at this
          subst this
          simp [cFlatRaw, CToken.raw]

/-- C2: with a callback that always returns `NotModified`, both
rewriters reproduce their input byte for byte.  For every well-formed
HTML lexer token stream the HTML rewriter succeeds and its output is the
concatenation of the tokens' raw input bytes — i.e. the input stream —
and for every well-formed CSS lexer token stream the CSS rewriter's
output likewise equals the input. -/
theorem rewriters_notModified_identity (cb : URLRewriter)
    (hcb : ∀ u, cb u = .notModified) :
    (∀ ts : List HToken, htmlStreamWF false ts = true →
      (html5Run cb ts).2.1 = htFlatRaw ts ∧ (html5Run cb ts).2.2 = .ok ()) ∧
    (∀ ts : List CToken, cssStreamWF ts = true →
      (cssRun cb ts).1 = cFlatRaw ts) := by
  constructor
  · intro ts hwf
    have := html5Loop_nm hcb ts .top initRwState (by simpa [HMode.inside] using hwf)
      (by simp [modeAttrsClean])
    simpa [html5Run, HMode.pending] using this
  · intro ts hwf
    exact cssLoop_nm hcb ts .top hwf

/-- Witness for C2 at concrete inputs: the stream of
`<a href="x.html">hello` for HTML and of `@import ;` for CSS, with the
constant-NotModified callback; both rewriters reproduce the input. -/
theorem rewriters_notModified_identity_witness :
    (html5Run (fun _ => .notModified)
      [.startTag "<a".data "a".data,
       .attrT { raw := " href=\"x.html\"".data, data := "href=\"x.html\"".data,
                name := "href".data, val := "\"x.html\"".data },
       .startTagClose ">".data,
       .other "hello".data,
       .errTok true]).2.1 = "<a href=\"x.html\">hello".data ∧
    (cssRun (fun _ => .notModified)
      [.atKeyword "@import".data "@import".data,
       .whitespace " ".data,
       .other ";".data,
       .errTok true]).1 = "@import ;".data := by
  constructor
  · have := ((rewriters_notModified_identity (fun _ => .notModified) (fun _ => rfl)).1
      [.startTag "<a".data "a".data,
       .attrT { raw := " href=\"x.html\"".data, data := "href=\"x.html\"".data,
                name := "href".data, val := "\"x.html\"".data },
       .startTagClose ">".data,
       .other "hello".data,
       .errTok true] (by decide)).1
    rw [this]
    decide
  · have := (rewriters_notModified_identity (fun _ => .notModified) (fun _ => rfl)).2
      [.atKeyword "@import".data "@import".data,
       .whitespace " ".data,
       .other ";".data,
       .errTok true] (by decide)
    rw [this]
    decide

/-- C3 (code evaluated at the failing input): the handler table is *not*
consulted for every attribute.  On `<a title="x" href="1.html">` with a
callback that replaces every URL, the `title` attribute has no handler,
so `rewriteAttributes` copies it and returns to the main loop
(`return lc.copy()`), and the following `href` — which *does* have a
table handler — is copied verbatim by the main loop's default case: the
output equals the input.  When `href` comes first it is rewritten, and
the repository's own test `rewrite multiple attributes` expects the
rewrite in both situations. -/
theorem html_handler_skipped_after_unhandled_attribute :
    (html5Run (fun _ => .ok "REPLACED".data)
      [.startTag "<a".data "a".data,
       .attrT { raw := " title=\"x\"".data, data := " title=\"x\"".data,
                name := "title".data, val := "\"x\"".data },
       .attrT { raw := " href=\"1.html\"".data, data := " href=\"1.html\"".data,
                name := "href".data, val := "\"1.html\"".data },
       .startTagClose ">".data,
       .errTok true]).2.1 = "<a title=\"x\" href=\"1.html\">".data ∧
    (html5Run (fun _ => .ok "REPLACED".data)
      [.startTag "<a".data "a".data,
       .attrT { raw := " title=\"x\"".data, data := " title=\"x\"".data,
                name := "title".data, val := "\"x\"".data },
       .attrT { raw := " href=\"1.html\"".data, data := " href=\"1.html\"".data,
                name := "href".data, val := "\"1.html\"".data },
       .startTagClose ">".data,
       .errTok true]).2.2 = .ok () ∧
    findHandler "a".data "href".data = some .url ∧
    (html5Run (fun _ => .ok "REPLACED".data)
      [.startTag "<a".data "a".data,
       .attrT { raw := " href=\"1.html\"".data, data := " href=\"1.html\"".data,
                name := "href".data, val := "\"1.html\"".data },
       .startTagClose ">".data,
       .errTok true]).2.1 = "<a href=\"REPLACED\">".data := by
  refine ⟨by decide, by decide, by decide, by decide⟩

/-- C5 (code evaluated at the failing input): every `<base href>` takes
effect, not only the first.  `baseURLSet` is never assigned, so on a
document with two `<base href>` tags and a callback that rewrites every
URL to `R`, the second tag also invokes the callback, is rewritten in
the output, and overwrites the recorded effective base. -/
theorem base_second_tag_also_rewritten :
    (html5Run (fun _ => .ok "R".data)
      [.startTag "<base".data "base".data,
       .attrT { raw := " href=\"http://a/\"".data, data := " href=\"http://a/\"".data,
                name := "href".data, val := "\"http://a/\"".data },
       .startTagClose ">".data,
       .startTag "<base".data "base".data,
       .attrT { raw := " href=\"http://b/\"".data, data := " href=\"http://b/\"".data,
                name := "href".data, val := "\"http://b/\"".data },
       .startTagClose ">".data,
       .errTok true]).2.1 = "<base href=\"R\"><base href=\"R\">".data ∧
    (html5Run (fun _ => .ok "R".data)
      [.startTag "<base".data "base".data,
       .attrT { raw := " href=\"http://a/\"".data, data := " href=\"http://a/\"".data,
                name := "href".data, val := "\"http://a/\"".data },
       .startTagClose ">".data,
       .startTag "<base".data "base".data,
       .attrT { raw := " href=\"http://b/\"".data, data := " href=\"http://b/\"".data,
                name := "href".data, val := "\"http://b/\"".data },
       .startTagClose ">".data,
       .errTok true]).1.baseURL = "http://b/".data ∧
    (html5Run (fun _ => .ok "R".data)
      [.startTag "<base".data "base".data,
       .attrT { raw := " href=\"http://a/\"".data, data := " href=\"http://a/\"".data,
                name := "href".data, val := "\"http://a/\"".data },
       .startTagClose ">".data,
       .startTag "<base".data "base".data,
       .attrT { raw := " href=\"http://b/\"".data, data := " href=\"http://b/\"".data,
                name := "href".data, val := "\"http://b/\"".data },
       .startTagClose ">".data,
       .errTok true]).1.baseURLSet = false := by
  refine ⟨by decide, by decide, by decide⟩

/-- C7 counterexample: `Rebase` does not fail with `NoBase` on every
violated requirement.  With `u = http://a/d/x`, `oldBase = http://a/d/`
and `newBase = http://b/nod`, the requirement "`newBase.path` must end
with `/`" is violated, so the claim demands `NoBase`; the source
returns a distinct `fmt.Errorf` error instead.  (A non-absolute
`newBase` is not even checked and succeeds, another deviation.) -/
theorem rebase_not_nobase_on_slash_requirement :
    IsAbs (mkURL "http" "a" "/d/x") = true ∧
    IsAbs (mkURL "http" "a" "/d/") = true ∧
    IsAbs (mkURL "http" "b" "/nod") = true ∧
    "/".data.isSuffixOf (Canonical (mkURL "http" "a" "/d/")).path = true ∧
    ("/".data.isSuffixOf (Canonical (mkURL "http" "b" "/nod")).path) = false ∧
    Rebase (mkURL "http" "a" "/d/x") (mkURL "http" "a" "/d/") (mkURL "http" "b" "/nod") =
      .error .newBaseMustEndWithSlash ∧
    Rebase (mkURL "http" "a" "/d/x") (mkURL "http" "a" "/d/") (mkURL "http" "b" "/nod") ≠
      .error .noBase ∧
    Rebase (mkURL "http" "a" "/d/x") (mkURL "http" "a" "/d/") (mkURL "" "" "rel/") =
      .ok { mkURL "" "" "rel/x" with host := [] } := by
  refine ⟨rfl, rfl, rfl, by decide, by decide, by decide, by decide, by decide⟩

/-- C7 as amended: `Rebase` fails with `NoBase` exactly when `u` is not
absolute, or `u`'s canonical scheme or host differs from `oldBase`'s,
or `oldBase`'s canonical path ends with `/` but is not a prefix of
`u`'s, or it does not end with `/` and differs from `u`'s path; the
absoluteness of the bases is not checked (a relative `newBase` is
accepted), and a `/`-terminated `oldBase` path with a
non-`/`-terminated `newBase` path yields a distinct non-`NoBase`
error.  On success the result takes scheme, host and path prefix from
the canonical `newBase`. -/
theorem rebase_error_characterization (u ob nb : GoURL) :
    (Rebase u ob nb = .error .noBase ↔
      (¬ IsAbs u = true ∨
       ¬ (Canonical u).scheme = (Canonical ob).scheme ∨
       ¬ (Canonical u).host = (Canonical ob).host ∨
       ("/".data.isSuffixOf (Canonical ob).path = true ∧
        ¬ (Canonical ob).path.isPrefixOf (Canonical u).path = true) ∨
       (¬ "/".data.isSuffixOf (Canonical ob).path = true ∧
        ¬ (Canonical u).path = (Canonical ob).path))) ∧
    (IsAbs u = true → (Canonical u).scheme = (Canonical ob).scheme →
      (Canonical u).host = (Canonical ob).host →
      "/".data.isSuffixOf (Canonical ob).path = true →
      (Canonical ob).path.isPrefixOf (Canonical u).path = true →
      ¬ "/".data.isSuffixOf (Canonical nb).path = true →
      Rebase u ob nb = .error .newBaseMustEndWithSlash) ∧
    (∀ v, Rebase u ob nb = .ok v →
      v.scheme = (Canonical nb).scheme ∧ v.host = (Canonical nb).host ∧
      (Canonical nb).path.isPrefixOf v.path = true) := by
  rw [Rebase]
  by_cases h1 : IsAbs u = true
  · rw [if_neg (by simp [h1])]
    by_cases h2 : (Canonical u).scheme = (Canonical ob).scheme
    · rw [if_neg (by simp [h2])]
      by_cases h3 : (Canonical u).host = (Canonical ob).host
      · rw [if_neg (by simpa using h3)]
        by_cases h4 : "/".data.isSuffixOf (Canonical ob).path = true
        · rw [if_neg (by simp [h4])]
          by_cases h5 : (Canonical ob).path.isPrefixOf (Canonical u).path = true
          · rw [if_neg (by simp [h5])]
            by_cases h6 : "/".data.isSuffixOf (Canonical nb).path = true
            · rw [if_neg (by simp [h6])]
              refine ⟨by simp [h1, h2, h3, h4, h5], by simp [h6], ?_⟩
              intro v hv
              cases hv
              refine ⟨rfl, rfl, ?_⟩
              simpa using List.prefix_append (Canonical nb).path _
            · rw [if_pos (by simpa using h6)]
              refine ⟨by simp [h1, h2, h3, h4, h5], by intros; rfl, ?_⟩
              intro v hv
              cases hv
          · rw [if_pos (by simpa using h5)]
            refine ⟨by simp [h1, h2, h3, h4, h5], by intro _ _ _ _ hc; exact absurd hc h5, ?_⟩
            intro v hv
            cases hv
        · rw [if_pos (by simpa using h4)]
          by_cases h5 : (Canonical u).path = (Canonical ob).path
          · rw [if_neg (by simp [h5])]
            refine ⟨by simp [h1, h2, h3, h4, h5], by intro _ _ _ hc; exact absurd hc h4, ?_⟩
            intro v hv
            cases hv
            refine ⟨rfl, rfl, ?_⟩
            simp
          · rw [if_pos (by simpa using h5)]
            refine ⟨by simp [h1, h2, h3, h4, h5], by intro _ _ _ hc; exact absurd hc h4, ?_⟩
            intro v hv
            cases hv
      · rw [if_pos (by simpa using h3)]
        refine ⟨by simp [h1, h2, h3], by intro _ _ hc; exact absurd hc h3, ?_⟩
        intro v hv
        cases hv
    · rw [if_pos (by simpa using h2)]
      refine ⟨by simp [h1, h2], by intro _ hc; exact absurd hc h2, ?_⟩
      intro v hv
      cases hv
  · rw [if_pos (by simpa using h1)]
    refine ⟨by simp [h1], by intro hc; exact absurd hc h1, ?_⟩
    intro v hv
    cases hv

/-- Witness for the amended C7 at concrete inputs: a successful rebase
from `http://a/d/x` under `http://a/d/` to `http://b/new/`, and the
`NoBase` characterization at a host mismatch. -/
theorem rebase_error_characterization_witness :
    ((mkURL "http" "b" "/new/x").scheme = (Canonical (mkURL "http" "b" "/new/")).scheme ∧
     (mkURL "http" "b" "/new/x").host = (Canonical (mkURL "http" "b" "/new/")).host ∧
     (Canonical (mkURL "http" "b" "/new/")).path.isPrefixOf
       (mkURL "http" "b" "/new/x").path = true) ∧
    (Rebase (mkURL "http" "a" "/d/x") (mkURL "http" "c" "/d/") (mkURL "http" "b" "/new/") =
      .error .noBase) := by
  constructor
  · exact (rebase_error_characterization (mkURL "http" "a" "/d/x") (mkURL "http" "a" "/d/")
      (mkURL "http" "b" "/new/")).2.2 (mkURL "http" "b" "/new/x") (by decide)
  · exact (rebase_error_characterization (mkURL "http" "a" "/d/x") (mkURL "http" "c" "/d/")
      (mkURL "http" "b" "/new/")).1.mpr (by decide)

/-- C9 (code evaluated at the failing input): the metadata written by
the fetch coordinator does *not* record the HTTP status line, status
code, protocol version, or trailer map.  For a response with status
`200 OK`, code 200, protocol `HTTP/1.1` and a nonempty trailer map, the
stored metadata carries the zero values instead, although the
`DocumentMetadata` struct declares the fields and `files.go`/`main.go`
read them. -/
theorem storeResponse_drops_status_fields :
    (∀ (resp : GoHTTPResponse) (t : Nat),
      (storeResponseMetadata resp t).status = "" ∧
      (storeResponseMetadata resp t).statusCode = 0 ∧
      (storeResponseMetadata resp t).proto = "" ∧
      (storeResponseMetadata resp t).trailers = []) ∧
    ¬ (storeResponseMetadata
        { requestURL := mkURL "http" "example.com" "/", status := "200 OK",
          statusCode := 200, proto := "HTTP/1.1", headers := [],
          trailers := [("Expires", ["0"])] } 5).status = "200 OK" ∧
    ¬ (storeResponseMetadata
        { requestURL := mkURL "http" "example.com" "/", status := "200 OK",
          statusCode := 200, proto := "HTTP/1.1", headers := [],
          trailers := [("Expires", ["0"])] } 5).statusCode = 200 ∧
    ¬ (storeResponseMetadata
        { requestURL := mkURL "http" "example.com" "/", status := "200 OK",
          statusCode := 200, proto := "HTTP/1.1", headers := [],
          trailers := [("Expires", ["0"])] } 5).proto = "HTTP/1.1" ∧
    ¬ (storeResponseMetadata
        { requestURL := mkURL "http" "example.com" "/", status := "200 OK",
          statusCode := 200, proto := "HTTP/1.1", headers := [],
          trailers := [("Expires", ["0"])] } 5).trailers = [("Expires", ["0"])] := by
  refine ⟨fun resp t => ⟨rfl, rfl, rfl, rfl⟩, by decide, by decide, by decide, by decide⟩

/-- C8 counterexample: the canonicalizer is *not* idempotent.  The URL
`http://[[a]]/` parses (net/url strips no brackets when parsing, and
`parseHost` only validates the outermost pair), its key is
`http://[a]/` — `Hostname()` strips one layer of brackets and
urlnorm's `joinHostPort` does not re-bracket a colon-free host — and
the key of that key is `http://a/`, so `canon(canon(u)) ≠ canon(u)`. -/
theorem key_not_idempotent :
    goParse "http://[[a]]/".data = .ok { mkURL "http" "[[a]]" "/" with host := "[[a]]".data } ∧
    goKey { mkURL "http" "[[a]]" "/" with host := "[[a]]".data } = "http://[a]/".data ∧
    goParse "http://[a]/".data = .ok { mkURL "http" "[a]" "/" with host := "[a]".data } ∧
    goKey { mkURL "http" "[a]" "/" with host := "[a]".data } = "http://a/".data ∧
    ¬ goKey { mkURL "http" "[a]" "/" with host := "[a]".data } =
      goKey { mkURL "http" "[[a]]" "/" with host := "[[a]]".data } := by
  refine ⟨by decide, by decide, by decide, by decide, by decide⟩

theorem unhex_upperHexDigit : ∀ n < 16, unhex (upperHexDigit n) = n := by decide

theorem ishex_upperHexDigit : ∀ n < 16, ishexChar (upperHexDigit n) = true := by decide

theorem shouldEscape_percent (mode : EncMode) : shouldEscape '%' mode = true := by
  cases mode <;> decide

theorem shouldEscape_plus_query : shouldEscape '+' .queryComponent = true := by decide

theorem unescapeURL_literal (mode : EncMode) (c : Char) (rest : List Char)
    (h1 : ¬ c = '%') (h2 : ¬ c = '+')
    (h3 : ¬ (mode = EncMode.host && decide (c.toNat < 0x80) &&
      shouldEscape c EncMode.host) = true) :
    unescapeURL mode (c :: rest) =
      match unescapeURL mode rest with
      | .error e => .error e
      | .ok t => .ok (c :: t) := by
  match rest with
  | [] => simp only [unescapeURL, if_neg h1, if_neg h2, if_neg h3]
  | [a] => simp only [unescapeURL, if_neg h1, if_neg h2, if_neg h3]
  | a :: b :: r2 => simp only [unescapeURL, if_neg h1, if_neg h2, if_neg h3]

theorem unescapeURL_plus (mode : EncMode) (rest : List Char) :
    unescapeURL mode ('+' :: rest) =
      match unescapeURL mode rest with
      | .error e => .error e
      | .ok t => .ok ((if mode = EncMode.queryComponent then ' ' else '+') :: t) := by
  match rest with
  | [] =>
    simp only [unescapeURL, if_neg (by decide : ¬ ('+' : Char) = '%'),
      eq_self_iff_true, if_true]
  | [a] =>
    simp only [unescapeURL, if_neg (by decide : ¬ ('+' : Char) = '%'),
      eq_self_iff_true, if_true]
  | a :: b :: r2 =>
    simp only [unescapeURL, if_neg (by decide : ¬ ('+' : Char) = '%'),
      eq_self_iff_true, if_true]

theorem unescapeURL_pct (mode : EncMode) (a b : Char) (rest2 : List Char)
    (hhex : (ishexChar a && ishexChar b) = true)
    (hhost : ¬ (mode = EncMode.host && decide (unhex a < 8) &&
      ¬ (a = '2' && b = '5')) = true) :
    unescapeURL mode ('%' :: a :: b :: rest2) =
      match unescapeURL mode rest2 with
      | .error e => .error e
      | .ok t => .ok (Char.ofNat (unhex a * 16 + unhex b) :: t) := by
  simp only [unescapeURL, eq_self_iff_true, if_true, if_pos hhex, if_neg hhost]

/-- Escaping then unescaping is the identity, provided the bytes are
bytes (< 256) and, in host context, only host-legal bytes occur. -/
theorem unescape_escape (mode : EncMode) (s : List Char)
    (hb : ∀ c ∈ s, c.toNat < 256)
    (hh : mode = .host → ∀ c ∈ s, hostCharOK c = true) :
    unescapeURL mode (escapeURL s mode) = .ok s := by
  induction s with
  | nil => rfl
  | cons c rest ih =>
    have hbc : c.toNat < 256 := hb c (by simp)
    have hbr : ∀ x ∈ rest, x.toNat < 256 := fun x hx => hb x (by simp [hx])
    have hhr : mode = .host → ∀ x ∈ rest, hostCharOK x = true := by
      intro hm x hx
      exact hh hm x (by simp [hx])
    have ihr : unescapeURL mode (escapeURL rest mode) = .ok rest := ih hbr hhr
    show unescapeURL mode (escapeCharURL mode c ++ escapeURL rest mode) = .ok (c :: rest)
    rw [escapeCharURL]
    by_cases hesc : shouldEscape c mode = true
    · rw [if_pos hesc]
      by_cases hsp : (c = ' ' && mode = .queryComponent) = true
      · rw [if_pos hsp]
        simp only [Bool.and_eq_true, decide_eq_true_eq] at hsp
        obtain ⟨hc, hm⟩ := hsp
        subst hc
        subst hm
        show unescapeURL .queryComponent ('+' :: escapeURL rest .queryComponent) =
          .ok (' ' :: rest)
        rw [unescapeURL_plus, ihr]
        rfl
      · rw [if_neg hsp]
        have hhi : c.toNat / 16 % 16 < 16 := by omega
        have hhi2 : c.toNat / 16 % 16 = c.toNat / 16 := by omega
        have hlo : c.toNat % 16 < 16 := by omega
        simp only [List.cons_append, List.nil_append]
        rw [unescapeURL_pct _ _ _ _ (by
            rw [ishex_upperHexDigit _ hhi, ishex_upperHexDigit _ hlo]
            rfl)
          (by
            intro hcon
            simp only [Bool.and_eq_true, decide_eq_true_eq, Bool.not_eq_true'] at hcon
            obtain ⟨⟨hm, hlt⟩, hne⟩ := hcon
            have hok := hh hm c (by simp)
            rw [hostCharOK] at hok
            simp only [Bool.or_eq_true, Bool.not_eq_true', decide_eq_true_eq] at hok
            rcases hok with (hok | hok) | hok
            · rw [hm] at hesc
              exact hok hesc
            · subst hok
              exact hne (by decide)
            · rw [unhex_upperHexDigit _ hhi] at hlt
              omega)]
        rw [ihr]
        have hval : unhex (upperHexDigit (c.toNat / 16 % 16)) * 16 +
            unhex (upperHexDigit (c.toNat % 16)) = c.toNat := by
          rw [unhex_upperHexDigit _ hhi, unhex_upperHexDigit _ hlo]
          omega
        rw [hval, Char.ofNat_toNat]
    · rw [if_neg hesc]
      simp only [List.cons_append, List.nil_append]
      have hcp : ¬ c = '%' := by
        intro hc
        subst hc
        exact hesc (shouldEscape_percent mode)
      by_cases hplus : c = '+'
      · subst hplus
        have hmq : ¬ mode = EncMode.queryComponent := by
          intro hm
          subst hm
          exact hesc shouldEscape_plus_query
        rw [unescapeURL_plus, ihr, if_neg hmq]
      · rw [unescapeURL_literal _ _ _ hcp hplus
          (by
            intro hcon
            simp only [Bool.and_eq_true, decide_eq_true_eq] at hcon
            obtain ⟨⟨hm, _⟩, hse⟩ := hcon
            rw [hm] at hesc
            exact hesc hse)]
        rw [ihr]

theorem char_le_iff (a b : Char) : a ≤ b ↔ a.toNat ≤ b.toNat := by
  rw [Char.le_def, UInt32.le_def]
  exact Iff.rfl

theorem toNat_charOfNat (n : Nat) (h : n < 0xD800) : (Char.ofNat n).toNat = n := by
  unfold Char.ofNat
  rw [dif_pos (Or.inl h)]
  rfl

theorem charOfNat_lt_128 {c : Char} (h : c.toNat < 128) : Char.ofNat c.toNat = c :=
  Char.ofNat_toNat c

/-- A simple host character is an ASCII byte. -/
theorem hostNameChar_lt_128 (c : Char) (h : hostNameChar c = true) : c.toNat < 128 := by
  rw [hostNameChar] at h
  simp only [Bool.or_eq_true, Bool.and_eq_true, decide_eq_true_eq] at h
  rcases h with ((h | h) | h) | h
  · have := (char_le_iff _ _).mp h.2
    have hz : ('z').toNat = 122 := rfl
    omega
  · rw [isDigitChar] at h
    simp only [Bool.and_eq_true, decide_eq_true_eq] at h
    have := (char_le_iff _ _).mp h.2
    have hz : ('9').toNat = 57 := rfl
    omega
  · subst h
    decide
  · subst h
    decide

/-- The facts a simple host character satisfies: never host-escaped,
already lowercase, distinct from every URL delimiter, and not a
control byte. -/
theorem hostNameChar_props (c : Char) (h : hostNameChar c = true) :
    shouldEscape c .host = false ∧ lowerChar c = c ∧ hostCharOK c = true ∧
    ¬ c = '/' ∧ ¬ c = '?' ∧ ¬ c = '#' ∧ ¬ c = '@' ∧ ¬ c = ':' ∧ ¬ c = '[' ∧
    ¬ c = '%' ∧ ¬ c = '+' ∧ ¬ c = '&' ∧ ¬ c = '*' ∧
    ¬ (c.toNat < 0x20 ∨ c.toNat = 0x7f) := by
  have hlt : c.toNat < 128 := hostNameChar_lt_128 c h
  have key : ∀ n, n < 128 → hostNameChar (Char.ofNat n) = true →
      shouldEscape (Char.ofNat n) .host = false ∧ lowerChar (Char.ofNat n) = Char.ofNat n ∧
      hostCharOK (Char.ofNat n) = true ∧
      ¬ Char.ofNat n = '/' ∧ ¬ Char.ofNat n = '?' ∧ ¬ Char.ofNat n = '#' ∧
      ¬ Char.ofNat n = '@' ∧ ¬ Char.ofNat n = ':' ∧ ¬ Char.ofNat n = '[' ∧
      ¬ Char.ofNat n = '%' ∧ ¬ Char.ofNat n = '+' ∧ ¬ Char.ofNat n = '&' ∧
      ¬ Char.ofNat n = '*' ∧
      ¬ ((Char.ofNat n).toNat < 0x20 ∨ (Char.ofNat n).toNat = 0x7f) := by
    set_option synthInstance.maxSize 2000 in decide
  have := key c.toNat hlt (by rw [charOfNat_lt_128 hlt]; exact h)
  rw [charOfNat_lt_128 hlt] at this
  exact this

/-- A lowercase-letter scheme character: alphabetic, lowercase, not a
delimiter, not a control byte. -/
theorem schemeNameChar_props (c : Char) (h : schemeNameChar c = true) :
    isAlphaChar c = true ∧ lowerChar c = c ∧
    ¬ c = ':' ∧ ¬ c = '?' ∧ ¬ c = '#' ∧ ¬ c = '/' ∧ ¬ c = '*' ∧
    ¬ (c.toNat < 0x20 ∨ c.toNat = 0x7f) := by
  have hlt : c.toNat < 128 := by
    rw [schemeNameChar] at h
    simp only [Bool.and_eq_true, decide_eq_true_eq] at h
    have := (char_le_iff _ _).mp h.2
    have hz : ('z').toNat = 122 := rfl
    omega
  have key : ∀ n, n < 128 → schemeNameChar (Char.ofNat n) = true →
      isAlphaChar (Char.ofNat n) = true ∧ lowerChar (Char.ofNat n) = Char.ofNat n ∧
      ¬ Char.ofNat n = ':' ∧ ¬ Char.ofNat n = '?' ∧ ¬ Char.ofNat n = '#' ∧
      ¬ Char.ofNat n = '/' ∧ ¬ Char.ofNat n = '*' ∧
      ¬ ((Char.ofNat n).toNat < 0x20 ∨ (Char.ofNat n).toNat = 0x7f) := by
    set_option synthInstance.maxSize 2000 in decide
  have := key c.toNat hlt (by rw [charOfNat_lt_128 hlt]; exact h)
  rw [charOfNat_lt_128 hlt] at this
  exact this

/-- A list whose characters all satisfy a property has no `contains`
hit outside it. -/
theorem contains_false_of_props {l : List Char} {c : Char}
    (h : ∀ x ∈ l, ¬ x = c) : l.contains c = false := by
  rw [← Bool.not_eq_true, List.elem_iff]
  intro hmem
  exact h c hmem rfl

/-- Every byte at or above 0x80 is escaped, in every mode. -/
theorem shouldEscape_big (c : Char) (hc : 128 ≤ c.toNat) (mode : EncMode) :
    shouldEscape c mode = true := by
  have hne : ∀ d : Char, d.toNat < 128 → ¬ c = d := by
    intro d hd he
    rw [he] at hc
    omega
  have hcont : ∀ s : String, (∀ x ∈ s.data, x.toNat < 128) → s.data.contains c = false := by
    intro s hs
    exact contains_false_of_props (fun x hx he => hne x (hs x hx) he.symm)
  rw [shouldEscape.eq_def]
  rw [if_neg (by
    simp only [isAlphaChar, isDigitChar, Bool.or_eq_true, Bool.and_eq_true,
      decide_eq_true_eq, char_le_iff]
    have h1 : ('z').toNat = 122 := rfl
    have h2 : ('9').toNat = 57 := rfl
    have h3 : ('Z').toNat = 90 := rfl
    omega)]
  rw [if_neg (by
    simp only [Bool.and_eq_true]
    intro hcon
    rw [hcont _ (by decide)] at hcon
    exact Bool.false_ne_true hcon.2)]
  rw [if_neg (by
    simp only [Bool.or_eq_true, decide_eq_true_eq]
    intro hcon
    rcases hcon with ((h | h) | h) | h <;>
      [exact hne '-' (by decide) h; exact hne '_' (by decide) h;
       exact hne '.' (by decide) h; exact hne '~' (by decide) h])]
  rw [if_neg (by
    intro hcon
    rw [hcont _ (by decide)] at hcon
    exact Bool.false_ne_true hcon)]
  rw [if_neg (by
    simp only [Bool.and_eq_true]
    intro hcon
    rw [hcont _ (by decide)] at hcon
    exact Bool.false_ne_true hcon.2)]

/-- An unescaped character is an ASCII byte. -/
theorem shouldEscape_false_lt (c : Char) (mode : EncMode)
    (h : shouldEscape c mode = false) : c.toNat < 128 := by
  by_contra hc
  rw [shouldEscape_big c (by omega) mode] at h
  exact Bool.noConfusion h

/-- Escaping a string of unescaped characters is the identity. -/
theorem escape_literal (mode : EncMode) (s : List Char)
    (h : ∀ c ∈ s, shouldEscape c mode = false) :
    escapeURL s mode = s := by
  induction s with
  | nil => rfl
  | cons c rest ih =>
    show escapeCharURL mode c ++ escapeURL rest mode = c :: rest
    rw [escapeCharURL, if_neg (by rw [h c (by simp)]; exact Bool.false_ne_true),
      ih (fun x hx => h x (by simp [hx]))]
    rfl

/-- Unescaping a string of plain (never-escaped, non-`%`, non-`+`)
characters is the identity. -/
theorem unescape_literal (mode : EncMode) (s : List Char)
    (h : ∀ c ∈ s, ¬ c = '%' ∧ ¬ c = '+' ∧
      (mode = EncMode.host → shouldEscape c .host = false)) :
    unescapeURL mode s = .ok s := by
  induction s with
  | nil => rfl
  | cons c rest ih =>
    obtain ⟨h1, h2, h3⟩ := h c (by simp)
    rw [unescapeURL_literal mode c rest h1 h2 (by
      simp only [Bool.and_eq_true, decide_eq_true_eq]
      intro hcon
      rw [h3 hcon.1.1] at hcon
      exact Bool.false_ne_true hcon.2)]
    rw [ih (fun x hx => h x (by simp [hx]))]

/-- Every character of an escaped string satisfies any property that
holds for `+`, `%`, the uppercase hex digits, and every unescaped
character. -/
theorem escapeURL_all (mode : EncMode) (P : Char → Bool)
    (hplus : P '+' = true) (hpct : P '%' = true)
    (hhex : ∀ n < 16, P (upperHexDigit n) = true)
    (hun : ∀ c, shouldEscape c mode = false → P c = true)
    (s : List Char) : ∀ x ∈ escapeURL s mode, P x = true := by
  induction s with
  | nil => intro x hx; cases hx
  | cons c rest ih =>
    intro x hx
    rw [show escapeURL (c :: rest) mode =
      escapeCharURL mode c ++ escapeURL rest mode from rfl] at hx
    rw [List.mem_append] at hx
    rcases hx with hx | hx
    · rw [escapeCharURL] at hx
      by_cases hesc : shouldEscape c mode = true
      · rw [if_pos hesc] at hx
        by_cases hsp : (c = ' ' && mode = .queryComponent) = true
        · rw [if_pos hsp, show ("+".data) = ['+'] from rfl] at hx
          simp only [List.mem_cons, List.not_mem_nil, or_false] at hx
          rw [hx]
          exact hplus
        · rw [if_neg hsp] at hx
          simp only [List.mem_cons, List.not_mem_nil, or_false] at hx
          rcases hx with h | h | h
          · rw [h]
            exact hpct
          · rw [h]
            exact hhex _ (by omega)
          · rw [h]
            exact hhex _ (by omega)
      · rw [if_neg hesc] at hx
        simp only [List.mem_cons, List.not_mem_nil, or_false] at hx
        rw [hx]
        exact hun c (Bool.not_eq_true _ ▸ hesc)
    · exact ih x hx

theorem ishexChar_lt_128 (c : Char) (h : ishexChar c = true) : c.toNat < 128 := by
  rw [ishexChar] at h
  simp only [Bool.or_eq_true, Bool.and_eq_true, decide_eq_true_eq] at h
  have h9 : ('9').toNat = 57 := rfl
  have hf : ('f').toNat = 102 := rfl
  have hF : ('F').toNat = 70 := rfl
  rcases h with (h | h) | h <;>
    [have := (char_le_iff _ _).mp h.2; have := (char_le_iff _ _).mp h.2;
     have := (char_le_iff _ _).mp h.2] <;> omega

theorem unhex_lt_16 (c : Char) (h : ishexChar c = true) : unhex c < 16 := by
  have hlt := ishexChar_lt_128 c h
  have key : ∀ n, n < 128 → ishexChar (Char.ofNat n) = true → unhex (Char.ofNat n) < 16 := by
    decide
  have := key c.toNat hlt (by rw [charOfNat_lt_128 hlt]; exact h)
  rw [charOfNat_lt_128 hlt] at this
  exact this

theorem unescapeURL_pct_badhex (mode : EncMode) (a b : Char) (rest2 : List Char)
    (h : ¬ (ishexChar a && ishexChar b) = true) :
    unescapeURL mode ('%' :: a :: b :: rest2) = .error "invalid URL escape" := by
  simp only [unescapeURL, eq_self_iff_true, if_true, if_neg h]

theorem unescapeURL_pct_short (mode : EncMode) (t : List Char)
    (h : ∀ a b rest2, ¬ t = a :: b :: rest2) :
    unescapeURL mode ('%' :: t) = .error "invalid URL escape" := by
  match t with
  | [] => rfl
  | [a] => rfl
  | a :: b :: r2 => exact absurd rfl (h a b r2)

theorem unescapeURL_pct_host (mode : EncMode) (a b : Char) (rest2 : List Char)
    (hhex : (ishexChar a && ishexChar b) = true)
    (hrej : (mode = EncMode.host && decide (unhex a < 8) &&
      ¬ (a = '2' && b = '5')) = true) :
    unescapeURL mode ('%' :: a :: b :: rest2) = .error "invalid URL escape in host" := by
  simp only [unescapeURL, eq_self_iff_true, if_true, if_pos hhex, if_pos hrej]

theorem unescapeURL_literal_reject (mode : EncMode) (c : Char) (t : List Char)
    (h1 : ¬ c = '%') (h2 : ¬ c = '+')
    (h3 : (mode = EncMode.host && decide (c.toNat < 0x80) &&
      shouldEscape c EncMode.host) = true) :
    unescapeURL mode (c :: t) = .error "invalid character in host name" := by
  match t with
  | [] => simp only [unescapeURL, if_neg h1, if_neg h2, if_pos h3]
  | [a] => simp only [unescapeURL, if_neg h1, if_neg h2, if_pos h3]
  | a :: b :: r2 => simp only [unescapeURL, if_neg h1, if_neg h2, if_pos h3]

/-- Unescaping a byte string yields a byte string. -/
theorem unescape_bytes (mode : EncMode) (s : List Char) :
    (∀ c ∈ s, c.toNat < 256) → ∀ t, unescapeURL mode s = .ok t →
    ∀ c ∈ t, c.toNat < 256 := by
  induction s using unescapeURL.induct mode with
  | case1 =>
    intro _ t h
    rw [show unescapeURL mode [] = .ok [] from rfl] at h
    injection h with h
    rw [← h]
    intro c hc
    cases hc
  | case2 a b rest2 hhex hrej =>
    intro hs t h
    rw [unescapeURL_pct_host mode a b rest2 hhex hrej] at h
    cases h
  | case3 a b rest2 hhex hrej e he ih =>
    intro hs t h
    rw [unescapeURL_pct mode a b rest2 hhex hrej, he] at h
    cases h
  | case4 a b rest2 hhex hrej o ho ih =>
    intro hs t h
    rw [unescapeURL_pct mode a b rest2 hhex hrej, ho] at h
    injection h with h
    rw [← h]
    intro c hc
    simp only [List.mem_cons] at hc
    rcases hc with hc | hc
    · rw [hc]
      simp only [Bool.and_eq_true] at hhex
      have ha := unhex_lt_16 a hhex.1
      have hb := unhex_lt_16 b hhex.2
      rw [toNat_charOfNat _ (by omega)]
      omega
    · exact ih (fun c hc => hs c (by simp [hc])) o ho c hc
  | case5 a b rest2 hhex =>
    intro hs t h
    rw [unescapeURL_pct_badhex mode a b rest2 hhex] at h
    cases h
  | case6 t2 hshape =>
    intro hs t h
    rw [unescapeURL_pct_short mode t2 (fun a b r2 he => hshape a b r2 he)] at h
    cases h
  | case7 t2 e he hne ih =>
    intro hs t h
    rw [unescapeURL_plus, he] at h
    cases h
  | case8 t2 o ho hne ih =>
    intro hs t h
    rw [unescapeURL_plus, ho] at h
    injection h with h
    rw [← h]
    intro c hc
    simp only [List.mem_cons] at hc
    rcases hc with hc | hc
    · rw [hc]
      by_cases hm : mode = EncMode.queryComponent
      · rw [if_pos hm]
        decide
      · rw [if_neg hm]
        decide
    · exact ih (fun c hc => hs c (by simp [hc])) o ho c hc
  | case9 w t2 h1 h2 h3 =>
    intro hs t h
    rw [unescapeURL_literal_reject mode w t2 h1 h2 h3] at h
    cases h
  | case10 w t2 h1 h2 h3 e he ih =>
    intro hs t h
    rw [unescapeURL_literal mode w t2 h1 h2 h3, he] at h
    cases h
  | case11 w t2 h1 h2 h3 o ho ih =>
    intro hs t h
    rw [unescapeURL_literal mode w t2 h1 h2 h3, ho] at h
    injection h with h
    rw [← h]
    intro c hc
    simp only [List.mem_cons] at hc
    rcases hc with hc | hc
    · rw [hc]
      exact hs w (by simp)
    · exact ih (fun c hc => hs c (by simp [hc])) o ho c hc

theorem getSchemeLoop_alpha (orig acc : List Char) (s r : List Char)
    (hs : ∀ c ∈ s, isAlphaChar c = true) :
    getSchemeLoop orig acc false (s ++ ':' :: r) = .ok (acc ++ s, r) := by
  induction s generalizing acc with
  | nil =>
    show getSchemeLoop orig acc false (':' :: r) = .ok (acc ++ [], r)
    rw [getSchemeLoop]
    rw [if_neg (by rw [show isAlphaChar ':' = false from rfl]; exact Bool.false_ne_true)]
    rw [if_neg (by decide)]
    rw [if_pos rfl, if_neg (Bool.false_ne_true)]
    rw [List.append_nil]
  | cons c s2 ih =>
    show getSchemeLoop orig acc false (c :: (s2 ++ ':' :: r)) = .ok (acc ++ c :: s2, r)
    rw [getSchemeLoop]
    rw [if_pos (hs c (by simp))]
    rw [ih (acc ++ [c]) (fun x hx => hs x (by simp [hx]))]
    rw [List.append_cons acc c s2]

/-- `getScheme` recovers a rendered nonempty alphabetic scheme. -/
theorem getScheme_render (s r : List Char) (hne : ¬ s = [])
    (hs : ∀ c ∈ s, isAlphaChar c = true) :
    getScheme (s ++ ':' :: r) = .ok (s, r) := by
  match s, hne with
  | c :: s2, _ =>
    rw [getScheme]
    show getSchemeLoop (c :: s2 ++ ':' :: r) [] true (c :: (s2 ++ ':' :: r)) = .ok (c :: s2, r)
    rw [getSchemeLoop]
    rw [if_pos (hs c (by simp))]
    rw [getSchemeLoop_alpha _ _ _ _ (fun x hx => hs x (by simp [hx]))]
    rfl

theorem cutChar_not_mem (c : Char) (l : List Char) (h : ∀ x ∈ l, ¬ x = c) :
    cutChar c l = (l, none) := by
  rw [cutChar]
  rw [List.takeWhile_eq_self_iff.mpr (by
    intro x hx
    simp only [decide_eq_true_eq]
    exact h x hx)]
  rw [List.dropWhile_eq_nil_iff.mpr (by
    intro x hx
    simp only [decide_eq_true_eq]
    exact h x hx)]

theorem cutChar_append (c : Char) (a b : List Char) (h : ∀ x ∈ a, ¬ x = c) :
    cutChar c (a ++ c :: b) = (a, some b) := by
  rw [cutChar]
  have ht : (a ++ c :: b).takeWhile (fun x => ¬ x = c) = a := by
    rw [List.takeWhile_append]
    rw [List.takeWhile_eq_self_iff.mpr (by
      intro x hx
      simp only [decide_eq_true_eq]
      exact h x hx)]
    rw [if_pos rfl]
    rw [show (c :: b).takeWhile (fun x => ¬ x = c) = [] from by
      rw [List.takeWhile_cons_of_neg]
      simp]
    rw [List.append_nil]
  have hd : (a ++ c :: b).dropWhile (fun x => ¬ x = c) = c :: b := by
    rw [List.dropWhile_append]
    rw [List.dropWhile_eq_nil_iff.mpr (by
      intro x hx
      simp only [decide_eq_true_eq]
      exact h x hx)]
    rw [if_pos (show ([] : List Char).isEmpty = true from rfl)]
    rw [List.dropWhile_cons_of_neg]
    simp
  rw [ht, hd]

theorem lastIdxOf_none (c : Char) (l : List Char) (h : ∀ x ∈ l, ¬ x = c) :
    lastIdxOf c l = none := by
  rw [lastIdxOf]
  rw [List.findIdx?_eq_none_iff.mpr (by
    intro x hx
    simp only [decide_eq_false_iff_not]
    exact h x (List.mem_reverse.mp hx))]

theorem stripBrackets_simple (l : List Char) (h : ∀ x ∈ l, ¬ x = '[') :
    stripBrackets l = l := by
  rw [stripBrackets]
  rw [if_neg (by
    intro hcon
    match l, hcon with
    | x :: t, hcon =>
      have : x = '[' := by
        have := hcon.1
        rw [show (x :: t).head? = some x from rfl] at this
        injection this
      exact h x (by simp) this)]

theorem goToLower_fixed (l : List Char) (h : ∀ x ∈ l, lowerChar x = x) :
    goToLower l = l := by
  rw [goToLower]
  rw [List.map_congr_left h]
  exact List.map_id l

/-- A simple host survives `splitHostPort` untouched, with no port. -/
theorem splitHostPort_simple (l : List Char) (h : ∀ x ∈ l, hostNameChar x = true) :
    splitHostPort l = (l, []) := by
  rw [splitHostPort]
  rw [lastIdxOf_none ':' l (fun x hx => (hostNameChar_props x (h x hx)).2.2.2.2.2.2.2.1)]
  rw [stripBrackets_simple l (fun x hx => (hostNameChar_props x (h x hx)).2.2.2.2.2.2.2.2.1)]

theorem joinHostPort_simple (l : List Char) (h : ∀ x ∈ l, hostNameChar x = true) :
    joinHostPort l [] = l := by
  rw [joinHostPort]
  rw [if_neg (by
    intro hcon
    rw [contains_false_of_props
      (fun x hx => (hostNameChar_props x (h x hx)).2.2.2.2.2.2.2.1)] at hcon
    exact Bool.noConfusion hcon)]
  rw [if_pos rfl]
  rw [List.append_nil]

/-- A simple host passes `parseHost` unchanged. -/
theorem parseHost_simple (l : List Char) (h : ∀ x ∈ l, hostNameChar x = true) :
    parseHost l = .ok l := by
  have hnb : ¬ l.head? = some '[' := by
    intro hcon
    match l, hcon with
    | x :: t, hcon =>
      have hx : x = '[' := by
        rw [show (x :: t).head? = some x from rfl] at hcon
        injection hcon
      exact (hostNameChar_props x (h x (by simp))).2.2.2.2.2.2.2.2.1 hx
  rw [parseHost]
  rw [if_neg hnb]
  rw [lastIdxOf_none ':' l (fun x hx => (hostNameChar_props x (h x hx)).2.2.2.2.2.2.2.1)]
  exact unescape_literal .host l (fun c hc =>
    ⟨(hostNameChar_props c (h c hc)).2.2.2.2.2.2.2.2.2.1,
     (hostNameChar_props c (h c hc)).2.2.2.2.2.2.2.2.2.2.1,
     fun _ => (hostNameChar_props c (h c hc)).1⟩)

/-- On a well-formed URL, canonicalization only fills in a missing
path: the scheme and host are already canonical. -/
theorem canonical_wf (u : GoURL) (hsne : ¬ u.scheme = [])
    (hs : ∀ c ∈ u.scheme, schemeNameChar c = true)
    (hhne : ¬ u.host = []) (hh : ∀ c ∈ u.host, hostNameChar c = true) :
    Canonical u = { u with path := if u.path = [] then "/".data else u.path } := by
  have h1 : goToLower u.scheme = u.scheme :=
    goToLower_fixed _ (fun x hx => (schemeNameChar_props x (hs x hx)).2.1)
  have h2 : splitHostPort u.host = (u.host, []) := splitHostPort_simple _ hh
  have h3 : goToLower u.host = u.host :=
    goToLower_fixed _ (fun x hx => (hostNameChar_props x (hh x hx)).2.1)
  have h4 : joinHostPort u.host [] = u.host := joinHostPort_simple _ hh
  rw [Canonical]
  simp only [h1, h2, h3, h4, hsne, hhne]
  simp [hsne, hhne]
  exact ⟨h4, by rw [h4]; simp [hhne]⟩

theorem addQueryValue_notMem (m : List (List Char × List (List Char)))
    (k : List Char) (v : List Char) (h : ¬ k ∈ keysOf m) :
    addQueryValue m k v = m ++ [(k, [v])] := by
  induction m with
  | nil => rfl
  | cons p rest ih =>
    match p with
    | (k0, vs) =>
      rw [addQueryValue]
      rw [if_neg (by
        intro hcon
        exact h (by rw [← hcon]; exact List.mem_cons_self _ _))]
      rw [ih (fun hcon => h (List.mem_cons_of_mem _ hcon))]
      rfl

theorem addQueryValue_last (m : List (List Char × List (List Char)))
    (k : List Char) (acc : List (List Char)) (v : List Char) (h : ¬ k ∈ keysOf m) :
    addQueryValue (m ++ [(k, acc)]) k v = m ++ [(k, acc ++ [v])] := by
  induction m with
  | nil =>
    show addQueryValue [(k, acc)] k v = [(k, acc ++ [v])]
    rw [addQueryValue, if_pos rfl]
  | cons p rest ih =>
    match p with
    | (k0, vs) =>
      show addQueryValue ((k0, vs) :: (rest ++ [(k, acc)])) k v = _
      rw [addQueryValue]
      rw [if_neg (by
        intro hcon
        exact h (by rw [← hcon]; exact List.mem_cons_self _ _))]
      rw [ih (fun hcon => h (List.mem_cons_of_mem _ hcon))]
      rfl

theorem keysOf_append (a b : List (List Char × List (List Char))) :
    keysOf (a ++ b) = keysOf a ++ keysOf b :=
  List.map_append _ _ _

theorem keysOf_addQueryValue (m : List (List Char × List (List Char)))
    (k : List Char) (v : List Char) :
    keysOf (addQueryValue m k v) = keysOf m ∨
    keysOf (addQueryValue m k v) = keysOf m ++ [k] := by
  induction m with
  | nil => exact Or.inr rfl
  | cons p rest ih =>
    match p with
    | (k0, vs) =>
      rw [addQueryValue]
      by_cases hk : k0 = k
      · rw [if_pos hk]
        exact Or.inl rfl
      · rw [if_neg hk]
        rcases ih with h | h
        · left
          show k0 :: keysOf (addQueryValue rest k v) = k0 :: keysOf rest
          rw [h]
        · right
          show k0 :: keysOf (addQueryValue rest k v) = k0 :: (keysOf rest ++ [k])
          rw [h]

theorem qryInv_addQueryValue (m : List (List Char × List (List Char)))
    (k : List Char) (v : List Char) (hm : qryInv m)
    (hk : ∀ c ∈ k, c.toNat < 256) (hv : ∀ c ∈ v, c.toNat < 256) :
    qryInv (addQueryValue m k v) := by
  induction m with
  | nil =>
    refine ⟨by rw [show addQueryValue [] k v = [(k, [v])] from rfl]; simp [keysOf], ?_⟩
    intro p hp
    rw [show addQueryValue [] k v = [(k, [v])] from rfl] at hp
    simp only [List.mem_singleton] at hp
    rw [hp]
    exact ⟨by simp, hk, by
      intro w hw
      simp only [List.mem_singleton] at hw
      rw [hw]
      exact hv⟩
  | cons p rest ih =>
    match p with
    | (k0, vs) =>
      obtain ⟨hnd, hprops⟩ := hm
      have hnd0 : ¬ k0 ∈ keysOf rest := by
        rw [keysOf, List.map_cons] at hnd
        exact (List.nodup_cons.mp hnd).1
      have hndr : (keysOf rest).Nodup := by
        rw [keysOf, List.map_cons] at hnd
        exact (List.nodup_cons.mp hnd).2
      rw [addQueryValue]
      by_cases hkk : k0 = k
      · rw [if_pos hkk]
        refine ⟨hnd, ?_⟩
        intro q hq
        simp only [List.mem_cons] at hq
        rcases hq with hq | hq
        · rw [hq]
          obtain ⟨h1, h2, h3⟩ := hprops (k0, vs) (List.mem_cons_self _ _)
          refine ⟨by simp, h2, ?_⟩
          intro w hw
          rw [List.mem_append] at hw
          rcases hw with hw | hw
          · exact h3 w hw
          · simp only [List.mem_singleton] at hw
            rw [hw]
            exact hv
        · exact hprops q (List.mem_cons_of_mem _ hq)
      · rw [if_neg hkk]
        have ihr := ih ⟨hndr, fun q hq => hprops q (List.mem_cons_of_mem _ hq)⟩
        refine ⟨?_, ?_⟩
        · show (keysOf ((k0, vs) :: addQueryValue rest k v)).Nodup
          rw [keysOf, List.map_cons]
          rw [List.nodup_cons]
          refine ⟨?_, ihr.1⟩
          rcases keysOf_addQueryValue rest k v with h | h
          · rw [show List.map Prod.fst (addQueryValue rest k v) =
              keysOf (addQueryValue rest k v) from rfl, h]
            exact hnd0
          · rw [show List.map Prod.fst (addQueryValue rest k v) =
              keysOf (addQueryValue rest k v) from rfl, h]
            rw [List.mem_append]
            intro hcon
            rcases hcon with hcon | hcon
            · exact hnd0 hcon
            · simp only [List.mem_singleton] at hcon
              exact hkk hcon
        · intro q hq
          simp only [List.mem_cons] at hq
          rcases hq with hq | hq
          · rw [hq]
            exact hprops (k0, vs) (List.mem_cons_self _ _)
          · exact ihr.2 q hq

theorem mem_intersperse {α : Type} (s : List α) (xs : List (List α)) (seg : List α)
    (h : seg ∈ xs) : seg ∈ xs.intersperse s := by
  induction xs with
  | nil => cases h
  | cons a rest ih =>
    match rest with
    | [] =>
      rw [List.intersperse_single]
      exact h
    | b :: rest2 =>
      rw [List.intersperse_cons_cons]
      simp only [List.mem_cons] at h ⊢
      rcases h with h | h
      · exact Or.inl h
      · right
        right
        have := ih (by simp [h])
        simp only [List.mem_cons] at this
        exact this

theorem splitOn_subset (c : Char) (l seg : List Char) (h : seg ∈ l.splitOn c)
    (x : Char) (hx : x ∈ seg) : x ∈ l := by
  have hi := List.intercalate_splitOn l c
  rw [← hi, List.intercalate, List.mem_flatten]
  exact ⟨seg, mem_intersperse _ _ _ h, hx⟩

theorem cutChar_fst (c : Char) (l : List Char) :
    (cutChar c l).1 = l.takeWhile (fun x => ¬ x = c) := by
  rw [cutChar]
  split <;> rfl

theorem cutChar_snd_subset (c : Char) (l : List Char) (x : Char)
    (hx : x ∈ (cutChar c l).2.getD []) : x ∈ l := by
  rw [cutChar] at hx
  revert hx
  have hsub := List.dropWhile_sublist (l := l) (fun x => ¬ x = c)
  split
  · intro hx
    cases hx
  · next y t heq =>
    intro hx
    rw [heq] at hsub
    exact hsub.subset (List.mem_cons_of_mem _ hx)

theorem parseQueryPair_bytes (seg : List Char) (hs : ∀ c ∈ seg, c.toNat < 256)
    (k v : List Char) (h : parseQueryPair seg = some (k, v)) :
    (∀ c ∈ k, c.toNat < 256) ∧ ∀ c ∈ v, c.toNat < 256 := by
  rw [parseQueryPair] at h
  by_cases h1 : seg.contains ';' = true
  · rw [if_pos h1] at h
    cases h
  · rw [if_neg h1] at h
    by_cases h2 : seg = []
    · rw [if_pos h2] at h
      cases h
    · rw [if_neg h2] at h
      have hk1 : ∀ c ∈ (cutChar '=' seg).1, c.toNat < 256 := by
        intro c hc
        rw [cutChar_fst] at hc
        exact hs c (List.takeWhile_subset _ hc)
      have hv1 : ∀ c ∈ (cutChar '=' seg).2.getD [], c.toNat < 256 := by
        intro c hc
        exact hs c (cutChar_snd_subset '=' seg c hc)
      have h3 : (match queryUnescape (cutChar '=' seg).1,
          queryUnescape ((cutChar '=' seg).2.getD []) with
        | .ok k2, .ok v2 => some (k2, v2)
        | _, _ => none) = some (k, v) := h
      revert h3
      match hqk : queryUnescape (cutChar '=' seg).1,
          hqv : queryUnescape ((cutChar '=' seg).2.getD []) with
      | .ok k2, .ok v2 =>
        intro h3
        have h4 : some (k2, v2) = some (k, v) := h3
        injection h4 with h4
        injection h4 with ha hb
        constructor
        · rw [← ha]
          exact unescape_bytes .queryComponent _ hk1 k2 hqk
        · rw [← hb]
          exact unescape_bytes .queryComponent _ hv1 v2 hqv
      | .ok _, .error _ =>
        intro h3
        cases h3
      | .error _, .ok _ =>
        intro h3
        cases h3
      | .error _, .error _ =>
        intro h3
        cases h3

/-- `goQuery` of a byte string satisfies the values-map invariant. -/
theorem goQuery_qryInv (rq : List Char) (hb : ∀ c ∈ rq, c.toNat < 256) :
    qryInv (goQuery rq) := by
  rw [goQuery]
  have hsegs : ∀ seg ∈ rq.splitOn '&', ∀ c ∈ seg, c.toNat < 256 :=
    fun seg hseg c hc => hb c (splitOn_subset '&' rq seg hseg c hc)
  have gen : ∀ (segs : List (List Char)) (m : List (List Char × List (List Char))),
      (∀ seg ∈ segs, ∀ c ∈ seg, c.toNat < 256) → qryInv m →
      qryInv (segs.foldl (fun m seg =>
        match parseQueryPair seg with
        | none => m
        | some (k, v) => addQueryValue m k v) m) := by
    intro segs
    induction segs with
    | nil =>
      intro m _ hm
      exact hm
    | cons seg rest ih =>
      intro m hsb hm
      rw [List.foldl_cons]
      refine ih _ (fun s hs => hsb s (by simp [hs])) ?_
      match hp : parseQueryPair seg with
      | none => exact hm
      | some (k, v) =>
        have := parseQueryPair_bytes seg (hsb seg (by simp)) k v hp
        exact qryInv_addQueryValue m k v hm this.1 this.2
  exact gen _ [] hsegs ⟨List.nodup_nil, fun p hp => absurd hp (List.not_mem_nil p)⟩

/-- Characters of a query-escaped string are never separators (`&`,
`=`, `;`, `#`, `?`) nor control bytes. -/
theorem queryEscape_safe (s : List Char) :
    ∀ x ∈ queryEscape s, (¬ x = '&' ∧ ¬ x = '=' ∧ ¬ x = ';' ∧ ¬ x = '#' ∧
      ¬ x = '?' ∧ ¬ (x.toNat < 0x20 ∨ x.toNat = 0x7f)) := by
  intro x hx
  have key := escapeURL_all .queryComponent
    (fun c => ¬ (c = '&') && ¬ (c = '=') && ¬ (c = ';') && ¬ (c = '#') &&
      ¬ (c = '?') && ¬ (decide (c.toNat < 0x20) || decide (c.toNat = 0x7f)))
    (by decide) (by decide) (by decide)
    (by
      intro c hesc
      have hlt := shouldEscape_false_lt c .queryComponent hesc
      have kk : ∀ n, n < 128 → shouldEscape (Char.ofNat n) .queryComponent = false →
          (¬ (Char.ofNat n = '&') && ¬ (Char.ofNat n = '=') && ¬ (Char.ofNat n = ';') &&
           ¬ (Char.ofNat n = '#') && ¬ (Char.ofNat n = '?') &&
           ¬ (decide ((Char.ofNat n).toNat < 0x20) ||
              decide ((Char.ofNat n).toNat = 0x7f))) = true := by decide
      have := kk c.toNat hlt (by rw [charOfNat_lt_128 hlt]; exact hesc)
      rw [charOfNat_lt_128 hlt] at this
      exact this)
    s x hx
  simp only [Bool.and_eq_true, Bool.not_eq_true', decide_eq_false_iff_not,
    Bool.or_eq_true, decide_eq_true_eq, not_or] at key
  exact ⟨key.1.1.1.1.1, key.1.1.1.1.2, key.1.1.1.2, key.1.1.2, key.1.2, by
    intro hcon
    rcases hcon with hcon | hcon
    · exact key.2.1 hcon
    · exact key.2.2 hcon⟩

/-- A rendered `key=value` segment parses back to the pair. -/
theorem parseQueryPair_render (k v : List Char)
    (hk : ∀ c ∈ k, c.toNat < 256) (hv : ∀ c ∈ v, c.toNat < 256) :
    parseQueryPair (qSegOf k v) = some (k, v) := by
  rw [parseQueryPair, qSegOf]
  rw [if_neg (by
    rw [contains_false_of_props (by
      intro x hx
      rw [List.mem_append] at hx
      rcases hx with hx | hx
      · exact (queryEscape_safe k x hx).2.2.1
      · simp only [List.mem_cons] at hx
        rcases hx with hx | hx
        · intro hcon
          rw [hx] at hcon
          exact absurd hcon (by decide)
        · exact (queryEscape_safe v x hx).2.2.1)]
    exact Bool.noConfusion)]
  rw [if_neg (by
    intro hcon
    have := congrArg List.length hcon
    rw [List.length_append] at this
    simp at this)]
  rw [cutChar_append '=' (queryEscape k) (queryEscape v)
    (fun x hx => (queryEscape_safe k x hx).2.1)]
  show (match queryUnescape (queryEscape k), queryUnescape (queryEscape v) with
    | .ok k2, .ok v2 => some (k2, v2)
    | _, _ => none) = some (k, v)
  rw [show queryUnescape (queryEscape k) = unescapeURL .queryComponent
    (escapeURL k .queryComponent) from rfl]
  rw [show queryUnescape (queryEscape v) = unescapeURL .queryComponent
    (escapeURL v .queryComponent) from rfl]
  rw [unescape_escape .queryComponent k hk (by intro hm; exact EncMode.noConfusion hm)]
  rw [unescape_escape .queryComponent v hv (by intro hm; exact EncMode.noConfusion hm)]

theorem joinAmp_single (x : List Char) : joinAmp [x] = x := rfl

theorem joinAmp_append (a b : List (List Char)) (ha : ¬ a = []) (hb : ¬ b = []) :
    joinAmp (a ++ b) = joinAmp a ++ '&' :: joinAmp b := by
  induction a with
  | nil => exact absurd rfl ha
  | cons x a2 ih =>
    match a2 with
    | [] =>
      match b, hb with
      | y :: b2, _ =>
        show joinAmp (x :: y :: b2) = x ++ '&' :: joinAmp (y :: b2)
        rw [joinAmp]
    | z :: a3 =>
      have hmid := ih (by simp)
      show joinAmp (x :: (z :: a3 ++ b)) = joinAmp (x :: z :: a3) ++ '&' :: joinAmp b
      rw [show joinAmp (x :: (z :: a3 ++ b)) =
        x ++ '&' :: joinAmp (z :: a3 ++ b) from by
          show joinAmp (x :: z :: (a3 ++ b)) = x ++ '&' :: joinAmp (z :: (a3 ++ b))
          rw [joinAmp]]
      rw [hmid]
      rw [show joinAmp (x :: z :: a3) = x ++ '&' :: joinAmp (z :: a3) from by rw [joinAmp]]
      simp

/-- key.go `queryParam.String` renders the `&`-join of the parameter's
segments. -/
theorem queryParamString_segs (k v0 : List Char) (vs : List (List Char)) :
    queryParamString (k, v0 :: vs) = joinAmp (qSegsOf (k, v0 :: vs)) := by
  rw [queryParamString, qSegsOf]
  show queryEscape k ++ '=' :: queryEscape v0 ++
      vs.flatMap (fun v => '&' :: (queryEscape k ++ '=' :: queryEscape v)) =
    joinAmp ((v0 :: vs).map (qSegOf k))
  induction vs generalizing v0 with
  | nil =>
    show queryEscape k ++ '=' :: queryEscape v0 ++ [] = joinAmp [qSegOf k v0]
    rw [joinAmp_single, qSegOf, List.append_nil]
  | cons v1 vs2 ih =>
    rw [show ((v0 :: v1 :: vs2).map (qSegOf k)) =
      [qSegOf k v0] ++ (v1 :: vs2).map (qSegOf k) from rfl]
    rw [joinAmp_append [qSegOf k v0] _ (by simp) (by simp)]
    rw [joinAmp_single, ← ih v1]
    rw [show (v1 :: vs2).flatMap (fun v => '&' :: (queryEscape k ++ '=' :: queryEscape v)) =
      ('&' :: (queryEscape k ++ '=' :: queryEscape v1)) ++
        vs2.flatMap (fun v => '&' :: (queryEscape k ++ '=' :: queryEscape v)) from rfl]
    rw [qSegOf]
    simp

theorem joinAmp_intercalate (xs : List (List Char)) :
    joinAmp xs = List.intercalate ['&'] xs := by
  induction xs with
  | nil => rfl
  | cons x rest ih =>
    match rest with
    | [] =>
      rw [joinAmp_single]
      rw [List.intercalate, List.intersperse_single, List.flatten]
      simp
    | y :: rest2 =>
      rw [show joinAmp (x :: y :: rest2) = x ++ '&' :: joinAmp (y :: rest2) from by
        rw [joinAmp]]
      rw [ih]
      show x ++ '&' :: (List.intersperse ['&'] (y :: rest2)).flatten =
        (List.intersperse ['&'] (x :: y :: rest2)).flatten
      rw [List.intersperse_cons_cons]
      rw [List.flatten_cons, List.flatten_cons]
      simp

/-- Splitting the `&`-join of `&`-free nonempty segments recovers the
segments. -/
theorem splitOn_joinAmp (xs : List (List Char)) (hne : ¬ xs = [])
    (hfree : ∀ seg ∈ xs, ¬ '&' ∈ seg) :
    (joinAmp xs).splitOn '&' = xs := by
  rw [joinAmp_intercalate]
  exact List.splitOn_intercalate xs '&' (fun l hl hc => hfree l hl hc) hne

/-- The flat segment list of a parameter list with nonempty value
lists. -/
theorem joinAmp_flatten (ps : List (List Char × List (List Char)))
    (hvs : ∀ p ∈ ps, ¬ p.2 = []) :
    joinAmp (ps.map queryParamString) = joinAmp (ps.flatMap qSegsOf) := by
  induction ps with
  | nil => rfl
  | cons p rest ih =>
    obtain ⟨k, vs0⟩ := p
    match vs0, hvs (k, vs0) (by simp) with
    | v0 :: vs, _ =>
      rw [List.map_cons, List.flatMap_cons]
      match hr : rest with
      | [] =>
        rw [List.map_nil, List.flatMap_nil, List.append_nil]
        rw [show joinAmp [queryParamString (k, v0 :: vs)] =
          queryParamString (k, v0 :: vs) from rfl]
        exact queryParamString_segs k v0 vs
      | q :: rest2 =>
        rw [show queryParamString (k, v0 :: vs) :: (q :: rest2).map queryParamString =
          [queryParamString (k, v0 :: vs)] ++ (q :: rest2).map queryParamString from rfl]
        rw [joinAmp_append _ _ (by simp) (by simp)]
        rw [joinAmp_single]
        rw [ih (fun p hp => hvs p (by simp [hp]))]
        rw [queryParamString_segs k v0 vs]
        have hseg1 : ¬ qSegsOf (k, v0 :: vs) = [] := by
          rw [qSegsOf]
          simp
        have hseg2 : ¬ (q :: rest2).flatMap qSegsOf = [] := by
          intro hcon
          have hq := hvs q (by simp)
          rw [List.flatMap_cons] at hcon
          rcases List.append_eq_nil.mp hcon with ⟨h1, _⟩
          rw [qSegsOf] at h1
          rw [List.map_eq_nil_iff] at h1
          exact hq h1
        rw [joinAmp_append _ _ hseg1 hseg2]

theorem foldl_qstep_values (k : List Char) (vs : List (List Char))
    (m : List (List Char × List (List Char))) (acc : List (List Char))
    (hk : ¬ k ∈ keysOf m) (hkb : ∀ c ∈ k, c.toNat < 256)
    (hvb : ∀ v ∈ vs, ∀ c ∈ v, c.toNat < 256) :
    (vs.map (qSegOf k)).foldl (fun m seg =>
        match parseQueryPair seg with
        | none => m
        | some (k, v) => addQueryValue m k v) (m ++ [(k, acc)]) =
      m ++ [(k, acc ++ vs)] := by
  induction vs generalizing acc with
  | nil =>
    rw [List.map_nil, List.foldl_nil, List.append_nil]
  | cons v vs2 ih =>
    rw [List.map_cons, List.foldl_cons]
    rw [parseQueryPair_render k v hkb (hvb v (by simp))]
    show (vs2.map (qSegOf k)).foldl _ (addQueryValue (m ++ [(k, acc)]) k v) = _
    rw [addQueryValue_last m k acc v hk]
    rw [ih (acc ++ [v]) (fun w hw => hvb w (by simp [hw]))]
    rw [List.append_assoc]
    rfl

theorem foldl_qstep_params (ps : List (List Char × List (List Char)))
    (m : List (List Char × List (List Char)))
    (hnd : (keysOf ps).Nodup)
    (hprops : ∀ p ∈ ps, ¬ p.2 = [] ∧ (∀ c ∈ p.1, c.toNat < 256) ∧
      ∀ v ∈ p.2, ∀ c ∈ v, c.toNat < 256)
    (hdisj : ∀ q ∈ keysOf ps, ¬ q ∈ keysOf m) :
    (ps.flatMap qSegsOf).foldl (fun m seg =>
        match parseQueryPair seg with
        | none => m
        | some (k, v) => addQueryValue m k v) m = m ++ ps := by
  induction ps generalizing m with
  | nil =>
    rw [List.flatMap_nil, List.foldl_nil, List.append_nil]
  | cons p rest ih =>
    obtain ⟨k, vs0⟩ := p
    obtain ⟨hne, hkb, hvb⟩ := hprops (k, vs0) (by simp)
    match vs0, hne with
    | v0 :: vs, _ =>
      rw [List.flatMap_cons, List.foldl_append]
      have hkm : ¬ k ∈ keysOf m := hdisj k (by rw [keysOf]; simp)
      have hstep1 : (qSegsOf (k, v0 :: vs)).foldl (fun m seg =>
          match parseQueryPair seg with
          | none => m
          | some (k, v) => addQueryValue m k v) m = m ++ [(k, v0 :: vs)] := by
        rw [qSegsOf]
        rw [List.map_cons, List.foldl_cons]
        rw [parseQueryPair_render k v0 hkb (hvb v0 (by simp))]
        show (vs.map (qSegOf k)).foldl _ (addQueryValue m k v0) = _
        rw [addQueryValue_notMem m k v0 hkm]
        rw [foldl_qstep_values k vs m [v0] hkm hkb (fun w hw => hvb w (by simp [hw]))]
        rfl
      rw [hstep1]
      have hndr : (keysOf rest).Nodup := by
        rw [keysOf, List.map_cons] at hnd
        exact (List.nodup_cons.mp hnd).2
      have hknr : ¬ k ∈ keysOf rest := by
        rw [keysOf, List.map_cons] at hnd
        exact (List.nodup_cons.mp hnd).1
      rw [ih (m ++ [(k, v0 :: vs)]) hndr
        (fun q hq => hprops q (by simp [hq]))
        (by
          intro q hq
          rw [keysOf_append]
          rw [List.mem_append]
          intro hcon
          rcases hcon with hcon | hcon
          · exact hdisj q (by rw [keysOf, List.map_cons]; exact List.mem_cons_of_mem _ hq) hcon
          · rw [show keysOf [(k, v0 :: vs)] = [k] from rfl] at hcon
            simp only [List.mem_singleton] at hcon
            rw [hcon] at hq
            exact hknr hq)]
      rw [List.append_assoc]
      rfl

/-- Parsing the rendered query of a well-formed parameter list
recovers the parameters. -/
theorem goQuery_render (ps : List (List Char × List (List Char)))
    (hnd : (keysOf ps).Nodup)
    (hprops : ∀ p ∈ ps, ¬ p.2 = [] ∧ (∀ c ∈ p.1, c.toNat < 256) ∧
      ∀ v ∈ p.2, ∀ c ∈ v, c.toNat < 256) :
    goQuery (joinAmp (ps.map queryParamString)) = ps := by
  match ps with
  | [] => rfl
  | p0 :: rest =>
    rw [joinAmp_flatten _ (fun p hp => (hprops p hp).1)]
    have hsegfree : ∀ seg ∈ (p0 :: rest).flatMap qSegsOf, ¬ '&' ∈ seg := by
      intro seg hseg
      rw [List.mem_flatMap] at hseg
      obtain ⟨p, hp, hseg⟩ := hseg
      rw [qSegsOf, List.mem_map] at hseg
      obtain ⟨v, hv, hseg⟩ := hseg
      rw [← hseg, qSegOf]
      intro hcon
      rw [List.mem_append] at hcon
      rcases hcon with hcon | hcon
      · exact (queryEscape_safe p.1 '&' hcon).1 rfl
      · simp only [List.mem_cons] at hcon
        rcases hcon with hcon | hcon
        · exact absurd hcon (by decide)
        · exact (queryEscape_safe v '&' hcon).1 rfl
    have hflatne : ¬ (p0 :: rest).flatMap qSegsOf = [] := by
      intro hcon
      rw [List.flatMap_cons] at hcon
      rcases List.append_eq_nil.mp hcon with ⟨h1, _⟩
      rw [qSegsOf, List.map_eq_nil_iff] at h1
      exact (hprops p0 (by simp)).1 h1
    rw [goQuery]
    rw [splitOn_joinAmp _ hflatne hsegfree]
    exact foldl_qstep_params (p0 :: rest) [] hnd hprops
      (fun q _ hcon => absurd hcon (List.not_mem_nil q))

theorem goKeyURL_eq (u : GoURL) :
    goKeyURL u = { Canonical u with rawQuery := goKeyRawQuery u.rawQuery, fragment := [], rawFragment := [] } := rfl

/-- One pass of the key's query rebuilding is enough: the rebuilt raw
query is a fixed point. -/
theorem goKeyRawQuery_stable (rq : List Char) (hb : ∀ c ∈ rq, c.toNat < 256) :
    goKeyRawQuery (goKeyRawQuery rq) = goKeyRawQuery rq := by
  obtain ⟨hnd0, hprops0⟩ := goQuery_qryInv rq hb
  set r := fun a b : List Char × List (List Char) => listCharLE a.1 b.1 = true with hr
  set parts := (goQuery rq).filter (fun p => ¬ p.1 ∈ trackingParams) with hparts
  set sorted := List.insertionSort r parts with hsorted
  have hsub : parts.Sublist (goQuery rq) := List.filter_sublist _
  have hndp : (keysOf parts).Nodup := List.Nodup.sublist (List.Sublist.map _ hsub) hnd0
  have hperm : sorted.Perm parts := List.perm_insertionSort r parts
  have hnds : (keysOf sorted).Nodup := by
    rw [keysOf]
    exact (List.Perm.nodup_iff (List.Perm.map _ hperm)).mpr hndp
  have hpropss : ∀ p ∈ sorted, ¬ p.2 = [] ∧ (∀ c ∈ p.1, c.toNat < 256) ∧
      ∀ v ∈ p.2, ∀ c ∈ v, c.toNat < 256 := by
    intro p hp
    have hp2 : p ∈ parts := (List.Perm.mem_iff hperm).mp hp
    exact hprops0 p (List.Sublist.subset hsub hp2)
  have htrack : ∀ p ∈ sorted, ¬ p.1 ∈ trackingParams := by
    intro p hp
    have hp2 : p ∈ parts := (List.Perm.mem_iff hperm).mp hp
    have := List.of_mem_filter hp2
    simp only [decide_eq_true_eq] at this
    exact this
  have hsorteds : List.Sorted r sorted := List.sorted_insertionSort r parts
  show goKeyRawQuery (joinAmp (sorted.map queryParamString)) =
    joinAmp (sorted.map queryParamString)
  rw [goKeyRawQuery]
  rw [goQuery_render sorted hnds hpropss]
  rw [List.filter_eq_self.mpr (by
    intro p hp
    simp only [decide_eq_true_eq]
    exact htrack p hp)]
  rw [List.Sorted.insertionSort_eq hsorteds]

/-- Characters of a path-escaped string are never `?`, `#`, `&`-safe
control bytes. -/
theorem pathEscape_safe (s : List Char) :
    ∀ x ∈ escapeURL s .path, (¬ x = '?' ∧ ¬ x = '#' ∧
      ¬ (x.toNat < 0x20 ∨ x.toNat = 0x7f)) := by
  intro x hx
  have key := escapeURL_all .path
    (fun c => ¬ (c = '?') && ¬ (c = '#') &&
      ¬ (decide (c.toNat < 0x20) || decide (c.toNat = 0x7f)))
    (by decide) (by decide) (by decide)
    (by
      intro c hesc
      have hlt := shouldEscape_false_lt c .path hesc
      have kk : ∀ n, n < 128 → shouldEscape (Char.ofNat n) .path = false →
          (¬ (Char.ofNat n = '?') && ¬ (Char.ofNat n = '#') &&
           ¬ (decide ((Char.ofNat n).toNat < 0x20) ||
              decide ((Char.ofNat n).toNat = 0x7f))) = true := by decide
      have := kk c.toNat hlt (by rw [charOfNat_lt_128 hlt]; exact hesc)
      rw [charOfNat_lt_128 hlt] at this
      exact this)
    s x hx
  simp only [Bool.and_eq_true, Bool.not_eq_true', decide_eq_false_iff_not,
    Bool.or_eq_true, decide_eq_true_eq, not_or] at key
  exact ⟨key.1.1, key.1.2, by
    intro hcon
    rcases hcon with hcon | hcon
    · exact key.2.1 hcon
    · exact key.2.2 hcon⟩

theorem escapeURL_slash_head (t : List Char) :
    escapeURL ('/' :: t) .path = '/' :: escapeURL t .path := rfl

/-- With no stored raw path and a rooted path, `EscapedPath` is the
fresh escape. -/
theorem escapedPath_wf (w : GoURL) (h1 : w.rawPath = [])
    (h2 : w.path.head? = some '/') :
    escapedPath w = escapeURL w.path .path := by
  rw [escapedPath]
  rw [if_neg (by
    intro hcon
    exact hcon.1 h1)]
  rw [if_neg (by
    intro hcon
    rw [hcon] at h2
    exact absurd h2 (by decide))]

theorem joinAmp_mem (xs : List (List Char)) (x : Char) (h : x ∈ joinAmp xs) :
    x = '&' ∨ ∃ seg ∈ xs, x ∈ seg := by
  induction xs with
  | nil => cases h
  | cons a rest ih =>
    match rest with
    | [] =>
      rw [joinAmp_single] at h
      exact Or.inr ⟨a, by simp, h⟩
    | b :: rest2 =>
      rw [show joinAmp (a :: b :: rest2) = a ++ '&' :: joinAmp (b :: rest2) from by
        rw [joinAmp]] at h
      rw [List.mem_append] at h
      rcases h with h | h
      · exact Or.inr ⟨a, by simp, h⟩
      · simp only [List.mem_cons] at h
        rcases h with h | h
        · exact Or.inl h
        · rcases ih h with h | ⟨seg, hseg, hx⟩
          · exact Or.inl h
          · exact Or.inr ⟨seg, by simp [hseg], hx⟩

/-- Characters of a rendered query parameter are never `?`, `#` or
control bytes. -/
theorem queryParamString_safe (p : List Char × List (List Char)) :
    ∀ x ∈ queryParamString p, (¬ x = '?' ∧ ¬ x = '#' ∧
      ¬ (x.toNat < 0x20 ∨ x.toNat = 0x7f)) := by
  intro x hx
  have hqe : ∀ s : List Char, x ∈ queryEscape s → ¬ x = '?' ∧ ¬ x = '#' ∧
      ¬ (x.toNat < 0x20 ∨ x.toNat = 0x7f) := by
    intro s hs
    have := queryEscape_safe s x hs
    exact ⟨this.2.2.2.2.1, this.2.2.2.1, this.2.2.2.2.2⟩
  rw [queryParamString] at hx
  revert hx
  match p.2 with
  | [] =>
    intro hx0
    have hx : x ∈ queryEscape p.1 ++ "=".data := hx0
    rw [List.mem_append] at hx
    rcases hx with hx | hx
    · exact hqe p.1 hx
    · simp only [List.mem_singleton] at hx
      rw [hx]
      exact ⟨by decide, by decide, by decide⟩
  | v0 :: rest =>
    intro hx0
    have hx : x ∈ queryEscape p.1 ++ '=' :: queryEscape v0 ++
        rest.flatMap (fun v => '&' :: (queryEscape p.1 ++ '=' :: queryEscape v)) := hx0
    rw [show queryEscape p.1 ++ '=' :: queryEscape v0 ++
        rest.flatMap (fun v => '&' :: (queryEscape p.1 ++ '=' :: queryEscape v)) =
      queryEscape p.1 ++ '=' :: (queryEscape v0 ++
        rest.flatMap (fun v => '&' :: (queryEscape p.1 ++ '=' :: queryEscape v))) from by
      simp] at hx
    rw [List.mem_append] at hx
    rcases hx with hx | hx
    · exact hqe p.1 hx
    · simp only [List.mem_cons] at hx
      rcases hx with hx | hx
      · rw [hx]
        exact ⟨by decide, by decide, by decide⟩
      · rw [List.mem_append] at hx
        rcases hx with hx | hx
        · exact hqe v0 hx
        · rw [List.mem_flatMap] at hx
          obtain ⟨v, hv, hx⟩ := hx
          simp only [List.mem_cons] at hx
          rcases hx with hx | hx
          · rw [hx]
            exact ⟨by decide, by decide, by decide⟩
          · rw [List.mem_append] at hx
            rcases hx with hx | hx
            · exact hqe p.1 hx
            · simp only [List.mem_cons] at hx
              rcases hx with hx | hx
              · rw [hx]
                exact ⟨by decide, by decide, by decide⟩
              · exact hqe v hx

/-- Characters of the rebuilt raw query are never `?`, `#` or control
bytes. -/
theorem goKeyRawQuery_safe (rq : List Char) :
    ∀ x ∈ goKeyRawQuery rq, (¬ x = '?' ∧ ¬ x = '#' ∧
      ¬ (x.toNat < 0x20 ∨ x.toNat = 0x7f)) := by
  intro x hx
  rw [goKeyRawQuery] at hx
  rcases joinAmp_mem _ x hx with h | ⟨seg, hseg, hx2⟩
  · rw [h]
    exact ⟨by decide, by decide, by decide⟩
  · rw [List.mem_map] at hseg
    obtain ⟨p, _, hp⟩ := hseg
    rw [← hp] at hx2
    exact queryParamString_safe p x hx2

/-- `URL.String` on the key-shaped URLs: `scheme://host` followed by
the escaped rooted path and the optional query. -/
theorem urlString_key (w : GoURL)
    (hsne : ¬ w.scheme = []) (hop : w.opaqueData = [])
    (hhne : ¬ w.host = []) (hh : ∀ c ∈ w.host, hostNameChar c = true)
    (hrp : w.rawPath = []) (hph : w.path.head? = some '/')
    (hfr : w.fragment = []) :
    urlString w = w.scheme ++ ':' :: '/' :: '/' :: w.host ++ escapeURL w.path .path ++
      (if w.forceQuery = true ∨ ¬ w.rawQuery = [] then '?' :: w.rawQuery else []) := by
  have hesc : escapeURL w.host .host = w.host :=
    escape_literal .host w.host (fun c hc => (hostNameChar_props c (hh c hc)).1)
  have hpe : escapedPath w = escapeURL w.path .path := escapedPath_wf w hrp hph
  obtain ⟨t, hw⟩ : ∃ t, w.path = '/' :: t := by
    match hw : w.path, hph with
    | c :: t, hph2 =>
      refine ⟨t, ?_⟩
      have hc : some c = some '/' := hph2
      injection hc with hc
      rw [hc]
  have hpehead2 : (escapeURL w.path .path).head? = some '/' := by
    rw [hw, escapeURL_slash_head]
    rfl
  rw [urlString]
  simp only [hop, hfr, hpe, hesc, hsne, hhne, hpehead2]
  simp [hsne, hhne]

theorem takeWhile_append_all (p : Char → Bool) (a b : List Char)
    (ha : ∀ x ∈ a, p x = true) :
    (a ++ b).takeWhile p = a ++ b.takeWhile p := by
  rw [List.takeWhile_append]
  rw [List.takeWhile_eq_self_iff.mpr ha]
  rw [if_pos rfl]

theorem dropWhile_append_all (p : Char → Bool) (a b : List Char)
    (ha : ∀ x ∈ a, p x = true) :
    (a ++ b).dropWhile p = b.dropWhile p := by
  rw [List.dropWhile_append]
  rw [List.dropWhile_eq_nil_iff.mpr ha]
  rw [if_pos (show (List.isEmpty []) = true from rfl)]

theorem getLast?_props (l : List Char) (hne : ¬ l = []) :
    ∃ z, l.getLast? = some z ∧ z ∈ l := by
  match l, hne with
  | z0 :: zt, _ =>
    exact ⟨(z0 :: zt).getLast (by simp), List.getLast?_eq_getLast _ _, List.getLast_mem _⟩

theorem getLast?_cons_ne (x : Char) (l : List Char) (h : ¬ l = []) :
    (x :: l).getLast? = l.getLast? := by
  match l, h with
  | y :: t, _ => rfl

theorem isEmpty_false_ne (l : List Char) (h : ¬ l = []) : l.isEmpty = false := by
  match l, h with
  | y :: t, _ => rfl

/-- net/url parse of the rendered key URL (fragment-free part):
recovers scheme, host, path and query. -/
theorem goParseNoFrag_key (s h p rq : List Char) (fq : Bool)
    (hsne : ¬ s = []) (hs : ∀ c ∈ s, schemeNameChar c = true)
    (hhne : ¬ h = []) (hhost : ∀ c ∈ h, hostNameChar c = true)
    (hph : p.head? = some '/') (hpb : ∀ c ∈ p, c.toNat < 256)
    (hrq : ∀ x ∈ rq, ¬ x = '?' ∧ ¬ (x.toNat < 0x20 ∨ x.toNat = 0x7f)) :
    goParseNoFrag (s ++ ':' :: '/' :: '/' :: h ++ escapeURL p .path ++
      (if fq = true ∨ ¬ rq = [] then '?' :: rq else [])) =
    .ok { emptyURL with scheme := s, host := h, path := p, forceQuery := fq && rq.isEmpty, rawQuery := rq } := by
  obtain ⟨pt, hpt⟩ : ∃ t, p = '/' :: t := by
    match hw : p, hph with
    | c :: t, hph2 =>
      refine ⟨t, ?_⟩
      have hc : some c = some '/' := hph2
      injection hc with hc
      rw [hc]
  set pe := escapeURL p .path with hpe
  have hpehd : pe = '/' :: escapeURL pt .path := by
    rw [hpe, hpt, escapeURL_slash_head]
  have hpene : ¬ pe = [] := by
    rw [hpehd]
    simp
  set qp := (if fq = true ∨ ¬ rq = [] then '?' :: rq else []) with hqp
  have hsprops := fun c hc => schemeNameChar_props c (hs c hc)
  have hhprops := fun c hc => hostNameChar_props c (hhost c hc)
  have hpeprops := fun x hx => pathEscape_safe p x hx
  rw [show (s ++ ':' :: '/' :: '/' :: h ++ pe ++ qp : List Char) =
    s ++ ':' :: ('/' :: '/' :: (h ++ (pe ++ qp))) from by simp]
  set R := s ++ ':' :: ('/' :: '/' :: (h ++ (pe ++ qp))) with hR
  have hmemR : ∀ x ∈ R, x ∈ s ∨ x = ':' ∨ x = '/' ∨ x ∈ h ∨ x ∈ pe ∨ x ∈ qp := by
    intro x hx
    rw [hR] at hx
    simp only [List.mem_append, List.mem_cons] at hx
    rcases hx with hx | hx | hx | hx | hx | (hx | hx)
    · exact Or.inl hx
    · exact Or.inr (Or.inl hx)
    · exact Or.inr (Or.inr (Or.inl hx))
    · exact Or.inr (Or.inr (Or.inl hx))
    · exact Or.inr (Or.inr (Or.inr (Or.inl hx)))
    · exact Or.inr (Or.inr (Or.inr (Or.inr (Or.inl hx))))
    · exact Or.inr (Or.inr (Or.inr (Or.inr (Or.inr hx))))
  have hqpmem : ∀ x ∈ qp, x = '?' ∨ x ∈ rq := by
    intro x hx
    rw [hqp] at hx
    by_cases hcond : fq = true ∨ ¬ rq = []
    · rw [if_pos hcond] at hx
      simp only [List.mem_cons] at hx
      exact hx
    · rw [if_neg hcond] at hx
      cases hx
  have hctl : containsCTL R = false := by
    rw [containsCTL, List.any_eq_false]
    intro x hx
    simp only [Bool.or_eq_true, decide_eq_true_eq, not_or]
    have hnot : ¬ (x.toNat < 0x20 ∨ x.toNat = 0x7f) →
        ¬ x.toNat < 0x20 ∧ ¬ x.toNat = 0x7f := by
      intro hn
      exact ⟨fun hcon => hn (Or.inl hcon), fun hcon => hn (Or.inr hcon)⟩
    rcases hmemR x hx with hx2 | hx2 | hx2 | hx2 | hx2 | hx2
    · exact hnot (hsprops x hx2).2.2.2.2.2.2.2
    · rw [hx2]
      exact ⟨by decide, by decide⟩
    · rw [hx2]
      exact ⟨by decide, by decide⟩
    · exact hnot (hhprops x hx2).2.2.2.2.2.2.2.2.2.2.2.2.2
    · exact hnot (hpeprops x hx2).2.2
    · rcases hqpmem x hx2 with hx3 | hx3
      · rw [hx3]
        exact ⟨by decide, by decide⟩
      · exact hnot (hrq x hx3).2
  have hstar : ¬ R = "*".data := by
    intro hcon
    have hlen := congrArg List.length hcon
    rw [hR] at hlen
    have hslen : 1 ≤ s.length := List.length_pos.mpr hsne
    simp only [List.length_append, List.length_cons, List.length_nil,
      show ("*".data).length = 1 from rfl] at hlen
    omega
  have hgs : getScheme R = .ok (s, '/' :: '/' :: (h ++ (pe ++ qp))) :=
    getScheme_render s _ hsne (fun c hc => (hsprops c hc).1)
  have hlow : goToLower s = s :=
    goToLower_fixed s (fun c hc => (hsprops c hc).2.1)
  rw [goParseNoFrag]
  rw [if_neg (by
    intro hcon
    rw [hctl] at hcon
    exact Bool.noConfusion hcon)]
  rw [if_neg hstar]
  simp only [hgs, hlow]
  have hprefree : ∀ x ∈ ('/' :: '/' :: (h ++ pe) : List Char), ¬ x = '?' := by
    intro x hx
    simp only [List.mem_cons, List.mem_append] at hx
    rcases hx with hx | hx | hx | hx
    · rw [hx]
      decide
    · rw [hx]
      decide
    · exact (hhprops x hx).2.2.2.2.1
    · exact (hpeprops x hx).1
  have hrfq : (if ('/' :: '/' :: (h ++ (pe ++ qp))).getLast? = some '?' ∧
        ¬ ('/' :: '/' :: (h ++ (pe ++ qp))).dropLast.contains '?' = true then
      (('/' :: '/' :: (h ++ (pe ++ qp))).dropLast, true, ([] : List Char))
    else
      ((cutChar '?' ('/' :: '/' :: (h ++ (pe ++ qp)))).1, false,
        (cutChar '?' ('/' :: '/' :: (h ++ (pe ++ qp)))).2.getD [])) =
      ('/' :: '/' :: (h ++ pe), fq && rq.isEmpty, rq) := by
    by_cases hrqe : rq = []
    · by_cases hfq : fq = true
      · have hqpv : qp = ['?'] := by
          rw [hqp, if_pos (Or.inl hfq), hrqe]
        rw [hqpv]
        rw [show ('/' :: '/' :: (h ++ (pe ++ ['?'])) : List Char) =
          ('/' :: '/' :: (h ++ pe)) ++ ['?'] from by simp]
        rw [List.getLast?_concat, List.dropLast_concat]
        rw [if_pos ⟨rfl, by
          rw [contains_false_of_props hprefree]
          exact Bool.noConfusion⟩]
        rw [hrqe, hfq]
        rfl
      · have hqpv : qp = [] := by
          rw [hqp, if_neg (by
            intro hcon
            rcases hcon with hcon | hcon
            · exact hfq hcon
            · exact hcon hrqe)]
        rw [hqpv]
        rw [show ('/' :: '/' :: (h ++ (pe ++ [])) : List Char) =
          ('/' :: '/' :: h) ++ pe from by simp]
        obtain ⟨z, hz1, hzmem⟩ := getLast?_props pe hpene
        have hz2 : ¬ z = '?' := by
          rw [hpe] at hzmem
          exact (hpeprops _ hzmem).1
        rw [if_neg (by
          intro hcon
          rw [List.getLast?_append_of_ne_nil _ hpene] at hcon
          rw [hz1] at hcon
          have := hcon.1
          injection this with this
          exact hz2 this)]
        rw [show (('/' :: '/' :: h) ++ pe : List Char) = '/' :: '/' :: (h ++ pe) from by simp]
        rw [cutChar_not_mem '?' _ hprefree]
        have hfq2 : fq = false := Bool.not_eq_true _ ▸ hfq
        rw [hrqe, hfq2]
        rfl
    · have hqpv : qp = '?' :: rq := by
        rw [hqp, if_pos (Or.inr hrqe)]
      rw [hqpv]
      rw [show ('/' :: '/' :: (h ++ (pe ++ '?' :: rq)) : List Char) =
        ('/' :: '/' :: (h ++ pe)) ++ '?' :: rq from by simp]
      obtain ⟨z, hz1, hzmem⟩ := getLast?_props rq hrqe
      have hz2 : ¬ z = '?' := (hrq _ hzmem).1
      rw [if_neg (by
        intro hcon
        rw [List.getLast?_append_of_ne_nil _ (by simp)] at hcon
        have h1 := hcon.1
        rw [getLast?_cons_ne '?' rq hrqe] at h1
        rw [hz1] at h1
        injection h1 with h1
        exact hz2 h1)]
      rw [cutChar_append '?' _ rq hprefree]
      rw [isEmpty_false_ne rq hrqe]
      rw [Bool.and_false]
      rfl
  rw [hrfq]
  have hpre1 : List.isPrefixOf ['/'] ('/' :: '/' :: (h ++ pe)) = true := by
    simp [List.isPrefixOf]
  have hpre2 : List.isPrefixOf ['/', '/'] ('/' :: '/' :: (h ++ pe)) = true := by
    simp [List.isPrefixOf]
  rw [if_neg (by
    intro hcon
    exact hcon.1 hpre1)]
  rw [if_neg (by
    intro hcon
    exact hcon.1 hpre1)]
  rw [if_pos ⟨Or.inl hsne, hpre2⟩]
  have hauth : List.takeWhile (fun c => ¬ c = '/')
      (List.drop 2 (('/' :: '/' :: (h ++ pe), fq && rq.isEmpty, rq).1)) = h := by
    show List.takeWhile (fun c => ¬ c = '/') (h ++ pe) = h
    rw [takeWhile_append_all _ h pe (by
      intro x hx
      simp only [decide_eq_true_eq]
      exact (hhprops x hx).2.2.2.1)]
    rw [hpehd]
    rw [List.takeWhile_cons_of_neg (by simp)]
    rw [List.append_nil]
  have hrest1 : List.dropWhile (fun c => ¬ c = '/')
      (List.drop 2 (('/' :: '/' :: (h ++ pe), fq && rq.isEmpty, rq).1)) = pe := by
    show List.dropWhile (fun c => ¬ c = '/') (h ++ pe) = pe
    rw [dropWhile_append_all _ h pe (by
      intro x hx
      simp only [decide_eq_true_eq]
      exact (hhprops x hx).2.2.2.1)]
    rw [hpehd]
    rw [List.dropWhile_cons_of_neg (by simp)]
  rw [hauth, hrest1]
  rw [if_neg (by
    rw [contains_false_of_props (fun x hx => (hhprops x hx).2.2.2.2.2.2.1)]
    exact Bool.noConfusion)]
  rw [parseHost_simple h hhost]
  show setPath _ pe = _
  rw [setPath]
  have hun : unescapeURL .path pe = .ok p := by
    rw [hpe]
    exact unescape_escape .path p hpb (by intro hm; exact EncMode.noConfusion hm)
  rw [hun]
  show (if escapeURL p .path = pe then _ else _) = _
  rw [if_pos hpe.symm]
  rfl

/-- net/url `Parse` of the rendered key URL. -/
theorem goParse_key (s h p rq : List Char) (fq : Bool)
    (hsne : ¬ s = []) (hs : ∀ c ∈ s, schemeNameChar c = true)
    (hhne : ¬ h = []) (hhost : ∀ c ∈ h, hostNameChar c = true)
    (hph : p.head? = some '/') (hpb : ∀ c ∈ p, c.toNat < 256)
    (hrq : ∀ x ∈ rq, ¬ x = '?' ∧ ¬ x = '#' ∧ ¬ (x.toNat < 0x20 ∨ x.toNat = 0x7f)) :
    goParse (s ++ ':' :: '/' :: '/' :: h ++ escapeURL p .path ++
      (if fq = true ∨ ¬ rq = [] then '?' :: rq else [])) =
    .ok { emptyURL with scheme := s, host := h, path := p, forceQuery := fq && rq.isEmpty, rawQuery := rq } := by
  have hsprops := fun c hc => schemeNameChar_props c (hs c hc)
  have hhprops := fun c hc => hostNameChar_props c (hhost c hc)
  have hpeprops := fun x hx => pathEscape_safe p x hx
  have hcut : cutChar '#' (s ++ ':' :: '/' :: '/' :: h ++ escapeURL p .path ++
      (if fq = true ∨ ¬ rq = [] then '?' :: rq else [])) =
      (s ++ ':' :: '/' :: '/' :: h ++ escapeURL p .path ++
        (if fq = true ∨ ¬ rq = [] then '?' :: rq else []), none) := by
    apply cutChar_not_mem
    intro x hx
    simp only [List.mem_append, List.mem_cons] at hx
    rcases hx with ((hx | (hx | hx | hx | hx)) | hx) | hx
    · exact (hsprops x hx).2.2.2.2.1
    · rw [hx]
      decide
    · rw [hx]
      decide
    · rw [hx]
      decide
    · exact (hhprops x hx).2.2.2.2.2.1
    · exact (hpeprops x hx).2.1
    · by_cases hcond : fq = true ∨ ¬ rq = []
      · rw [if_pos hcond] at hx
        simp only [List.mem_cons] at hx
        rcases hx with hx | hx
        · rw [hx]
          decide
        · exact (hrq x hx).2.1
      · rw [if_neg hcond] at hx
        cases hx
  rw [goParse]
  rw [hcut]
  rw [goParseNoFrag_key s h p rq fq hsne hs hhne hhost hph hpb
    (fun x hx => ⟨(hrq x hx).1, (hrq x hx).2.2⟩)]

/-- C8 (amended): the canonical key is idempotent on well-formed
absolute hierarchical URLs.  For every URL with a lowercase alphabetic
scheme, a simple (bracket-, colon- and percent-free) lowercase host,
a rooted (or empty) byte path, no opaque part and no stored raw path,
parsing `Key(u)` succeeds and applying `Key` to the parse result
yields `Key(u)` again, i.e. `canon(canon(u)) == canon(u)`.  (The
unamended claim over *all* parsed URLs is refuted by the
bracket-stripping counterexample `http://[[a]]/`.) -/
theorem key_idempotent_amended (u : GoURL) (hwf : urlWF u = true) :
    ∃ v, goParse (goKey u) = .ok v ∧ goKey v = goKey u := by
  rw [urlWF] at hwf
  simp only [Bool.and_eq_true, Bool.not_eq_true', decide_eq_true_eq,
    List.all_eq_true, Bool.or_eq_true] at hwf
  obtain ⟨⟨⟨⟨⟨⟨⟨⟨h1, h2⟩, h3⟩, h4⟩, h5⟩, h6⟩, h7⟩, h8⟩, h9⟩ := hwf
  have h1' : ¬ u.scheme = [] := by
    intro hcon
    rw [hcon] at h1
    exact absurd h1 (by decide)
  have h4' : ¬ u.host = [] := by
    intro hcon
    rw [hcon] at h4
    exact absurd h4 (by decide)
  have h2' : ∀ c ∈ u.scheme, schemeNameChar c = true := h2
  have h5' : ∀ c ∈ u.host, hostNameChar c = true := h5
  have h7' : ∀ c ∈ u.path, c.toNat < 256 := h7
  have h9' : ∀ c ∈ u.rawQuery, c.toNat < 256 := h9
  set path1 := if u.path = [] then "/".data else u.path with hpath1
  set rq2 := goKeyRawQuery u.rawQuery with hrq2
  have hp1h : path1.head? = some '/' := by
    rw [hpath1]
    by_cases hpe : u.path = []
    · rw [if_pos hpe]
      rfl
    · rw [if_neg hpe]
      rcases h6 with h6 | h6
      · exact absurd h6 hpe
      · exact h6
  have hp1b : ∀ c ∈ path1, c.toNat < 256 := by
    rw [hpath1]
    by_cases hpe : u.path = []
    · rw [if_pos hpe]
      intro c hc
      simp only [List.mem_singleton] at hc
      rw [hc]
      decide
    · rw [if_neg hpe]
      exact h7'
  have hp1ne : ¬ path1 = [] := by
    intro hcon
    rw [hcon] at hp1h
    exact Option.noConfusion hp1h
  have hw : goKeyURL u = { u with path := path1, rawQuery := rq2, fragment := [], rawFragment := [] } := by
    rw [goKeyURL_eq, canonical_wf u h1' h2' h4' h5']
  have hsafe := fun x hx => goKeyRawQuery_safe u.rawQuery x hx
  have hkeyu : goKey u = u.scheme ++ ':' :: '/' :: '/' :: u.host ++
      escapeURL path1 .path ++
      (if u.forceQuery = true ∨ ¬ rq2 = [] then '?' :: rq2 else []) := by
    rw [goKey, hw]
    exact urlString_key _ h1' h3 h4' h5' h8 hp1h rfl
  have hparse := goParse_key u.scheme u.host path1 rq2 u.forceQuery
    h1' h2' h4' h5' hp1h hp1b hsafe
  rw [← hkeyu] at hparse
  refine ⟨_, hparse, ?_⟩
  set v : GoURL := { emptyURL with scheme := u.scheme, host := u.host, path := path1, forceQuery := u.forceQuery && rq2.isEmpty, rawQuery := rq2 } with hv
  have hstab : goKeyRawQuery rq2 = rq2 := goKeyRawQuery_stable u.rawQuery h9'
  have hwv : goKeyURL v = { v with path := path1, rawQuery := rq2, fragment := [], rawFragment := [] } := by
    rw [goKeyURL_eq, canonical_wf v h1' h2' h4' h5']
    rw [show v.rawQuery = rq2 from rfl]
    rw [hstab]
    rw [show v.path = path1 from rfl]
    rw [if_neg hp1ne]
  have hkeyv : goKey v = u.scheme ++ ':' :: '/' :: '/' :: u.host ++
      escapeURL path1 .path ++
      (if (u.forceQuery && rq2.isEmpty) = true ∨ ¬ rq2 = [] then '?' :: rq2 else []) := by
    rw [goKey, hwv]
    exact urlString_key _ h1' rfl h4' h5' rfl hp1h rfl
  rw [hkeyv, hkeyu]
  have hqp2 : (if (u.forceQuery && rq2.isEmpty) = true ∨ ¬ rq2 = [] then '?' :: rq2 else []) =
      (if u.forceQuery = true ∨ ¬ rq2 = [] then '?' :: rq2 else []) := by
    by_cases hre : rq2 = []
    · rw [hre]
      rw [show ([] : List Char).isEmpty = true from rfl, Bool.and_true]
    · rw [if_pos (Or.inr hre), if_pos (Or.inr hre)]
  rw [hqp2]

/-- Witness for the amended C8 idempotence at a concrete URL with an
unsorted query, a duplicate parameter, a tracking parameter, an
escapable path byte and a fragment. -/
theorem key_idempotent_amended_witness :
    urlWF { mkURL "http" "example.com" "/a b" with rawQuery := "b=2&a=1&utm_source=x&a=3".data, fragment := "frag".data } = true ∧
    ∃ v, goParse (goKey { mkURL "http" "example.com" "/a b" with rawQuery := "b=2&a=1&utm_source=x&a=3".data, fragment := "frag".data }) = .ok v ∧
      goKey v = goKey { mkURL "http" "example.com" "/a b" with rawQuery := "b=2&a=1&utm_source=x&a=3".data, fragment := "frag".data } :=
  ⟨by decide, key_idempotent_amended _ (by decide)⟩
